import Mathlib

/-!
Shallow embedding of the QMDD engine of `src/main.cpp` (nlguillemot/qmdd).

The C++ source is a single file; we translate, faithfully:
  * the exact weight arithmetic (`rational`, `irrational`, `weight`),
    with C++ `%` / `/` on `int` rendered as `Int.tmod` / `Int.tdiv`
    (truncation toward zero) and machine ints widened to `Int`;
  * the weight interner (`unique_weights`), the node unique table
    (`unique_table`, with its linear-probing hash table), the two
    direct-mapped computed caches (`computed_table`, `computed_weights`);
  * the qmdd facade: `make_node`, weight `apply`, edge `apply` with the
    recursive operators `add` / `mul` / `kro` and `normalize`;
  * the relevant parts of `parse` (gate operand list processing) and of
    `decode` (gate compilation, identity prefix, Fredkin microcode).

Assertion failures / `std::abort` / out-of-bounds accesses are modelled by
`Option` / `Except` failure.  Recursions that the C++ performs with loops or
call recursion are given a `Nat` fuel argument so that every definition is
structural and kernel-evaluable.
-/

/-- C++ `%` on `int`: truncated toward zero (sign of the dividend). -/
def cmod (a b : Int) : Int := Int.tmod a b

/-- C++ `/` on `int`: truncated toward zero. -/
def cdiv (a b : Int) : Int := Int.tdiv a b

/-- `rational::gcd_euclidean` from src/main.cpp:727, with fuel for the
recursion `gcd_euclidean(b, a % b)`. -/
def gcd_euclidean : Nat → Int → Int → Int :=
  Nat.rec (fun a _ => a) fun _ ih a b => if b = 0 then a else ih b (cmod a b)

/-- `rational::gcd` from src/main.cpp:732: euclidean gcd, made nonnegative.
`b.natAbs + 1` fuel always suffices because `|a tmod b| < |b|`. -/
def rgcd (a b : Int) : Int :=
  let r := gcd_euclidean (b.natAbs + 1) a b
  if r < 0 then -r else r

/-- `qmdd::weight::rational` (src/main.cpp:722): a numerator/denominator pair. -/
structure rational where
  num : Int
  den : Int
deriving DecidableEq, Repr

/-- `rational(int n)` constructor. -/
def rational.ofInt (n : Int) : rational := ⟨n, 1⟩

/-- `rational::operator+=` (src/main.cpp:765), Boost.Rational style. -/
def radd (x y : rational) : rational :=
  let g := rgcd x.den y.den
  let den1 := cdiv x.den g
  let num1 := x.num * cdiv y.den g + y.num * den1
  let g2 := rgcd num1 g
  ⟨cdiv num1 g2, den1 * cdiv y.den g2⟩

/-- `rational::operator-=` (src/main.cpp:781). -/
def rsub (x y : rational) : rational :=
  let g := rgcd x.den y.den
  let den1 := cdiv x.den g
  let num1 := x.num * cdiv y.den g - y.num * den1
  let g2 := rgcd num1 g
  ⟨cdiv num1 g2, den1 * cdiv y.den g2⟩

/-- `rational::operator*=` (src/main.cpp:797). -/
def rmul (x y : rational) : rational :=
  let gcd1 := rgcd x.num y.den
  let gcd2 := rgcd y.num x.den
  ⟨cdiv x.num gcd1 * cdiv y.num gcd2, cdiv x.den gcd2 * cdiv y.den gcd1⟩

/-- `rational::operator/=` (src/main.cpp:811).  The `assert(r_num != 0)`
(division by zero) is modelled by returning `none`. -/
def rdiv (x y : rational) : Option rational :=
  if y.num = 0 then none
  else if x.num = 0 then some x
  else
    let gcd1 := rgcd x.num y.num
    let gcd2 := rgcd y.den x.den
    let num1 := cdiv x.num gcd1 * cdiv y.den gcd2
    let den1 := cdiv x.den gcd2 * cdiv y.num gcd1
    if den1 < 0 then some ⟨-num1, -den1⟩ else some ⟨num1, den1⟩

/-- `qmdd::weight::irrational` (src/main.cpp:861): `intpart + sqrt2part·√2`. -/
structure irrational where
  intpart : rational
  sqrt2part : rational
deriving DecidableEq, Repr

/-- `irrational(const rational&)` constructor. -/
def irrational.ofRat (r : rational) : irrational := ⟨r, rational.ofInt 0⟩

/-- `irrational::operator+=` (src/main.cpp:894). -/
def iadd (x y : irrational) : irrational :=
  ⟨radd x.intpart y.intpart, radd x.sqrt2part y.sqrt2part⟩

/-- `irrational::operator-=` (src/main.cpp:902). -/
def isub (x y : irrational) : irrational :=
  ⟨rsub x.intpart y.intpart, rsub x.sqrt2part y.sqrt2part⟩

/-- `irrational::operator*=` (src/main.cpp:910):
`(a + b√2)(c + d√2) = (ac + 2bd) + (ad + bc)√2`. -/
def imul (x y : irrational) : irrational :=
  let a := x.intpart
  let b := x.sqrt2part
  let c := y.intpart
  let d := y.sqrt2part
  ⟨radd (rmul a c) (rmul (rmul (rational.ofInt 2) b) d),
   radd (rmul a d) (rmul b c)⟩

/-- `irrational::operator/=` (src/main.cpp:923): divides by `c² − 2d²`. -/
def idiv (x y : irrational) : Option irrational := do
  let a := x.intpart
  let b := x.sqrt2part
  let c := y.intpart
  let d := y.sqrt2part
  let denom := rsub (rmul c c) (rmul (rmul (rational.ofInt 2) d) d)
  let ip ← rdiv (rsub (rmul a c) (rmul (rmul (rational.ofInt 2) b) d)) denom
  let sp ← rdiv (rsub (rmul b c) (rmul a d)) denom
  some ⟨ip, sp⟩

/-- `qmdd::weight` (src/main.cpp:719): a complex number over ℚ[√2]. -/
structure weight where
  real : irrational
  imag : irrational
deriving DecidableEq, Repr

/-- `weight::zero()`. -/
def weight.zero : weight :=
  ⟨irrational.ofRat (rational.ofInt 0), irrational.ofRat (rational.ofInt 0)⟩

/-- `weight::one()`. -/
def weight.one : weight :=
  ⟨irrational.ofRat (rational.ofInt 1), irrational.ofRat (rational.ofInt 0)⟩

/-- `weight::i()`. -/
def weight.iunit : weight :=
  ⟨irrational.ofRat (rational.ofInt 0), irrational.ofRat (rational.ofInt 1)⟩

/-- `weight::sq2()`. -/
def weight.sq2 : weight :=
  ⟨⟨rational.ofInt 0, rational.ofInt 1⟩, irrational.ofRat (rational.ofInt 0)⟩

/-- `weight::operator+=` (src/main.cpp:1008). -/
def wadd (x y : weight) : weight := ⟨iadd x.real y.real, iadd x.imag y.imag⟩

/-- `weight::operator-=` (src/main.cpp:1026). -/
def wsub (x y : weight) : weight := ⟨isub x.real y.real, isub x.imag y.imag⟩

/-- `weight::operator*=` (src/main.cpp:1044):
`(a+bi)(c+di) = (ac − bd) + (ad + bc)i`. -/
def wmul (x y : weight) : weight :=
  let a := x.real
  let b := x.imag
  let c := y.real
  let d := y.imag
  ⟨isub (imul a c) (imul b d), iadd (imul a d) (imul b c)⟩

/-- `weight::operator/=` (src/main.cpp:1063): divides by `c² + d²`. -/
def wdiv (x y : weight) : Option weight := do
  let a := x.real
  let b := x.imag
  let c := y.real
  let d := y.imag
  let denom := iadd (imul c c) (imul d d)
  let re ← idiv (iadd (imul a c) (imul b d)) denom
  let im ← idiv (isub (imul b c) (imul a d)) denom
  some ⟨re, im⟩

/-! ### Handles, nodes, edges, engine state -/

/-- `uint32_t(-1)`: the invalid node / weight handle value. -/
def invalid_value : Nat := 4294967295

/-- `unique_table::node` (src/main.cpp:1207): `(var, children[p²], weights[p²])`
with `p = 2`; children and weights are handle lists of length 4. -/
structure node where
  var : Nat
  children : List Nat
  weights : List Nat
deriving DecidableEq, Repr

/-- `qmdd::edge` (src/main.cpp:674): a weight handle and a node handle. -/
structure edge where
  w : Nat
  v : Nat
deriving DecidableEq, Repr

/-- `computed_table::cache_entry` (src/main.cpp:1352). -/
structure centry where
  e0 : edge
  e1 : edge
  op : Nat
  result : edge
deriving DecidableEq, Repr

/-- `computed_weights::cache_entry` (src/main.cpp:1428). -/
structure wentry where
  w0 : Nat
  w1 : Nat
  op : Nat
  r : Nat
deriving DecidableEq, Repr

/-- The mutable state of one `qmdd` engine instance: the node pool and hash
table of `unique_table`, the edge cache of `computed_table`, the weight vector
of `unique_weights` and the weight cache of `computed_weights`.  The fixed-size
C++ arrays (hash table slots, direct-mapped caches) are modelled as
association lists keyed by slot index; an absent key stands for the
invalid/empty initial slot value. -/
structure St where
  pool : List node
  table : List (Nat × Nat)
  ctab : List (Nat × centry)
  wlist : List weight
  wtab : List (Nat × wentry)
deriving DecidableEq, Repr

/-- Read an association-list slot. -/
def aget : List (Nat × α) → Nat → Option α :=
  List.rec (fun _ => none) fun kv _ ih k0 =>
    if kv.1 = k0 then some kv.2 else ih k0

/-- Overwrite an association-list slot (direct-mapped caches evict). -/
def aset : List (Nat × α) → Nat → α → List (Nat × α) :=
  List.rec (fun k0 v0 => [(k0, v0)]) fun kv t ih k0 v0 =>
    if kv.1 = k0 then (k0, v0) :: t else kv :: ih k0 v0

/-- `unique_table` capacity (src/main.cpp:1219): 2²⁰. -/
def ddcapacity : Nat := 1048576

/-- Cache size of both computed tables (src/main.cpp:1360, 1436). -/
def ctsize : Nat := 1024

/-- Node data read accessors.  `node_at` is `unique_table::to_node`; an
out-of-range handle (undefined behaviour in C++) yields a dummy node. -/
def node_at (s : St) (h : Nat) : node := s.pool.getD h ⟨0, [], []⟩

/-- `unique_table::get_var`. -/
def get_var (s : St) (h : Nat) : Nat := (node_at s h).var

/-- `unique_table::get_child`. -/
def get_child (s : St) (h : Nat) (i : Nat) : Nat := (node_at s h).children.getD i 0

/-- `unique_table::get_weight`. -/
def get_weight (s : St) (h : Nat) (i : Nat) : Nat := (node_at s h).weights.getD i 0

/-- The probing loop of `unique_table::insert` (src/main.cpp:1331).  Walks
`table[key]`, returning a matching node's handle, or allocating the node from
the pool on the first empty slot.  Fuel bounds the probe walk; pool overflow
(`pool_alloc` abort) is `none`. -/
def ut_probe (n : node) : Nat → Nat → St → Option (Nat × St) :=
  Nat.rec (fun _ _ => none) fun _ ih key s =>
    match aget s.table key with
    | none =>
      if s.pool.length ≥ ddcapacity then none
      else
        some (s.pool.length,
          { s with pool := s.pool ++ [n], table := aset s.table key s.pool.length })
    | some h =>
      match s.pool.get? h with
      | none => none
      | some m => if m = n then some (h, s) else ih ((key + 1) % ddcapacity) s

/-- `unique_table::insert` (src/main.cpp:1314): hash `var + Σ children + Σ
weights`, masked; then probe.  (`& ddutmask` on `uint32_t` equals `% 2²⁰`
because 2²⁰ divides 2³².) -/
def ut_insert (s : St) (n : node) : Option (Nat × St) :=
  let key := (n.var + n.children.sum + n.weights.sum) % ddcapacity
  ut_probe n ddcapacity key s

/-- The adjacent-pairs equality loop of `qmdd::make_node` (src/main.cpp:1511). -/
def all_adjacent_eq : List Nat → Bool :=
  List.rec true fun a t ih =>
    match t with
    | [] => true
    | b :: _ => a = b && ih

/-- `qmdd::make_node` (src/main.cpp:1507): no-redundancy collapse, then
unique-table insertion. -/
def make_node (s : St) (var : Nat) (children weights : List Nat) :
    Option (Nat × St) :=
  if all_adjacent_eq children && all_adjacent_eq weights then
    match children.head? with
    | some c => some (c, s)
    | none => none
  else ut_insert s ⟨var, children, weights⟩

/-- The scan loop of `unique_weights::insert` (src/main.cpp:1408). -/
def uw_scan : List weight → weight → Option Nat :=
  List.rec (fun _ => none) fun a _ ih w =>
    if a = w then some 0 else (ih w).map (· + 1)

/-- `unique_weights::insert` (src/main.cpp:1406): linear scan, else append. -/
def uw_insert (l : List weight) (w : weight) : Nat × List weight :=
  match uw_scan l w with
  | some i => (i, l)
  | none => (l.length, l ++ [w])

/-- `computed_weights::hash` (src/main.cpp:1443). -/
def wkey (w0 w1 op : Nat) : Nat := (w0 + w1 + op) % ctsize

/-- `computed_weights::find` (src/main.cpp:1453): returns the result handle or
the `invalid_weight` sentinel. -/
def wt_find (wtab : List (Nat × wentry)) (w0 w1 op : Nat) : Nat :=
  match aget wtab (wkey w0 w1 op) with
  | none => invalid_value
  | some en =>
    if en.w0 = w0 ∧ en.w1 = w1 ∧ en.op = op then en.r else invalid_value

/-- The weight-op dispatch of `qmdd::apply(weight_handle, weight_handle,
weight_op)` (src/main.cpp:1549): ops are add=0, sub=1, mul=2, div=3. -/
def weight_op_eval (x y : weight) : Nat → Option weight
  | 0 => some (wadd x y)
  | 1 => some (wsub x y)
  | 2 => some (wmul x y)
  | 3 => wdiv x y
  | _ => none

/-- `qmdd::apply` on weight handles (src/main.cpp:1541): cache lookup, weight
arithmetic, interning, cache insert. -/
def apply_weight (s : St) (w0 w1 op : Nat) : Option (St × Nat) :=
  let found := wt_find s.wtab w0 w1 op
  if found ≠ invalid_value then some (s, found)
  else do
    let x ← s.wlist.get? w0
    let y ← s.wlist.get? w1
    let nw ← weight_op_eval x y op
    let (h, wl) := uw_insert s.wlist nw
    some ({ s with wlist := wl, wtab := aset s.wtab (wkey w0 w1 op) ⟨w0, w1, op, h⟩ }, h)

/-- The inner loop of `apply_helper::normalize` (src/main.cpp:1623): divide
every later non-zero slot by the extracted factor `f`. -/
def normalize_rest (f : Nat) : List Nat → St → Option (St × List Nat) :=
  List.rec (fun s => some (s, [])) fun w _ ih s =>
    if w ≠ 0 then do
      let (s1, w1) ← apply_weight s w f 3
      let (s2, t1) ← ih s1
      some (s2, w1 :: t1)
    else do
      let (s2, t1) ← ih s
      some (s2, w :: t1)

/-- `apply_helper::normalize` (src/main.cpp:1611): find the first non-zero
slot, return it as the factor, put `W1` in its place and divide the later
slots; all-zero slot vectors return `W0` unchanged. -/
def normalize_weights : List Nat → St → Option (St × Nat × List Nat) :=
  List.rec (fun s => some (s, 0, [])) fun w t ih s =>
    if w = 0 then do
      let (s1, f, t1) ← ih s
      some (s1, f, w :: t1)
    else do
      let (s1, t1) ← normalize_rest w t s
      some (s1, w, 1 :: t1)

/-- `computed_table::hash` (src/main.cpp:1367). -/
def ckey (e0 e1 : edge) (op : Nat) : Nat :=
  (e0.v + e1.v + e0.w + e1.w + op) % ctsize

/-- `computed_table::find` (src/main.cpp:1377): the result edge on a key
match, else the `(invalid_weight, invalid_node)` sentinel. -/
def ct_find (ctab : List (Nat × centry)) (e0 e1 : edge) (op : Nat) : edge :=
  match aget ctab (ckey e0 e1 op) with
  | none => ⟨invalid_value, invalid_value⟩
  | some en =>
    if en.e0 = e0 ∧ en.e1 = e1 ∧ en.op = op then en.result
    else ⟨invalid_value, invalid_value⟩

/-- `apply_helper::term` (src/main.cpp:1606): the terminal is the first node
allocated by `unique_table::init`, so its handle is 0. -/
def term (e : edge) : Bool := e.v = 0

/-- `apply_helper::Ei` (src/main.cpp:1601): the i-th outgoing edge of `e.v`. -/
def Ei (s : St) (e : edge) (i : Nat) : edge :=
  ⟨get_weight s e.v i, get_child s e.v i⟩

/-- The recursive call shapes inside `qmdd::apply` on edges: the cached entry
point and the three `apply_helper` operators. -/
inductive call where
  | ap (e0 e1 : edge) (op : Nat)
  | addc (e0 e1 : edge)
  | mulc (e0 e1 : edge)
  | kroc (e0 e1 : edge)
deriving DecidableEq, Repr

/-- The quadrant loop of `apply_helper::add` (src/main.cpp:1655), parametric
in the recursive edge-apply `g`.  Produces the list of quadrant edges `z_i`. -/
def add_quad (g : St → edge → edge → Nat → Option (St × edge)) (e0 e1 : edge) :
    List Nat → St → Option (St × List edge) :=
  List.rec (fun s => some (s, [])) fun i _ ih s => do
    let (s1, q0w) ← apply_weight s e0.w (get_weight s e0.v i) 2
    let q0 : edge := ⟨q0w, get_child s e0.v i⟩
    let (s2, q1) ←
      if get_var s e0.v = get_var s e1.v then do
        let (s2, q1w) ← apply_weight s1 e1.w (get_weight s1 e1.v i) 2
        pure (s2, (⟨q1w, get_child s1 e1.v i⟩ : edge))
      else pure (s1, e1)
    let (s3, zi) ← g s2 q0 q1 0
    let (s4, rest) ← ih s3
    some (s4, zi :: rest)

/-- The innermost k-sum of `apply_helper::mul` (src/main.cpp:1707): row `i`
of `e0` against column `j` of `e1` (slot `j + p·k`, the transposed indexing),
accumulated by edge addition starting from the zero edge. -/
def mul_sum (g : St → edge → edge → Nat → Option (St × edge)) (e0 e1 : edge)
    (i j : Nat) : List Nat → St → edge → Option (St × edge) :=
  List.rec (fun s acc => some (s, acc)) fun k _ ih s acc => do
    let (s1, q0w) ← apply_weight s e0.w (get_weight s e0.v (i + k)) 2
    let q0 : edge := ⟨q0w, get_child s e0.v (i + k)⟩
    let (s2, q1) ←
      if get_var s e0.v = get_var s e1.v then do
        let (s2, q1w) ← apply_weight s1 e1.w (get_weight s1 e1.v (j + 2 * k)) 2
        pure (s2, (⟨q1w, get_child s1 e1.v (j + 2 * k)⟩ : edge))
      else pure (s1, e1)
    let (s3, q0q1) ← g s2 q0 q1 1
    let (s4, acc1) ← g s3 acc q0q1 0
    ih s4 acc1

/-- The block-row/block-column loop of `apply_helper::mul` (src/main.cpp:1702):
slots are visited as (i,j) ∈ {0,2}×{0,1} filling slot `i + j`. -/
def mul_quad (g : St → edge → edge → Nat → Option (St × edge)) (e0 e1 : edge) :
    List (Nat × Nat) → St → Option (St × List edge) :=
  List.rec (fun s => some (s, [])) fun ij _ ih s => do
    let (s1, zij) ← mul_sum g e0 e1 ij.1 ij.2 [0, 1] s ⟨0, 0⟩
    let (s2, rest) ← ih s1
    some (s2, zij :: rest)

/-- The quadrant loop of `apply_helper::kro` (src/main.cpp:1753). -/
def kro_quad (g : St → edge → edge → Nat → Option (St × edge)) (e0 e1 : edge) :
    List Nat → St → Option (St × List edge) :=
  List.rec (fun s => some (s, [])) fun i _ ih s => do
    let (s1, zi) ← g s (Ei s e0 i) e1 2
    let (s2, rest) ← ih s1
    some (s2, zi :: rest)

/-- `qmdd::apply` on edges (src/main.cpp:1579) together with
`apply_helper::add` / `mul` / `kro`, as one fuel-indexed evaluator.
`call.ap` is the cached entry point (ops add=0, mul=1, kro=2); the other
constructors are the direct helper calls, which do not consult the cache —
in particular `add`'s argument-order swap re-enters `add` directly, and
`mul`'s swap (the `return add(e1, e0)` at src/main.cpp:1697) re-enters
`add`, exactly as the C++ does.  `run_step` is one step of the evaluator,
parametric in the evaluation `ih` of the recursive calls; the fuel-indexed
`run` below ties it back to itself. -/
def run_step (ih : St → call → Option (St × edge)) (s : St) :
    call → Option (St × edge)
  | call.ap e0 e1 op =>
    let found := ct_find s.ctab e0 e1 op
    if found.v ≠ invalid_value then some (s, found)
    else do
      let (s1, r) ←
        match op with
        | 0 => ih s (call.addc e0 e1)
        | 1 => ih s (call.mulc e0 e1)
        | 2 => ih s (call.kroc e0 e1)
        | _ => none
      some ({ s1 with ctab := aset s1.ctab (ckey e0 e1 op) ⟨e0, e1, op, r⟩ }, r)
  | call.addc e0 e1 =>
    if term e0 && e0.w = 0 then some (s, e1)
    else if term e0 && term e1 then do
      let (s1, w) ← apply_weight s e0.w e1.w 0
      some (s1, ⟨w, 0⟩)
    else if get_var s e0.v > get_var s e1.v then ih s (call.addc e1 e0)
    else do
      let (s1, zs) ← add_quad (fun s a b op => ih s (call.ap a b op)) e0 e1
        [0, 1, 2, 3] s
      let (s2, nw, ws) ← normalize_weights (zs.map edge.w) s1
      let (h, s3) ← make_node s2 (get_var s1 e0.v) (zs.map edge.v) ws
      some (s3, ⟨nw, h⟩)
  | call.mulc e0 e1 =>
    if term e0 && e0.w = 0 then some (s, e0)
    else if term e0 && e0.w = 1 then some (s, e1)
    else if term e0 then do
      let (s1, w) ← apply_weight s e0.w e1.w 2
      some (s1, ⟨w, e1.v⟩)
    else if get_var s e0.v > get_var s e1.v then ih s (call.addc e1 e0)
    else do
      let (s1, zs) ← mul_quad (fun s a b op => ih s (call.ap a b op)) e0 e1
        [(0, 0), (0, 1), (2, 0), (2, 1)] s
      let (s2, nw, ws) ← normalize_weights (zs.map edge.w) s1
      let (h, s3) ← make_node s2 (get_var s1 e0.v) (zs.map edge.v) ws
      some (s3, ⟨nw, h⟩)
  | call.kroc e0 e1 =>
    if term e0 && e0.w = 0 then some (s, e0)
    else if term e0 && e0.w = 1 then some (s, e1)
    else if term e0 then do
      let (s1, w) ← apply_weight s e0.w e1.w 2
      some (s1, ⟨w, e1.v⟩)
    else if get_var s e0.v < get_var s e1.v then do
      let (s1, zs) ← kro_quad (fun s a b op => ih s (call.ap a b op)) e0 e1
        [0, 1, 2, 3] s
      let (s2, nw0, ws) ← normalize_weights (zs.map edge.w) s1
      let (s3, nw) ← apply_weight s2 nw0 e0.w 2
      let (h, s4) ← make_node s3 (get_var s1 e0.v) (zs.map edge.v) ws
      some (s4, ⟨nw, h⟩)
    else none

/-- The fuel-indexed evaluator (see `run_step`). -/
def run : Nat → St → call → Option (St × edge) :=
  Nat.rec (fun _ _ => none) fun _ ih => run_step ih

/-- `qmdd::apply(edge, edge, op)`: the public cached entry point. -/
def apply_edge (fuel : Nat) (s : St) (e0 e1 : edge) (op : Nat) :
    Option (St × edge) :=
  run fuel s (call.ap e0 e1 op)

/-- `qmdd::qmdd(num_vars)` / `unique_table::init` (src/main.cpp:1256): pool
seeded with the terminal node (`var = num_vars`, children pointing to itself,
weights `W1`), weight vector seeded with 0 and 1, caches empty. -/
def init_qmdd (num_vars : Nat) : St :=
  { pool := [⟨num_vars, [0, 0, 0, 0], [1, 1, 1, 1]⟩]
    table := []
    ctab := []
    wlist := [weight.zero, weight.one]
    wtab := [] }

/-! ### The circuit compiler `decode` (src/main.cpp:1810) -/

/-- `identity_children` of `decode` (src/main.cpp:1824): all four children are
the terminal. -/
def identity_children : List Nat := [0, 0, 0, 0]

/-- `identity_weights` (src/main.cpp:1824): `(1, 0, 0, 1)`. -/
def identity_weights : List Nat := [1, 0, 0, 1]

/-- `not_weights` (src/main.cpp:1824): `(0, 1, 1, 0)`. -/
def not_weights : List Nat := [0, 1, 1, 0]

/-- `if_false_weights` (src/main.cpp:1852): project |0⟩. -/
def if_false_weights : List Nat := [1, 0, 0, 0]

/-- `if_true_weights` (src/main.cpp:1861): project |1⟩. -/
def if_true_weights : List Nat := [0, 0, 0, 1]

/-- `qmdd::get_weight_i_handle` (src/main.cpp:1529). -/
def get_weight_i_handle (s : St) : St × Nat :=
  let (h, wl) := uw_insert s.wlist weight.iunit
  ({ s with wlist := wl }, h)

/-- `qmdd::get_weight_sq2_handle` (src/main.cpp:1535). -/
def get_weight_sq2_handle (s : St) : St × Nat :=
  let (h, wl) := uw_insert s.wlist weight.sq2
  ({ s with wlist := wl }, h)

/-- The per-gate 1-variable weight tables built at the top of `decode`. -/
structure gblocks where
  yW : List Nat
  zW : List Nat
  vW : List Nat
  vnW : List Nat
  hW : List Nat
  qW : List Nat
  qnW : List Nat
deriving DecidableEq, Repr

/-- The weight-table construction at the top of `decode`
(src/main.cpp:1870-1935), in source statement order. -/
def decode_tables (s0 : St) : Option (St × gblocks) := do
  let (s, hi) := get_weight_i_handle s0
  let (s, y1) ← apply_weight s 0 hi 1
  let (s, y2) := get_weight_i_handle s
  let yW := [0, y1, y2, 0]
  let (s, z3) ← apply_weight s 0 1 1
  let zW := [1, 0, 0, z3]
  let (s, w2) ← apply_weight s 1 1 0
  let (s, hia) := get_weight_i_handle s
  let (s, t1) ← apply_weight s 1 hia 0
  let (s, oai2) ← apply_weight s t1 w2 3
  let (s, hib) := get_weight_i_handle s
  let (s, t2) ← apply_weight s 1 hib 1
  let (s, osi2) ← apply_weight s t2 w2 3
  let vW := [oai2, osi2, osi2, oai2]
  let vnW := [osi2, oai2, oai2, osi2]
  let (s, hs) := get_weight_sq2_handle s
  let (s, obs) ← apply_weight s 1 hs 3
  let (s, h3) ← apply_weight s 0 obs 1
  let hW := [obs, obs, obs, h3]
  let (s, hs2) := get_weight_sq2_handle s
  let (s, obs2) ← apply_weight s 1 hs2 3
  let (s, hic) := get_weight_i_handle s
  let (s, hs3) := get_weight_sq2_handle s
  let (s, ibs) ← apply_weight s hic hs3 3
  let (s, q3) ← apply_weight s obs2 ibs 0
  let (s, qn3) ← apply_weight s obs2 ibs 1
  some (s, ⟨yW, zW, vW, vnW, hW, [1, 0, 0, q3], [1, 0, 0, qn3]⟩)

/-- The identity-prefix loop of `decode` (src/main.cpp:1940): builds
`identitySubtree[k]` for `k = N-1 … 0`; the returned list is indexed by `k`
with `identitySubtree[N] = (W1, terminal)` last. -/
def ident_go (fe : Nat) : Nat → St → edge → List edge → Option (St × edge × List edge) :=
  Nat.rec (fun s root acc => some (s, root, acc)) fun v ih s root acc => do
    let (h, s1) ← make_node s v identity_children identity_weights
    let (s2, root1) ← apply_edge fe s1 ⟨1, h⟩ root 2
    ih s2 root1 (root1 :: acc)

/-- Engine construction plus the `decode` preamble: weight tables, then the
N-variable identity accumulator and the `identitySubtree` array. -/
def decode_prelude (fe N : Nat) : Option (St × gblocks × List edge × edge) := do
  let (s, bl) ← decode_tables (init_qmdd N)
  let r0 : edge := ⟨1, 0⟩
  let (s1, root, isub) ← ident_go fe N s r0 [r0]
  some (s1, bl, isub, root)

/-- The per-variable layer loop of a single-target gate in `decode`
(src/main.cpp:2096-2143).  `v+1` processes variable id `v`; `ctrls` is the
reversed control list, standing for `next_control_var_id` walking backward. -/
def tof_go (fe : Nat) (gw : List Nat) (isub : List edge) (target : Nat) :
    Nat → List Nat → St → edge → edge → Option (St × edge × edge) :=
  Nat.rec (fun _ s act inact => some (s, act, inact)) fun v ih ctrls s act inact => do
    let (is_c, ctrls1) :=
      match ctrls with
      | c :: t => if c = v then (true, t) else (false, ctrls)
      | [] => (false, [])
    if v > target then
      if is_c then do
        let (ht, s) ← make_node s v identity_children if_true_weights
        let (s, act1) ← apply_edge fe s ⟨1, ht⟩ act 2
        let (hf, s) ← make_node s v identity_children if_false_weights
        let (s, i1) ← apply_edge fe s ⟨1, hf⟩ (isub.getD (v + 1) ⟨1, 0⟩) 2
        let (ht2, s) ← make_node s v identity_children if_true_weights
        let (s, i2) ← apply_edge fe s ⟨1, ht2⟩ inact 2
        let (s, inact1) ← apply_edge fe s i1 i2 0
        ih ctrls1 s act1 inact1
      else do
        let (h1, s) ← make_node s v identity_children identity_weights
        let (s, act1) ← apply_edge fe s ⟨1, h1⟩ act 2
        let (h2, s) ← make_node s v identity_children identity_weights
        let (s, inact1) ← apply_edge fe s ⟨1, h2⟩ inact 2
        ih ctrls1 s act1 inact1
    else if v = target then do
      let (h1, s) ← make_node s v identity_children identity_weights
      let (s, a1) ← apply_edge fe s ⟨1, h1⟩ inact 2
      let (h2, s) ← make_node s v identity_children gw
      let (s, a2) ← apply_edge fe s ⟨1, h2⟩ act 2
      let (s, act1) ← apply_edge fe s a1 a2 0
      ih ctrls1 s act1 inact
    else
      if is_c then do
        let (hf, s) ← make_node s v identity_children if_false_weights
        let (s, a1) ← apply_edge fe s ⟨1, hf⟩ (isub.getD (v + 1) ⟨1, 0⟩) 2
        let (ht, s) ← make_node s v identity_children if_true_weights
        let (s, a2) ← apply_edge fe s ⟨1, ht⟩ act 2
        let (s, act1) ← apply_edge fe s a1 a2 0
        ih ctrls1 s act1 inact
      else do
        let (h1, s) ← make_node s v identity_children identity_weights
        let (s, act1) ← apply_edge fe s ⟨1, h1⟩ act 2
        ih ctrls1 s act1 inact

/-- The per-opcode weight-table selection of `decode` (src/main.cpp:2018-2086);
opcodes follow `gate_opcode`: toffoli=0, fredkin=1, y=2, z=3, v=4, v'=5, h=6,
q=7, q'=8. -/
def opcode_weights (bl : gblocks) : Nat → Option (List Nat)
  | 0 => some not_weights
  | 2 => some bl.yW
  | 3 => some bl.zW
  | 4 => some bl.vW
  | 5 => some bl.vnW
  | 6 => some bl.hW
  | 7 => some bl.qW
  | 8 => some bl.qnW
  | _ => none

/-- The gate-stream driver loop of `decode` (src/main.cpp:1966-2198) over the
stack of gate streams; Fredkin pushes its three-Toffoli microcode stream
(src/main.cpp:2170-2191). -/
def gate_go (fe N : Nat) (bl : gblocks) (isub : List edge) :
    Nat → List (List Nat) → St → edge → Option (St × edge) :=
  Nat.rec
    (fun streams s root => match streams with
      | [] => some (s, root)
      | _ => none)
    fun _ ih streams s root =>
    match streams with
    | [] => some (s, root)
    | [] :: rest => ih rest s root
    | [_] :: _ => none
    | (opcode :: pcnt :: tail) :: rest =>
      let params := tail.take pcnt
      let tail1 := tail.drop pcnt
      if params.length ≠ pcnt then none
      else if opcode = 1 then
        if params.length < 2 then none
        else
          let swap_b := params.getLastD 0
          let swap_a := params.dropLast.getLastD 0
          let nc := params.length - 2
          let micro := [0, 2, swap_b, swap_a] ++ [0, 2 + nc] ++ params.take nc ++
            [swap_a, swap_b] ++ [0, 2, swap_b, swap_a]
          ih (micro :: tail1 :: rest) s root
      else do
        let gw ← opcode_weights bl opcode
        if params.length < 1 then none
        else do
          let target := params.getLastD 0
          let (s1, act, _) ← tof_go fe gw isub target N params.dropLast.reverse s
            ⟨1, 0⟩ ⟨0, 0⟩
          let (s2, root1) ← apply_edge fe s1 act root 1
          ih (tail1 :: rest) s2 root1

/-- Full `decode` run: prelude, then the gate stream, returning the engine
state and the root edge. -/
def decode_run (fe N : Nat) (stream : List Nat) : Option (St × edge) := do
  let (s, bl, isub, root) ← decode_prelude fe N
  gate_go fe N bl isub 50 [stream] s root

/-! ### Gate-line operand processing in `parse` (src/main.cpp:461-614) -/

/-- The three input-error classes raised while processing a gate line's
operands: "too many parameters" (src/main.cpp:523), "parameters must be in
variable order" (src/main.cpp:548), "gate needs at least …" (src/main.cpp:493,
567). -/
inductive perr where
  | tooMany
  | badOrder
  | needInput
deriving DecidableEq, Repr

/-- The `accept_list` callback loop of a gate line (src/main.cpp:519-535):
operands (already resolved to variable ids) are appended to the gate stream
while `pcnt` counts down; a further operand at `pcnt == 0` throws
"too many parameters". -/
def accept_params : List Nat → Nat → Except perr (List Nat) :=
  List.rec (fun _ => Except.ok []) fun id _ ih p =>
    if p = 0 then Except.error perr.tooMany
    else (ih (p - 1)).map (fun l => id :: l)

/-- The operand-order check loop (src/main.cpp:537-552): walks the pushed
operands with `last_var` (here an `Option Nat`, `none` standing for the
initial `-1`), failing when `last_var >= param`.  The loop bound
`i < gate_stream.size() - 1` means the *last* pushed operand is never
visited, so callers pass the operand list with its last element dropped. -/
def ascending_chk : List Nat → Option Nat → Bool :=
  List.rec (fun _ => true) fun a _ ih lv =>
    match lv with
    | none => ih (some a)
    | some l => if l ≥ a then false else ih (some a)

/-- A single-target gate line of `parse` (src/main.cpp:461-554), from the
param-count check onward: the gate stream receives `opcode`, the declared
`pcnt`, then the listed operands; finally the order check runs over all
pushed operands except the last. -/
def gate_line (opcode pcnt : Nat) (ids : List Nat) : Except perr (List Nat) :=
  if pcnt < 1 then Except.error perr.needInput
  else
    match accept_params ids pcnt with
    | Except.error e => Except.error e
    | Except.ok params =>
      if ascending_chk params.dropLast none then Except.ok (opcode :: pcnt :: params)
      else Except.error perr.badOrder

/-- The Fredkin gate line of `parse` (src/main.cpp:558-611): identical except
for the two-input minimum and the fixed opcode. -/
def gate_line_f (pcnt : Nat) (ids : List Nat) : Except perr (List Nat) :=
  if pcnt < 2 then Except.error perr.needInput
  else
    match accept_params ids pcnt with
    | Except.error e => Except.error e
    | Except.ok params =>
      if ascending_chk params.dropLast none then Except.ok (1 :: pcnt :: params)
      else Except.error perr.badOrder

/-! ### Concrete runs used by claims C1, C2 and C5 -/

/-- A two-variable engine after the `decode` preamble (weight tables and the
identity accumulator), extended with the NOT building block at variable 1.
Yields the state, the edge `e = (W1, X₁)` and the identity root
`one = identitySubtree[0]`. -/
def c15_state : Option (St × edge × edge) := do
  let (s, _bl, _isub, root0) ← decode_prelude 200 2
  let (hx, s1) ← make_node s 1 identity_children not_weights
  some (s1, ⟨1, hx⟩, root0)

/-- Three applications in that state: `apply(e, one, mul)`,
`apply(one, e, mul)` and `apply(one, e, add)` (states threaded in order). -/
def c1_runs : Option (edge × edge × edge) := do
  let (s, e, one0) ← c15_state
  let (s1, a) ← apply_edge 200 s e one0 1
  let (s2, b) ← apply_edge 200 s1 one0 e 1
  let (_s3, c) ← apply_edge 200 s2 one0 e 0
  some (a, b, c)

/-- The edge `e = (W1, X₁)` of `c15_state` and the results of
`apply(e, one, mul)` and `apply(one, e, mul)` in that state. -/
def c5_runs : Option (edge × edge × edge) := do
  let (s, e, one0) ← c15_state
  let (s1, a) ← apply_edge 200 s e one0 1
  let (_s2, b) ← apply_edge 200 s1 one0 e 1
  some (e, a, b)

/-- One three-variable engine (`.v a,b,c`, ids a=0, b=1, c=2) compiling, in
sequence against the same engine state, each time from the identity
accumulator:
  * the one-gate program `f 3 a,b,c` (stream `[1, 3, 0, 1, 2]`),
  * the sequence `t2 b,c; t3 a,b,c; t2 b,c` of the claim
    (stream `[0,2,1,2, 0,3,0,1,2, 0,2,1,2]`), and
  * the sequence `t2 c,b; t3 a,b,c; t2 c,b` in actual microcode operand order
    (stream `[0,2,2,1, 0,3,0,1,2, 0,2,2,1]`),
returning the three root edges. -/
def c2_chain : Option (edge × edge × edge) := do
  let (s, bl, isub, root0) ← decode_prelude 200 3
  let (s1, rf) ← gate_go 200 3 bl isub 50 [[1, 3, 0, 1, 2]] s root0
  let (s2, rc) ← gate_go 200 3 bl isub 50
    [[0, 2, 1, 2, 0, 3, 0, 1, 2, 0, 2, 1, 2]] s1 root0
  let (s3, ra) ← gate_go 200 3 bl isub 50
    [[0, 2, 2, 1, 0, 3, 0, 1, 2, 0, 2, 2, 1]] s2 root0
  let _ := s3
  some (rf, rc, ra)


/-! ### Value semantics of the weight domain -/

/-- Value of an embedded rational in ℚ. -/
def rval (x : rational) : ℚ := (x.num : ℚ) / (x.den : ℚ)

/-- Reduced form: positive denominator, coprime numerator/denominator. -/
def rreduced (x : rational) : Prop := 0 < x.den ∧ Int.gcd x.num x.den = 1

/-- Value of an `irrational` as its coefficient pair (1-part, √2-part). -/
def ivalp (x : irrational) : ℚ × ℚ := (rval x.intpart, rval x.sqrt2part)

/-- Both coefficients of an `irrational` in reduced form. -/
def ireduced (x : irrational) : Prop := rreduced x.intpart ∧ rreduced x.sqrt2part

/-- Value of a `weight`: real and imaginary coefficient pairs. -/
def wvalp (w : weight) : (ℚ × ℚ) × (ℚ × ℚ) := (ivalp w.real, ivalp w.imag)

/-- All four rationals of a weight in reduced form. -/
def wreduced (w : weight) : Prop := ireduced w.real ∧ ireduced w.imag

/-- Value-level ℚ[√2] operations on coefficient pairs (spec §4.1). -/
def qq_add (u v : ℚ × ℚ) : ℚ × ℚ := (u.1 + v.1, u.2 + v.2)

/-- Value-level ℚ[√2] subtraction. -/
def qq_sub (u v : ℚ × ℚ) : ℚ × ℚ := (u.1 - v.1, u.2 - v.2)

/-- Value-level ℚ[√2] multiplication:
`(a + b√2)(c + d√2) = (ac + 2bd) + (ad + bc)√2`. -/
def qq_mul (u v : ℚ × ℚ) : ℚ × ℚ :=
  (u.1 * v.1 + 2 * u.2 * v.2, u.1 * v.2 + u.2 * v.1)

/-- Value-level ℚ[√2] division (spec §4.1):
`(a + b√2)/(c + d√2) = ((ac − 2bd) + (bc − ad)√2) / (c² − 2d²)`. -/
def qq_div (u v : ℚ × ℚ) : ℚ × ℚ :=
  ((u.1 * v.1 - 2 * u.2 * v.2) / (v.1 * v.1 - 2 * v.2 * v.2),
   (u.2 * v.1 - u.1 * v.2) / (v.1 * v.1 - 2 * v.2 * v.2))

/-- Value-level complex division over ℚ[√2] pairs, denominator `c² + d²`. -/
def cw_div (x y : (ℚ × ℚ) × (ℚ × ℚ)) : (ℚ × ℚ) × (ℚ × ℚ) :=
  (qq_div (qq_add (qq_mul x.1 y.1) (qq_mul x.2 y.2))
    (qq_add (qq_mul y.1 y.1) (qq_mul y.2 y.2)),
   qq_div (qq_sub (qq_mul x.2 y.1) (qq_mul x.1 y.2))
    (qq_add (qq_mul y.1 y.1) (qq_mul y.2 y.2)))

/-- The zero value of the weight domain. -/
def cw_zero : (ℚ × ℚ) × (ℚ × ℚ) := ((0, 0), (0, 0))

/-- The rational denominator computed by `irrational::operator/=`. -/
def idenom (y : irrational) : rational :=
  rsub (rmul y.intpart y.intpart)
    (rmul (rmul (rational.ofInt 2) y.sqrt2part) y.sqrt2part)

/-- The irrational denominator `c² + d²` computed by `weight::operator/=`. -/
def wdenom (y : weight) : irrational :=
  iadd (imul y.real y.real) (imul y.imag y.imag)

/-- Well-formedness of the weight-interner state for the division-safety
claim: every interned weight is in reduced form, and every division entry of
the `computed_weights` cache records a divisor handle holding a weight of
nonzero value (the program would have aborted before caching otherwise). -/
def WFw (s : St) : Prop :=
  (∀ w ∈ s.wlist, wreduced w) ∧
  (∀ kv ∈ s.wtab, kv.2.op = 3 →
    ∃ y, s.wlist.get? kv.2.w1 = some y ∧ wvalp y ≠ cw_zero)

/-- The full weight-engine invariant used for the normalization claim: every
interned weight reduced, no duplicates, handle 0 holding the zero weight, and
every cached division entry value-correct with a nonzero divisor. -/
def WFq (s : St) : Prop :=
  (∀ w ∈ s.wlist, wreduced w) ∧
  s.wlist.Nodup ∧
  s.wlist.get? 0 = some weight.zero ∧
  (∀ kv ∈ s.wtab, kv.2.op = 3 →
    ∃ x y z, s.wlist.get? kv.2.w0 = some x ∧ s.wlist.get? kv.2.w1 = some y ∧
      s.wlist.get? kv.2.r = some z ∧ wvalp y ≠ cw_zero ∧
      wvalp z = cw_div (wvalp x) (wvalp y))

/-- The node-structure invariant of claim I1: the terminal sits at handle 0
with `var` equal to the number of circuit variables `n`, self-children and
unit weights; every other pool node has `var < n`, exactly p² = 4 children,
and every child handle is in range with strictly greater `var` (the terminal,
`var = n`, always qualifies). -/
def WFpool (n : Nat) (s : St) : Prop :=
  s.pool.get? 0 = some ⟨n, [0, 0, 0, 0], [1, 1, 1, 1]⟩ ∧
  ∀ h nd, s.pool.get? h = some nd → h ≠ 0 →
    nd.var < n ∧ nd.children.length = 4 ∧
    ∀ c ∈ nd.children, c < s.pool.length ∧ nd.var < get_var s c

/-- The computed-table invariant needed to preserve `WFpool` across cache
hits: every cached entry's edges are in range and the result's `var` is at
least the minimum operand `var`. -/
def WFctab (s : St) : Prop :=
  ∀ kv ∈ s.ctab,
    kv.2.e0.v < s.pool.length ∧ kv.2.e1.v < s.pool.length ∧
    kv.2.result.v < s.pool.length ∧
    min (get_var s kv.2.e0.v) (get_var s kv.2.e1.v) ≤ get_var s kv.2.result.v

/-- The engine invariant for the reachability claim. -/
def WFst (n : Nat) (s : St) : Prop := WFpool n s ∧ WFctab s

/-- One step down a child path: from a non-terminal node follow the child
slot selected by `f`; the terminal (handle 0) stays put. -/
def cstep (s : St) (f : Nat → Nat) (h : Nat) : Nat :=
  if h = 0 then 0 else (node_at s h).children.getD (f h) 0

/-- Iterated child descent. -/
def citer (s : St) (f : Nat → Nat) : Nat → Nat → Nat :=
  Nat.rec (fun h => h) fun _ ih h => ih (cstep s f h)

/-- First operand edge of a recursive-call shape. -/
def ce0 : call → edge
  | call.ap e0 _ _ => e0
  | call.addc e0 _ => e0
  | call.mulc e0 _ => e0
  | call.kroc e0 _ => e0

/-- Second operand edge of a recursive-call shape. -/
def ce1 : call → edge
  | call.ap _ e1 _ => e1
  | call.addc _ e1 => e1
  | call.mulc _ e1 => e1
  | call.kroc _ e1 => e1

/-- States reached from `qmdd(n)` by any sequence of `make_node` calls that
respect the construction precondition (children are existing nodes of
strictly greater `var`, the new `var` is below `n`, and p² = 4 children are
passed — as every internal caller in `decode` and `apply_helper` does) and
arbitrary `qmdd::apply` calls on in-range edges or on weight handles. -/
inductive ReachMA : Nat → St → Prop where
  | init (n : Nat) : ReachMA n (init_qmdd n)
  | mk {n : Nat} {s : St} {var : Nat} {children weights : List Nat}
      {h : Nat} {s' : St} :
      ReachMA n s →
      var < n →
      children.length = 4 →
      (∀ c ∈ children, c < s.pool.length ∧ var < get_var s c) →
      make_node s var children weights = some (h, s') →
      ReachMA n s'
  | appe {n : Nat} {s : St} {fuel : Nat} {e0 e1 : edge} {op : Nat}
      {s' : St} {e : edge} :
      ReachMA n s →
      e0.v < s.pool.length → e1.v < s.pool.length →
      apply_edge fuel s e0 e1 op = some (s', e) →
      ReachMA n s'
  | appw {n : Nat} {s : St} {w0 w1 op r : Nat} {s' : St} :
      ReachMA n s →
      apply_weight s w0 w1 op = some (s', r) →
      ReachMA n s'

/-- Two unguarded `make_node` calls from a fresh one-variable engine: first a
node at `var = 0` over four terminal children with pairwise distinct weights,
then a node at `var = 0` whose children are all the first node. -/
def c6_seq : Option (Nat × St) :=
  (make_node (init_qmdd 1) 0 [0, 0, 0, 0] [1, 2, 3, 4]).bind fun p =>
    make_node p.2 0 [1, 1, 1, 1] [1, 2, 3, 4]


/-- The cache-free core of an engine state: node pool, unique-table slots and
weight vector — everything except the two computed caches. -/
structure NSt where
  pool : List node
  table : List (Nat × Nat)
  wlist : List weight
deriving DecidableEq, Repr

/-- Forget the computed caches. -/
def nst (s : St) : NSt := ⟨s.pool, s.table, s.wlist⟩

/-- `node_at` on the cache-free state. -/
def nnode_at (t : NSt) (h : Nat) : node := t.pool.getD h ⟨0, [], []⟩

/-- `get_var` on the cache-free state. -/
def nget_var (t : NSt) (h : Nat) : Nat := (nnode_at t h).var

/-- `get_child` on the cache-free state. -/
def nget_child (t : NSt) (h i : Nat) : Nat := (nnode_at t h).children.getD i 0

/-- `get_weight` on the cache-free state. -/
def nget_weight (t : NSt) (h i : Nat) : Nat := (nnode_at t h).weights.getD i 0

/-- `unique_table::insert`'s probe loop on the cache-free state. -/
def nut_probe (n : node) : Nat → Nat → NSt → Option (Nat × NSt) :=
  Nat.rec (fun _ _ => none) fun _ ih key t =>
    match aget t.table key with
    | none =>
      if t.pool.length ≥ ddcapacity then none
      else
        some (t.pool.length,
          { t with pool := t.pool ++ [n], table := aset t.table key t.pool.length })
    | some h =>
      match t.pool.get? h with
      | none => none
      | some m => if m = n then some (h, t) else ih ((key + 1) % ddcapacity) t

/-- `unique_table::insert` on the cache-free state. -/
def nut_insert (t : NSt) (n : node) : Option (Nat × NSt) :=
  let key := (n.var + n.children.sum + n.weights.sum) % ddcapacity
  nut_probe n ddcapacity key t

/-- `qmdd::make_node` on the cache-free state. -/
def nmake_node (t : NSt) (var : Nat) (children weights : List Nat) :
    Option (Nat × NSt) :=
  if all_adjacent_eq children && all_adjacent_eq weights then
    match children.head? with
    | some c => some (c, t)
    | none => none
  else nut_insert t ⟨var, children, weights⟩

/-- The weight-handle `apply` with the computed-weights cache stripped out:
the weight arithmetic and interning alone. -/
def napply_weight (t : NSt) (w0 w1 op : Nat) : Option (NSt × Nat) := do
  let x ← t.wlist.get? w0
  let y ← t.wlist.get? w1
  let nw ← weight_op_eval x y op
  let (h, wl) := uw_insert t.wlist nw
  some ({ t with wlist := wl }, h)

/-- The division loop of `apply_helper::normalize`, cache-free. -/
def nnormalize_rest (f : Nat) : List Nat → NSt → Option (NSt × List Nat) :=
  List.rec (fun t => some (t, [])) fun w _ ih t =>
    if w ≠ 0 then do
      let (t1, w1) ← napply_weight t w f 3
      let (t2, r1) ← ih t1
      some (t2, w1 :: r1)
    else do
      let (t2, r1) ← ih t
      some (t2, w :: r1)

/-- `apply_helper::normalize`, cache-free. -/
def nnormalize_weights : List Nat → NSt → Option (NSt × Nat × List Nat) :=
  List.rec (fun t => some (t, 0, [])) fun w rest ih t =>
    if w = 0 then do
      let (t1, f, r1) ← ih t
      some (t1, f, w :: r1)
    else do
      let (t1, r1) ← nnormalize_rest w rest t
      some (t1, w, 1 :: r1)

/-- The quadrant loop of `apply_helper::add`, cache-free. -/
def nadd_quad (g : NSt → edge → edge → Nat → Option (NSt × edge)) (e0 e1 : edge) :
    List Nat → NSt → Option (NSt × List edge) :=
  List.rec (fun t => some (t, [])) fun i _ ih t => do
    let (t1, q0w) ← napply_weight t e0.w (nget_weight t e0.v i) 2
    let q0 : edge := ⟨q0w, nget_child t e0.v i⟩
    let (t2, q1) ←
      if nget_var t e0.v = nget_var t e1.v then do
        let (t2, q1w) ← napply_weight t1 e1.w (nget_weight t1 e1.v i) 2
        pure (t2, (⟨q1w, nget_child t1 e1.v i⟩ : edge))
      else pure (t1, e1)
    let (t3, zi) ← g t2 q0 q1 0
    let (t4, rest) ← ih t3
    some (t4, zi :: rest)

/-- The innermost k-sum of `apply_helper::mul`, cache-free. -/
def nmul_sum (g : NSt → edge → edge → Nat → Option (NSt × edge)) (e0 e1 : edge)
    (i j : Nat) : List Nat → NSt → edge → Option (NSt × edge) :=
  List.rec (fun t acc => some (t, acc)) fun k _ ih t acc => do
    let (t1, q0w) ← napply_weight t e0.w (nget_weight t e0.v (i + k)) 2
    let q0 : edge := ⟨q0w, nget_child t e0.v (i + k)⟩
    let (t2, q1) ←
      if nget_var t e0.v = nget_var t e1.v then do
        let (t2, q1w) ← napply_weight t1 e1.w (nget_weight t1 e1.v (j + 2 * k)) 2
        pure (t2, (⟨q1w, nget_child t1 e1.v (j + 2 * k)⟩ : edge))
      else pure (t1, e1)
    let (t3, q0q1) ← g t2 q0 q1 1
    let (t4, acc1) ← g t3 acc q0q1 0
    ih t4 acc1

/-- The block loop of `apply_helper::mul`, cache-free. -/
def nmul_quad (g : NSt → edge → edge → Nat → Option (NSt × edge)) (e0 e1 : edge) :
    List (Nat × Nat) → NSt → Option (NSt × List edge) :=
  List.rec (fun t => some (t, [])) fun ij _ ih t => do
    let (t1, zij) ← nmul_sum g e0 e1 ij.1 ij.2 [0, 1] t ⟨0, 0⟩
    let (t2, rest) ← ih t1
    some (t2, zij :: rest)

/-- `apply_helper::Ei`, cache-free. -/
def nEi (t : NSt) (e : edge) (i : Nat) : edge :=
  ⟨nget_weight t e.v i, nget_child t e.v i⟩

/-- The quadrant loop of `apply_helper::kro`, cache-free. -/
def nkro_quad (g : NSt → edge → edge → Nat → Option (NSt × edge)) (e0 e1 : edge) :
    List Nat → NSt → Option (NSt × List edge) :=
  List.rec (fun t => some (t, [])) fun i _ ih t => do
    let (t1, zi) ← g t (nEi t e0 i) e1 2
    let (t2, rest) ← ih t1
    some (t2, zi :: rest)

/-- One step of the cache-free evaluator: identical to `run_step` except that
`call.ap` dispatches straight to the operator, with no computed-table lookup
or insertion, and the weight operations use the uncached `napply_weight`. -/
def nrun_step (ih : NSt → call → Option (NSt × edge)) (t : NSt) :
    call → Option (NSt × edge)
  | call.ap e0 e1 op =>
    match op with
    | 0 => ih t (call.addc e0 e1)
    | 1 => ih t (call.mulc e0 e1)
    | 2 => ih t (call.kroc e0 e1)
    | _ => none
  | call.addc e0 e1 =>
    if term e0 && e0.w = 0 then some (t, e1)
    else if term e0 && term e1 then do
      let (t1, w) ← napply_weight t e0.w e1.w 0
      some (t1, ⟨w, 0⟩)
    else if nget_var t e0.v > nget_var t e1.v then ih t (call.addc e1 e0)
    else do
      let (t1, zs) ← nadd_quad (fun t a b op => ih t (call.ap a b op)) e0 e1
        [0, 1, 2, 3] t
      let (t2, nw, ws) ← nnormalize_weights (zs.map edge.w) t1
      let (h, t3) ← nmake_node t2 (nget_var t1 e0.v) (zs.map edge.v) ws
      some (t3, ⟨nw, h⟩)
  | call.mulc e0 e1 =>
    if term e0 && e0.w = 0 then some (t, e0)
    else if term e0 && e0.w = 1 then some (t, e1)
    else if term e0 then do
      let (t1, w) ← napply_weight t e0.w e1.w 2
      some (t1, ⟨w, e1.v⟩)
    else if nget_var t e0.v > nget_var t e1.v then ih t (call.addc e1 e0)
    else do
      let (t1, zs) ← nmul_quad (fun t a b op => ih t (call.ap a b op)) e0 e1
        [(0, 0), (0, 1), (2, 0), (2, 1)] t
      let (t2, nw, ws) ← nnormalize_weights (zs.map edge.w) t1
      let (h, t3) ← nmake_node t2 (nget_var t1 e0.v) (zs.map edge.v) ws
      some (t3, ⟨nw, h⟩)
  | call.kroc e0 e1 =>
    if term e0 && e0.w = 0 then some (t, e0)
    else if term e0 && e0.w = 1 then some (t, e1)
    else if term e0 then do
      let (t1, w) ← napply_weight t e0.w e1.w 2
      some (t1, ⟨w, e1.v⟩)
    else if nget_var t e0.v < nget_var t e1.v then do
      let (t1, zs) ← nkro_quad (fun t a b op => ih t (call.ap a b op)) e0 e1
        [0, 1, 2, 3] t
      let (t2, nw0, ws) ← nnormalize_weights (zs.map edge.w) t1
      let (t3, nw) ← napply_weight t2 nw0 e0.w 2
      let (h, t4) ← nmake_node t3 (nget_var t1 e0.v) (zs.map edge.v) ws
      some (t4, ⟨nw, h⟩)
    else none

/-- The fuel-indexed cache-free evaluator. -/
def nrun : Nat → NSt → call → Option (NSt × edge) :=
  Nat.rec (fun _ _ => none) fun _ ih => nrun_step ih

/-- Core-state extension: the pool and weight vector only grow at the end,
and hash-table slots, once set, keep their value. -/
def nle (t t' : NSt) : Prop :=
  (∃ u, t'.pool = t.pool ++ u) ∧ (∃ u, t'.wlist = t.wlist ++ u) ∧
  (∀ k h, aget t.table k = some h → aget t'.table k = some h)

/-- Every computed-weights cache entry is reproducible in place: running the
uncached weight op on the current core state returns exactly the cached
handle and leaves the state untouched. -/
def wtabOK (s : St) : Prop :=
  ∀ kv ∈ s.wtab,
    napply_weight (nst s) kv.2.w0 kv.2.w1 kv.2.op = some (nst s, kv.2.r)

/-- Every computed-table entry is reproducible in place: its argument edges
point into the pool, and the cache-free evaluator, given enough fuel,
recomputes exactly the cached result edge on the current core state without
changing it. -/
def ctabOK (s : St) : Prop :=
  ∀ kv ∈ s.ctab, kv.2.e0.v < s.pool.length ∧ kv.2.e1.v < s.pool.length ∧
    ∃ fuel,
      nrun fuel (nst s) (call.ap kv.2.e0 kv.2.e1 kv.2.op) = some (nst s, kv.2.result)

/-- Minimal pool sanity for the cache-free determinism arguments: the pool is
nonempty and every stored child handle is in range. -/
def nWFp (t : NSt) : Prop :=
  0 < t.pool.length ∧
  ∀ h nd, t.pool.get? h = some nd → ∀ c ∈ nd.children, c < t.pool.length

/-- The weight value 2 = 1 + 1, as computed by `weight::operator+=`. -/
def c7wtwo : weight := wadd weight.one weight.one

/-- The node pool of `qmdd(1)`: just the terminal node. -/
def c7pool : List node := [⟨1, [0, 0, 0, 0], [1, 1, 1, 1]⟩]

/-- A `qmdd(1)` engine whose weight vector already holds 2 and whose caches
are empty (as after clearing them). -/
def c7s1 : St :=
  ⟨c7pool, [], [], [weight.zero, weight.one, c7wtwo], []⟩

/-- The same core state with both caches warm: the computed-table entry for
`apply(W1·terminal, W1·terminal, add)` and the computed-weights entry for
`1 + 1`, exactly as the engine itself fills them. -/
def c7s2 : St :=
  ⟨c7pool, [], [(2, ⟨⟨1, 0⟩, ⟨1, 0⟩, 0, ⟨2, 0⟩⟩)],
    [weight.zero, weight.one, c7wtwo], [(2, ⟨1, 1, 0, 2⟩)]⟩

/-! ### Theorems.  Equation lemmas for the recursor-based definitions first. -/

theorem accept_params_nil (p : Nat) : accept_params [] p = Except.ok [] := rfl

theorem accept_params_cons (a : Nat) (t : List Nat) (p : Nat) :
    accept_params (a :: t) p =
      if p = 0 then Except.error perr.tooMany
      else (accept_params t (p - 1)).map (fun l => a :: l) := rfl

theorem ascending_chk_nil (lv : Option Nat) : ascending_chk [] lv = true := rfl

theorem ascending_chk_cons_none (a : Nat) (t : List Nat) :
    ascending_chk (a :: t) none = ascending_chk t (some a) := rfl

theorem ascending_chk_cons_some (a : Nat) (t : List Nat) (l : Nat) :
    ascending_chk (a :: t) (some l) =
      if l ≥ a then false else ascending_chk t (some a) := rfl

theorem uw_scan_nil (w : weight) : uw_scan [] w = none := rfl

theorem uw_scan_cons (a : weight) (t : List weight) (w : weight) :
    uw_scan (a :: t) w =
      if a = w then some 0 else (uw_scan t w).map (· + 1) := rfl

/-- `accept_list` succeeds when at most the declared number of operands is
listed, and echoes the operands. -/
theorem accept_params_of_le :
    ∀ (ids : List Nat) (p : Nat), ids.length ≤ p →
      accept_params ids p = Except.ok ids := by
  intro ids
  induction ids with
  | nil => intro p _; rfl
  | cons a t ih =>
    intro p hp
    have h0 : p ≠ 0 := by simp at hp; omega
    rw [accept_params_cons, if_neg h0, ih (p - 1) (by simp at hp; omega)]
    rfl

/-- `accept_list` raises "too many parameters" when more operands are listed
than declared. -/
theorem accept_params_of_lt :
    ∀ (ids : List Nat) (p : Nat), p < ids.length →
      accept_params ids p = Except.error perr.tooMany := by
  intro ids
  induction ids with
  | nil => intro p hp; simp at hp
  | cons a t ih =>
    intro p hp
    rw [accept_params_cons]
    by_cases h0 : p = 0
    · rw [if_pos h0]
    · rw [if_neg h0, ih (p - 1) (by simp at hp; omega)]
      rfl

/-- The order-check loop accepts a list, starting from a recorded
`last_var = v`, exactly when `v` followed by the list is strictly
increasing. -/
theorem ascending_chk_some_iff :
    ∀ (l : List Nat) (v : Nat),
      ascending_chk l (some v) = true ↔ List.Chain' (· < ·) (v :: l) := by
  intro l
  induction l with
  | nil => intro v; simp [ascending_chk_nil]
  | cons a t ih =>
    intro v
    rw [ascending_chk_cons_some, List.chain'_cons]
    by_cases hv : v ≥ a
    · rw [if_pos hv]
      simp only [Bool.false_eq_true, false_iff]
      rintro ⟨h, -⟩
      omega
    · rw [if_neg hv, ih a]
      constructor
      · intro h
        exact ⟨by omega, h⟩
      · rintro ⟨-, h⟩
        exact h

/-- The order-check loop from the initial `last_var = -1` accepts exactly the
strictly increasing lists. -/
theorem ascending_chk_none_iff :
    ∀ l : List Nat, ascending_chk l none = true ↔ List.Chain' (· < ·) l := by
  intro l
  cases l with
  | nil => simp [ascending_chk_nil]
  | cons a t => rw [ascending_chk_cons_none, ascending_chk_some_iff]

/-- C3 (counterexample): the gate line `t2 b,a` with `id(b) = 1 > id(a) = 0`
— operands `[1, 0]`, not strictly increasing — is *accepted* by `parse` and
recorded in the gate stream, contradicting the claim that every gate line
with non-increasing operands is rejected. -/
theorem c3_counterexample :
    gate_line 0 2 [1, 0] = Except.ok [0, 2, 1, 0] ∧
      ¬ List.Chain' (· < ·) [1, 0] :=
  ⟨rfl, by simp [List.chain'_cons]⟩

/-- C3 (amended): the order check visits every pushed operand except the
last (`i < gate_stream.size() - 1`, src/main.cpp:538, 594), so a gate line
with at most the declared number of operands is accepted iff its operand
list with the last element dropped is strictly increasing; this holds for
both the single-target branch and the Fredkin branch. -/
theorem c3_order_check_skips_last_operand :
    ∀ (opc pcnt : Nat) (ids : List Nat), 1 ≤ pcnt → ids.length ≤ pcnt →
      (gate_line opc pcnt ids = Except.ok (opc :: pcnt :: ids) ↔
        List.Chain' (· < ·) ids.dropLast) ∧
      (2 ≤ pcnt → (gate_line_f pcnt ids = Except.ok (1 :: pcnt :: ids) ↔
        List.Chain' (· < ·) ids.dropLast)) := by
  intro opc pcnt ids h1 h2
  have hlt : ¬ pcnt < 1 := by omega
  by_cases hc : ascending_chk ids.dropLast none = true
  · constructor
    · simp [gate_line, hlt, accept_params_of_le ids pcnt h2, hc,
        (ascending_chk_none_iff ids.dropLast).mp hc]
    · intro h2'
      simp [gate_line_f, show ¬ pcnt < 2 from by omega,
        accept_params_of_le ids pcnt h2, hc,
        (ascending_chk_none_iff ids.dropLast).mp hc]
  · have hchain : ¬ List.Chain' (· < ·) ids.dropLast := fun hch =>
      hc ((ascending_chk_none_iff ids.dropLast).mpr hch)
    constructor
    · simp [gate_line, hlt, accept_params_of_le ids pcnt h2, hc, hchain]
    · intro h2'
      simp [gate_line_f, show ¬ pcnt < 2 from by omega,
        accept_params_of_le ids pcnt h2, hc, hchain]

/-- C3 (witness): `t2 a,b` with ascending operands `[0, 1]` is accepted. -/
theorem c3_witness : gate_line 0 2 [0, 1] = Except.ok [0, 2, 0, 1] :=
  (c3_order_check_skips_last_operand 0 2 [0, 1] (by decide) (by decide)).1.mpr
    (by simp)

/-- C10: a gate line listing more operands than its declared count fails with
"too many parameters"; one listing at most the declared count (whose checked
operand prefix is in order) is accepted, and the stream records the full
declared count followed by exactly the listed operands.  Both the
single-target branch and the Fredkin branch behave this way. -/
theorem c10_param_count_check :
    ∀ (opc pcnt : Nat) (ids : List Nat),
      (1 ≤ pcnt → pcnt < ids.length →
        gate_line opc pcnt ids = Except.error perr.tooMany) ∧
      (1 ≤ pcnt → ids.length ≤ pcnt → ascending_chk ids.dropLast none = true →
        gate_line opc pcnt ids = Except.ok (opc :: pcnt :: ids)) ∧
      (2 ≤ pcnt → pcnt < ids.length →
        gate_line_f pcnt ids = Except.error perr.tooMany) ∧
      (2 ≤ pcnt → ids.length ≤ pcnt → ascending_chk ids.dropLast none = true →
        gate_line_f pcnt ids = Except.ok (1 :: pcnt :: ids)) := by
  intro opc pcnt ids
  refine ⟨fun h1 hlen => ?_, fun h1 hlen hasc => ?_,
    fun h2 hlen => ?_, fun h2 hlen hasc => ?_⟩
  · simp [gate_line, show ¬ pcnt < 1 from by omega,
      accept_params_of_lt ids pcnt hlen]
  · simp [gate_line, show ¬ pcnt < 1 from by omega,
      accept_params_of_le ids pcnt hlen, hasc]
  · simp [gate_line_f, show ¬ pcnt < 2 from by omega,
      accept_params_of_lt ids pcnt hlen]
  · simp [gate_line_f, show ¬ pcnt < 2 from by omega,
      accept_params_of_le ids pcnt hlen, hasc]

/-- C10 (witness): `t1 a,b` (two operands, one declared) errors with
"too many parameters"; `t3 a,b` (two operands, three declared) is accepted
and the stream records `[toffoli, 3, 0, 1]`. -/
theorem c10_witness :
    gate_line 0 1 [0, 1] = Except.error perr.tooMany ∧
      gate_line 0 3 [0, 1] = Except.ok [0, 3, 0, 1] :=
  ⟨(c10_param_count_check 0 1 [0, 1]).1 (by decide) (by decide),
   (c10_param_count_check 0 3 [0, 1]).2.1 (by decide) (by decide) (by decide)⟩

/-- A successful scan returns an index holding the scanned weight. -/
theorem uw_scan_get :
    ∀ (l : List weight) (w : weight) (i : Nat),
      uw_scan l w = some i → l.get? i = some w := by
  intro l
  induction l with
  | nil => intro w i h; rw [uw_scan_nil] at h; cases h
  | cons a t ih =>
    intro w i h
    rw [uw_scan_cons] at h
    by_cases ha : a = w
    · rw [if_pos ha] at h
      cases h
      simpa using ha
    · rw [if_neg ha] at h
      rcases Option.map_eq_some'.mp h with ⟨j, hj, rfl⟩
      simpa using ih w j hj
/-- A failed scan means the weight is absent. -/
theorem uw_scan_none :
    ∀ (l : List weight) (w : weight), uw_scan l w = none ↔ w ∉ l := by
  intro l
  induction l with
  | nil => intro w; simp [uw_scan_nil]
  | cons a t ih =>
    intro w
    rw [uw_scan_cons]
    by_cases ha : a = w
    · simp [ha]
    · have hwa : ¬ w = a := fun h => ha h.symm
      rw [if_neg ha, Option.map_eq_none', ih w]
      simp [List.mem_cons, hwa]

/-- Scanning for a weight just appended to a list not containing it finds it
at the old length. -/
theorem uw_scan_append :
    ∀ (l : List weight) (w : weight), uw_scan l w = none →
      uw_scan (l ++ [w]) w = some l.length := by
  intro l
  induction l with
  | nil => intro w _; simp [uw_scan_cons, uw_scan_nil]
  | cons a t ih =>
    intro w h
    rw [uw_scan_cons] at h
    by_cases ha : a = w
    · rw [if_pos ha] at h; cases h
    · rw [if_neg ha] at h
      rw [List.cons_append, uw_scan_cons, if_neg ha,
        ih w (Option.map_eq_none'.mp h)]
      rfl

/-- C9: the weight interner guarantee.  First, for any prior vector contents,
`insert x` followed by `insert y` return equal handles iff `x = y`
(structural weight equality).  Second, in a duplicate-free vector — the
invariant `unique_weights` maintains from its seeded state, as the third
conjunct shows: `insert` preserves `Nodup` — two in-range indices hold equal
weight values iff the indices are equal, i.e. two held WeightIds are equal
exactly when their underlying weights are. -/
theorem c9_interner_guarantee :
    (∀ (l : List weight) (x y : weight),
      (uw_insert l x).1 = (uw_insert (uw_insert l x).2 y).1 ↔ x = y) ∧
    (∀ (l : List weight), l.Nodup →
      ∀ (i j : Nat) (hi : i < l.length) (hj : j < l.length),
        (l.get ⟨i, hi⟩ = l.get ⟨j, hj⟩ ↔ i = j)) ∧
    (∀ (l : List weight) (x : weight), l.Nodup → ((uw_insert l x).2).Nodup) := by
  refine ⟨fun l x y => ?_, fun l h i j hi hj => ?_, fun l x h => ?_⟩
  · cases hscan : uw_scan l x with
    | none =>
      have h1 : uw_insert l x = (l.length, l ++ [x]) := by
        unfold uw_insert; rw [hscan]
      rw [h1]
      show l.length = (uw_insert (l ++ [x]) y).1 ↔ x = y
      have hsx : uw_scan (l ++ [x]) x = some l.length := uw_scan_append l x hscan
      have hgx : (l ++ [x]).get? l.length = some x := uw_scan_get _ x _ hsx
      constructor
      · intro hf
        cases hy : uw_scan (l ++ [x]) y with
        | none =>
          have h2 : (uw_insert (l ++ [x]) y).1 = (l ++ [x]).length := by
            unfold uw_insert; rw [hy]
          rw [h2] at hf
          simp at hf
        | some j =>
          have h2 : (uw_insert (l ++ [x]) y).1 = j := by
            unfold uw_insert; rw [hy]
          rw [h2] at hf
          have hyj := uw_scan_get _ y j hy
          rw [← hf] at hyj
          exact Option.some_inj.mp (hgx.symm.trans hyj)
      · intro hxy
        subst hxy
        show l.length = (uw_insert (l ++ [x]) x).1
        unfold uw_insert
        rw [hsx]
    | some i =>
      have h1 : uw_insert l x = (i, l) := by unfold uw_insert; rw [hscan]
      rw [h1]
      show i = (uw_insert l y).1 ↔ x = y
      have hgx := uw_scan_get l x i hscan
      have hilt : i < l.length := (List.get?_eq_some.mp hgx).1
      constructor
      · intro hf
        cases hy : uw_scan l y with
        | none =>
          have h2 : (uw_insert l y).1 = l.length := by
            unfold uw_insert; rw [hy]
          rw [h2] at hf
          omega
        | some j =>
          have h2 : (uw_insert l y).1 = j := by unfold uw_insert; rw [hy]
          rw [h2] at hf
          have hyj := uw_scan_get l y j hy
          rw [← hf] at hyj
          exact Option.some_inj.mp (hgx.symm.trans hyj)
      · intro hxy
        subst hxy
        show i = (uw_insert l x).1
        unfold uw_insert
        rw [hscan]
  · constructor
    · intro he
      simpa using h.get_inj_iff.mp he
    · intro he
      subst he
      rfl
  · unfold uw_insert
    cases hscan : uw_scan l x with
    | some i => exact h
    | none =>
      show (l ++ [x]).Nodup
      rw [List.nodup_append]
      refine ⟨h, List.nodup_singleton x, fun a ha hb => ?_⟩
      have hax : a = x := by simpa using hb
      exact ((uw_scan_none l x).mp hscan) (hax ▸ ha)

/-- C9 (witness): inserting `i` into the seeded vector `[0, 1]` keeps it
duplicate-free, and a repeated insert of `i` returns the same handle. -/
theorem c9_witness :
    ((uw_insert [weight.zero, weight.one] weight.iunit).2).Nodup ∧
      ((uw_insert [weight.zero, weight.one] weight.iunit).1 =
        (uw_insert (uw_insert [weight.zero, weight.one] weight.iunit).2
          weight.iunit).1 ↔ weight.iunit = weight.iunit) :=
  ⟨c9_interner_guarantee.2.2 [weight.zero, weight.one] weight.iunit (by decide),
   c9_interner_guarantee.1 [weight.zero, weight.one] weight.iunit weight.iunit⟩

/-- C1: in the engine state of `c15_state` (two variables, identity root
`one = (W1, I₀)` at variable 0 and `e = (W1, X₁)` at variable 1, so
`var(e) = 1 > 0 = var(one)`), the operator `mul(e, one)` does *not* equal
`mul(one, e)`: the swap branch of `apply_helper::mul` (src/main.cpp:1697)
calls `add(e1, e0)` instead of recursing into `mul`, so
`apply(e, one, mul) = (W1, node 5)` — which the third component shows equals
`apply(one, e, add)` — while `apply(one, e, mul) = (W1, node 4) = e`.  This
refutes the claim that the argument order is normalized as in `add` (i.e.
that the result is the `mul` of the swapped operands). -/
theorem c1_mul_swap_runs_add :
    c1_runs = some (⟨1, 5⟩, ⟨1, 4⟩, ⟨1, 5⟩) ∧ ((⟨1, 5⟩ : edge) ≠ ⟨1, 4⟩) := by
  decide!

/-- C5: with `e = (W1, X₁)` and `one` the identity diagram over variables
[0, 2) as built by `decode` (`c15_state`), `apply(e, one, mul) = (W1, node 5)
≠ e` — the identity is not a right identity for `mul`, because the swap
branch of `mul` adds instead of multiplying — while
`apply(one, e, mul) = e` holds. -/
theorem c5_mul_identity_violated :
    c5_runs = some (⟨1, 4⟩, ⟨1, 5⟩, ⟨1, 4⟩) ∧ ((⟨1, 5⟩ : edge) ≠ ⟨1, 4⟩) := by
  decide!

/-- C2 (counterexample): compiling the one-gate program `f 3 a,b,c` yields
root edge `(W1, node 29)`, but compiling the claim's three-gate sequence
`t2 b,c; t3 a,b,c; t2 b,c` in the same engine yields `(W1, node 23)` — a
different edge (the two streams even denote different unitaries: the claimed
sequence equals the single Toffoli `t3 a,b,c`, since the outer `t2 b,c`
gates commute with it and square to the identity). -/
theorem c2_counterexample :
    c2_chain = some (⟨1, 29⟩, ⟨1, 23⟩, ⟨1, 29⟩) ∧
      ((⟨1, 29⟩ : edge) ≠ ⟨1, 23⟩) := by
  decide!

/-- C2 (amended): the Fredkin microcode pushes its outer Toffolis with
operands `(swap_b, swap_a)` — control `c`, target `b` — so `f 3 a,b,c`
produces exactly the root edge of the sequence `t2 c,b; t3 a,b,c; t2 c,b`
(same NodeId and same WeightId, compiled against the same engine). -/
theorem c2_fredkin_eq_microcode_order :
    (c2_chain.map fun t => (t.1, t.2.2)) = some (⟨1, 29⟩, ⟨1, 29⟩) := by
  decide!


/-! ### gcd machinery -/

theorem gcd_euclidean_succ (f : Nat) (a b : Int) :
    gcd_euclidean (f + 1) a b = if b = 0 then a else gcd_euclidean f b (cmod a b) := rfl

theorem natAbs_tmod_eq (a b : Int) :
    (Int.tmod a b).natAbs = a.natAbs % b.natAbs := by
  cases a <;> cases b <;> simp only [Int.tmod, Int.natAbs_neg, Int.natAbs_ofNat, Int.natAbs_negSucc] <;> rfl

theorem gcd_euclidean_natAbs :
    ∀ (f : Nat) (a b : Int), b.natAbs < f →
      (gcd_euclidean f a b).natAbs = Int.gcd a b := by
  intro f
  induction f with
  | zero => intro a b h; omega
  | succ f ih =>
    intro a b h
    rw [gcd_euclidean_succ]
    by_cases hb : b = 0
    · rw [if_pos hb, hb, Int.gcd_zero_right]
    · rw [if_neg hb]
      have hbpos : 0 < b.natAbs := Int.natAbs_pos.mpr hb
      have hmod : (cmod a b).natAbs = a.natAbs % b.natAbs := natAbs_tmod_eq a b
      have hlt : (cmod a b).natAbs < f := by
        have := Nat.mod_lt a.natAbs hbpos
        omega
      rw [ih b (cmod a b) hlt]
      show Nat.gcd b.natAbs (Int.tmod a b).natAbs = Int.gcd a b
      rw [natAbs_tmod_eq a b]
      rw [Nat.gcd_comm b.natAbs (a.natAbs % b.natAbs), ← Nat.gcd_rec b.natAbs a.natAbs]
      exact Nat.gcd_comm _ _

theorem rgcd_eq_gcd (a b : Int) : rgcd a b = ↑(Int.gcd a b) := by
  unfold rgcd
  have h := gcd_euclidean_natAbs (b.natAbs + 1) a b (by omega)
  set r := gcd_euclidean (b.natAbs + 1) a b with hr
  by_cases hneg : r < 0 <;> simp [hneg] <;> omega

theorem rgcd_dvd_left (a b : Int) : rgcd a b ∣ a := by
  rw [rgcd_eq_gcd]; exact Int.gcd_dvd_left

theorem rgcd_dvd_right (a b : Int) : rgcd a b ∣ b := by
  rw [rgcd_eq_gcd]; exact Int.gcd_dvd_right

theorem rgcd_ne_zero {a b : Int} (h : a ≠ 0 ∨ b ≠ 0) : rgcd a b ≠ 0 := by
  rw [rgcd_eq_gcd]
  intro hc
  rcases Int.gcd_eq_zero_iff.mp (by exact_mod_cast hc) with ⟨h1, h2⟩
  rcases h with h | h <;> [exact h h1; exact h h2]

theorem rgcd_pos {a b : Int} (h : a ≠ 0 ∨ b ≠ 0) : 0 < rgcd a b := by
  rw [rgcd_eq_gcd]
  exact_mod_cast Int.gcd_pos_iff.mpr h

theorem cdiv_cast {a g : Int} (h : g ∣ a) (hg : g ≠ 0) :
    ((cdiv a g : Int) : ℚ) = (a : ℚ) / (g : ℚ) := by
  rw [show cdiv a g = a / g from Int.tdiv_eq_ediv_of_dvd h]
  rcases h with ⟨c, rfl⟩
  rw [Int.mul_ediv_cancel_left c hg]
  have : (g : ℚ) ≠ 0 := Int.cast_ne_zero.mpr hg
  push_cast
  field_simp

theorem cdiv_ne_zero {a g : Int} (h : g ∣ a) (ha : a ≠ 0) : cdiv a g ≠ 0 := by
  rcases h with ⟨c, rfl⟩
  by_cases hg : g = 0
  · subst hg; simp at ha
  · rw [show cdiv (g * c) g = c from Int.mul_tdiv_cancel_left c hg]
    intro hc; subst hc; simp at ha

theorem cdiv_pos {a g : Int} (h : g ∣ a) (ha : 0 < a) (hg : 0 < g) : 0 < cdiv a g := by
  rcases h with ⟨c, rfl⟩
  rw [show cdiv (g * c) g = c from Int.mul_tdiv_cancel_left c (by omega)]
  by_contra hc
  push_neg at hc
  nlinarith

/-! ### Value homomorphism of the rational operations -/

theorem radd_val (x y : rational) (hx : x.den ≠ 0) (hy : y.den ≠ 0) :
    rval (radd x y) = rval x + rval y := by
  have hxq : (x.den : ℚ) ≠ 0 := Int.cast_ne_zero.mpr hx
  have hyq : (y.den : ℚ) ≠ 0 := Int.cast_ne_zero.mpr hy
  have hg : rgcd x.den y.den ≠ 0 := rgcd_ne_zero (Or.inl hx)
  have hgq : ((rgcd x.den y.den : Int) : ℚ) ≠ 0 := Int.cast_ne_zero.mpr hg
  have hd1 := rgcd_dvd_left x.den y.den
  have hd2 := rgcd_dvd_right x.den y.den
  set g := rgcd x.den y.den with hgdef
  set num1 := x.num * cdiv y.den g + y.num * cdiv x.den g with hnum1
  have hg2 : rgcd num1 g ≠ 0 := rgcd_ne_zero (Or.inr hg)
  have hg2q : ((rgcd num1 g : Int) : ℚ) ≠ 0 := Int.cast_ne_zero.mpr hg2
  have hg2n := rgcd_dvd_left num1 g
  have hg2g := rgcd_dvd_right num1 g
  have hg2y : rgcd num1 g ∣ y.den := hg2g.trans hd2
  have hval : rval (radd x y) =
      ((num1 : ℚ) / (rgcd num1 g : Int)) /
        (((cdiv x.den g : Int) : ℚ) * ((cdiv y.den (rgcd num1 g) : Int) : ℚ)) := by
    rw [show radd x y = ⟨cdiv num1 (rgcd num1 g), cdiv x.den g * cdiv y.den (rgcd num1 g)⟩ from rfl]
    rw [rval]
    push_cast [cdiv_cast hg2n hg2]
    rfl
  rw [hval, cdiv_cast hd1 hg, cdiv_cast hg2y hg2]
  have hnum1q : ((num1 : Int) : ℚ) =
      (x.num : ℚ) * ((y.den : ℚ) / (g : ℚ)) + (y.num : ℚ) * ((x.den : ℚ) / (g : ℚ)) := by
    rw [hnum1]
    push_cast [cdiv_cast hd2 hg, cdiv_cast hd1 hg]
    ring
  rw [hnum1q, rval, rval]
  field_simp

theorem rsub_val (x y : rational) (hx : x.den ≠ 0) (hy : y.den ≠ 0) :
    rval (rsub x y) = rval x - rval y := by
  have hxq : (x.den : ℚ) ≠ 0 := Int.cast_ne_zero.mpr hx
  have hyq : (y.den : ℚ) ≠ 0 := Int.cast_ne_zero.mpr hy
  have hg : rgcd x.den y.den ≠ 0 := rgcd_ne_zero (Or.inl hx)
  have hd1 := rgcd_dvd_left x.den y.den
  have hd2 := rgcd_dvd_right x.den y.den
  set g := rgcd x.den y.den with hgdef
  set num1 := x.num * cdiv y.den g - y.num * cdiv x.den g with hnum1
  have hg2 : rgcd num1 g ≠ 0 := rgcd_ne_zero (Or.inr hg)
  have hg2n := rgcd_dvd_left num1 g
  have hg2g := rgcd_dvd_right num1 g
  have hg2y : rgcd num1 g ∣ y.den := hg2g.trans hd2
  have hval : rval (rsub x y) =
      ((num1 : ℚ) / (rgcd num1 g : Int)) /
        (((cdiv x.den g : Int) : ℚ) * ((cdiv y.den (rgcd num1 g) : Int) : ℚ)) := by
    rw [show rsub x y = ⟨cdiv num1 (rgcd num1 g), cdiv x.den g * cdiv y.den (rgcd num1 g)⟩ from rfl]
    rw [rval]
    push_cast [cdiv_cast hg2n hg2]
    rfl
  rw [hval, cdiv_cast hd1 hg, cdiv_cast hg2y hg2]
  have hnum1q : ((num1 : Int) : ℚ) =
      (x.num : ℚ) * ((y.den : ℚ) / (g : ℚ)) - (y.num : ℚ) * ((x.den : ℚ) / (g : ℚ)) := by
    rw [hnum1]
    push_cast [cdiv_cast hd2 hg, cdiv_cast hd1 hg]
    ring
  rw [hnum1q, rval, rval]
  field_simp
  ring

theorem rmul_val (x y : rational) (hx : x.den ≠ 0) (hy : y.den ≠ 0) :
    rval (rmul x y) = rval x * rval y := by
  have hxq : (x.den : ℚ) ≠ 0 := Int.cast_ne_zero.mpr hx
  have hyq : (y.den : ℚ) ≠ 0 := Int.cast_ne_zero.mpr hy
  have hg1 : rgcd x.num y.den ≠ 0 := rgcd_ne_zero (Or.inr hy)
  have hg2 : rgcd y.num x.den ≠ 0 := rgcd_ne_zero (Or.inr hx)
  have h11 := rgcd_dvd_left x.num y.den
  have h12 := rgcd_dvd_right x.num y.den
  have h21 := rgcd_dvd_left y.num x.den
  have h22 := rgcd_dvd_right y.num x.den
  rw [show rmul x y = ⟨cdiv x.num (rgcd x.num y.den) * cdiv y.num (rgcd y.num x.den),
      cdiv x.den (rgcd y.num x.den) * cdiv y.den (rgcd x.num y.den)⟩ from rfl]
  rw [rval, rval, rval]
  push_cast [cdiv_cast h11 hg1, cdiv_cast h12 hg1, cdiv_cast h21 hg2, cdiv_cast h22 hg2]
  have hg1q : ((rgcd x.num y.den : Int) : ℚ) ≠ 0 := Int.cast_ne_zero.mpr hg1
  have hg2q : ((rgcd y.num x.den : Int) : ℚ) ≠ 0 := Int.cast_ne_zero.mpr hg2
  field_simp
  ring

theorem radd_den (x y : rational) (hx : x.den ≠ 0) (hy : y.den ≠ 0) :
    (radd x y).den ≠ 0 := by
  have hg : rgcd x.den y.den ≠ 0 := rgcd_ne_zero (Or.inl hx)
  set g := rgcd x.den y.den with hgdef
  set num1 := x.num * cdiv y.den g + y.num * cdiv x.den g with hnum1
  have hg2g := rgcd_dvd_right num1 g
  have h1 : cdiv x.den g ≠ 0 := cdiv_ne_zero (rgcd_dvd_left x.den y.den) hx
  have h2 : cdiv y.den (rgcd num1 g) ≠ 0 :=
    cdiv_ne_zero (hg2g.trans (rgcd_dvd_right x.den y.den)) hy
  show cdiv x.den g * cdiv y.den (rgcd num1 g) ≠ 0
  exact mul_ne_zero h1 h2

theorem rsub_den (x y : rational) (hx : x.den ≠ 0) (hy : y.den ≠ 0) :
    (rsub x y).den ≠ 0 := by
  have hg : rgcd x.den y.den ≠ 0 := rgcd_ne_zero (Or.inl hx)
  set g := rgcd x.den y.den with hgdef
  set num1 := x.num * cdiv y.den g - y.num * cdiv x.den g with hnum1
  have hg2g := rgcd_dvd_right num1 g
  have h1 : cdiv x.den g ≠ 0 := cdiv_ne_zero (rgcd_dvd_left x.den y.den) hx
  have h2 : cdiv y.den (rgcd num1 g) ≠ 0 :=
    cdiv_ne_zero (hg2g.trans (rgcd_dvd_right x.den y.den)) hy
  show cdiv x.den g * cdiv y.den (rgcd num1 g) ≠ 0
  exact mul_ne_zero h1 h2

theorem rmul_den (x y : rational) (hx : x.den ≠ 0) (hy : y.den ≠ 0) :
    (rmul x y).den ≠ 0 := by
  have h1 : cdiv x.den (rgcd y.num x.den) ≠ 0 :=
    cdiv_ne_zero (rgcd_dvd_right y.num x.den) hx
  have h2 : cdiv y.den (rgcd x.num y.den) ≠ 0 :=
    cdiv_ne_zero (rgcd_dvd_right x.num y.den) hy
  show cdiv x.den (rgcd y.num x.den) * cdiv y.den (rgcd x.num y.den) ≠ 0
  exact mul_ne_zero h1 h2

theorem rdiv_eq_none_iff (x y : rational) : rdiv x y = none ↔ y.num = 0 := by
  unfold rdiv
  by_cases h : y.num = 0
  · simp [h]
  · simp only [h, if_false, iff_false]
    by_cases h0 : x.num = 0
    · simp [h0]
    · simp only [h0, if_false]
      split <;> simp

/-- The non-trivial branch of `rdiv`, with its lets and sign fix expanded. -/
theorem rdiv_pos_def (x y : rational) (h0 : x.num ≠ 0) (hy : y.num ≠ 0) :
    rdiv x y =
      if cdiv x.den (rgcd y.den x.den) * cdiv y.num (rgcd x.num y.num) < 0 then
        some ⟨-(cdiv x.num (rgcd x.num y.num) * cdiv y.den (rgcd y.den x.den)),
              -(cdiv x.den (rgcd y.den x.den) * cdiv y.num (rgcd x.num y.num))⟩
      else
        some ⟨cdiv x.num (rgcd x.num y.num) * cdiv y.den (rgcd y.den x.den),
              cdiv x.den (rgcd y.den x.den) * cdiv y.num (rgcd x.num y.num)⟩ := by
  unfold rdiv
  rw [if_neg hy, if_neg h0]

theorem rdiv_some_den (x y z : rational) (hx : x.den ≠ 0) (hy : y.num ≠ 0)
    (h : rdiv x y = some z) : z.den ≠ 0 := by
  by_cases h0 : x.num = 0
  · unfold rdiv at h
    rw [if_neg hy, if_pos h0] at h
    cases h
    exact hx
  · rw [rdiv_pos_def x y h0 hy] at h
    have h1 : cdiv x.den (rgcd y.den x.den) ≠ 0 :=
      cdiv_ne_zero (rgcd_dvd_right y.den x.den) hx
    have h2 : cdiv y.num (rgcd x.num y.num) ≠ 0 :=
      cdiv_ne_zero (rgcd_dvd_right x.num y.num) hy
    have hne : cdiv x.den (rgcd y.den x.den) * cdiv y.num (rgcd x.num y.num) ≠ 0 :=
      mul_ne_zero h1 h2
    split at h <;> cases h <;> simp_all

theorem rdiv_val (x y z : rational) (hx : x.den ≠ 0) (hy : y.den ≠ 0)
    (hyn : y.num ≠ 0) (h : rdiv x y = some z) : rval z = rval x / rval y := by
  have hxq : (x.den : ℚ) ≠ 0 := Int.cast_ne_zero.mpr hx
  have hyq : (y.den : ℚ) ≠ 0 := Int.cast_ne_zero.mpr hy
  have hynq : (y.num : ℚ) ≠ 0 := Int.cast_ne_zero.mpr hyn
  have hvr : ∀ n d : Int, rval ⟨n, d⟩ = (n : ℚ) / (d : ℚ) := fun n d => rfl
  by_cases h0 : x.num = 0
  · unfold rdiv at h
    rw [if_neg hyn, if_pos h0] at h
    cases h
    simp [rval, h0]
  · rw [rdiv_pos_def x y h0 hyn] at h
    have hg1 : rgcd x.num y.num ≠ 0 := rgcd_ne_zero (Or.inl h0)
    have hg2 : rgcd y.den x.den ≠ 0 := rgcd_ne_zero (Or.inl hy)
    have h11 := rgcd_dvd_left x.num y.num
    have h12 := rgcd_dvd_right x.num y.num
    have h21 := rgcd_dvd_left y.den x.den
    have h22 := rgcd_dvd_right y.den x.den
    have hg1q : ((rgcd x.num y.num : Int) : ℚ) ≠ 0 := Int.cast_ne_zero.mpr hg1
    have hg2q : ((rgcd y.den x.den : Int) : ℚ) ≠ 0 := Int.cast_ne_zero.mpr hg2
    split at h <;> cases h <;>
      rw [hvr] <;>
      push_cast [cdiv_cast h11 hg1, cdiv_cast h12 hg1, cdiv_cast h21 hg2,
        cdiv_cast h22 hg2] <;>
      rw [rval, rval] <;>
      field_simp <;>
      ring

theorem cdiv_dvd {a g : Int} (h : g ∣ a) : cdiv a g ∣ a := by
  rcases h with ⟨c, rfl⟩
  by_cases hg : g = 0
  · subst hg
    simp
  · rw [show cdiv (g * c) g = c from Int.mul_tdiv_cancel_left c hg]
    exact dvd_mul_left c g

/-- Dividing two integers by their gcd leaves coprime integers. -/
theorem coprime_cdiv_gcd {a b : Int} (h : a ≠ 0 ∨ b ≠ 0) :
    IsCoprime (cdiv a (rgcd a b)) (cdiv b (rgcd a b)) := by
  rw [show cdiv a (rgcd a b) = a / rgcd a b from
      Int.tdiv_eq_ediv_of_dvd (rgcd_dvd_left a b),
    show cdiv b (rgcd a b) = b / rgcd a b from
      Int.tdiv_eq_ediv_of_dvd (rgcd_dvd_right a b),
    rgcd_eq_gcd]
  exact Int.gcd_eq_one_iff_coprime.mp (Int.gcd_div_gcd_div_gcd (Int.gcd_pos_iff.mpr h))

theorem radd_reduced {x y : rational} (hx : rreduced x) (hy : rreduced y) :
    rreduced (radd x y) := by
  obtain ⟨hxd, hxc⟩ := hx
  obtain ⟨hyd, hyc⟩ := hy
  have hxd0 : x.den ≠ 0 := by omega
  have hyd0 : y.den ≠ 0 := by omega
  have hgpos : 0 < rgcd x.den y.den := rgcd_pos (Or.inl hxd0)
  have hdb := rgcd_dvd_left x.den y.den
  have hdd := rgcd_dvd_right x.den y.den
  set g := rgcd x.den y.den with hgdef
  set b1 := cdiv x.den g with hb1
  set d1 := cdiv y.den g with hd1
  set num1 := x.num * d1 + y.num * b1 with hnum1
  have hg2pos : 0 < rgcd num1 g := rgcd_pos (Or.inr (by omega))
  have hg2g := rgcd_dvd_right num1 g
  have hg2n := rgcd_dvd_left num1 g
  set g2 := rgcd num1 g with hg2def
  have hshape : radd x y = ⟨cdiv num1 g2, b1 * cdiv y.den g2⟩ := rfl
  have hb1d1 : IsCoprime b1 d1 := coprime_cdiv_gcd (Or.inl hxd0)
  constructor
  · rw [hshape]
    exact mul_pos (cdiv_pos hdb hxd hgpos)
      (cdiv_pos (hg2g.trans hdd) hyd hg2pos)
  · rw [hshape]
    show Int.gcd (cdiv num1 g2) (b1 * cdiv y.den g2) = 1
    apply Int.gcd_eq_one_iff_coprime.mpr
    have hxnb1 : IsCoprime x.num b1 :=
      (Int.gcd_eq_one_iff_coprime.mp hxc).of_isCoprime_of_dvd_right (cdiv_dvd hdb)
    have hynd1 : IsCoprime y.num d1 :=
      (Int.gcd_eq_one_iff_coprime.mp hyc).of_isCoprime_of_dvd_right (cdiv_dvd hdd)
    have hnum1b1 : IsCoprime num1 b1 := by
      rw [hnum1]
      exact (hxnb1.mul_left hb1d1.symm).add_mul_right_left y.num
    have hnum1d1 : IsCoprime num1 d1 := by
      rw [hnum1, add_comm]
      exact (hynd1.mul_left hb1d1).add_mul_right_left x.num
    have hn1 : IsCoprime (cdiv num1 g2) b1 :=
      hnum1b1.of_isCoprime_of_dvd_left (cdiv_dvd hg2n)
    have hn2 : IsCoprime (cdiv num1 g2) d1 :=
      hnum1d1.of_isCoprime_of_dvd_left (cdiv_dvd hg2n)
    have hn3 : IsCoprime (cdiv num1 g2) (cdiv g g2) := by
      rw [hg2def]
      exact coprime_cdiv_gcd (Or.inr (by omega))
    have hsplit : cdiv y.den g2 = cdiv g g2 * d1 := by
      obtain ⟨k, hk⟩ := hg2g
      obtain ⟨m, hm⟩ := hdd
      have hd1m : d1 = m := by
        rw [hd1, hm, show cdiv (g * m) g = m from
          Int.mul_tdiv_cancel_left m (by omega)]
      rw [hm, hk, show g2 * k * m = g2 * (k * m) from by ring,
        show cdiv (g2 * (k * m)) g2 = k * m from
          Int.mul_tdiv_cancel_left (k * m) (by omega),
        show cdiv (g2 * k) g2 = k from Int.mul_tdiv_cancel_left k (by omega),
        hd1m]
    rw [hsplit]
    exact hn1.mul_right (hn3.mul_right hn2)

theorem rsub_reduced {x y : rational} (hx : rreduced x) (hy : rreduced y) :
    rreduced (rsub x y) := by
  obtain ⟨hxd, hxc⟩ := hx
  obtain ⟨hyd, hyc⟩ := hy
  have hxd0 : x.den ≠ 0 := by omega
  have hyd0 : y.den ≠ 0 := by omega
  have hgpos : 0 < rgcd x.den y.den := rgcd_pos (Or.inl hxd0)
  have hdb := rgcd_dvd_left x.den y.den
  have hdd := rgcd_dvd_right x.den y.den
  set g := rgcd x.den y.den with hgdef
  set b1 := cdiv x.den g with hb1
  set d1 := cdiv y.den g with hd1
  set num1 := x.num * d1 - y.num * b1 with hnum1
  have hg2pos : 0 < rgcd num1 g := rgcd_pos (Or.inr (by omega))
  have hg2g := rgcd_dvd_right num1 g
  have hg2n := rgcd_dvd_left num1 g
  set g2 := rgcd num1 g with hg2def
  have hshape : rsub x y = ⟨cdiv num1 g2, b1 * cdiv y.den g2⟩ := rfl
  have hb1d1 : IsCoprime b1 d1 := coprime_cdiv_gcd (Or.inl hxd0)
  constructor
  · rw [hshape]
    exact mul_pos (cdiv_pos hdb hxd hgpos)
      (cdiv_pos (hg2g.trans hdd) hyd hg2pos)
  · rw [hshape]
    show Int.gcd (cdiv num1 g2) (b1 * cdiv y.den g2) = 1
    apply Int.gcd_eq_one_iff_coprime.mpr
    have hxnb1 : IsCoprime x.num b1 :=
      (Int.gcd_eq_one_iff_coprime.mp hxc).of_isCoprime_of_dvd_right (cdiv_dvd hdb)
    have hynd1 : IsCoprime y.num d1 :=
      (Int.gcd_eq_one_iff_coprime.mp hyc).of_isCoprime_of_dvd_right (cdiv_dvd hdd)
    have hnum1b1 : IsCoprime num1 b1 := by
      rw [hnum1, sub_eq_add_neg, ← neg_mul]
      exact (hxnb1.mul_left hb1d1.symm).add_mul_right_left (-y.num)
    have hnum1d1 : IsCoprime num1 d1 := by
      rw [hnum1, sub_eq_add_neg, ← neg_mul, add_comm]
      exact ((hynd1.neg_left).mul_left hb1d1).add_mul_right_left x.num
    have hn1 : IsCoprime (cdiv num1 g2) b1 :=
      hnum1b1.of_isCoprime_of_dvd_left (cdiv_dvd hg2n)
    have hn2 : IsCoprime (cdiv num1 g2) d1 :=
      hnum1d1.of_isCoprime_of_dvd_left (cdiv_dvd hg2n)
    have hn3 : IsCoprime (cdiv num1 g2) (cdiv g g2) := by
      rw [hg2def]
      exact coprime_cdiv_gcd (Or.inr (by omega))
    have hsplit : cdiv y.den g2 = cdiv g g2 * d1 := by
      obtain ⟨k, hk⟩ := hg2g
      obtain ⟨m, hm⟩ := hdd
      have hd1m : d1 = m := by
        rw [hd1, hm, show cdiv (g * m) g = m from
          Int.mul_tdiv_cancel_left m (by omega)]
      rw [hm, hk, show g2 * k * m = g2 * (k * m) from by ring,
        show cdiv (g2 * (k * m)) g2 = k * m from
          Int.mul_tdiv_cancel_left (k * m) (by omega),
        show cdiv (g2 * k) g2 = k from Int.mul_tdiv_cancel_left k (by omega),
        hd1m]
    rw [hsplit]
    exact hn1.mul_right (hn3.mul_right hn2)

theorem rmul_reduced {x y : rational} (hx : rreduced x) (hy : rreduced y) :
    rreduced (rmul x y) := by
  obtain ⟨hxd, hxc⟩ := hx
  obtain ⟨hyd, hyc⟩ := hy
  have hxd0 : x.den ≠ 0 := by omega
  have hyd0 : y.den ≠ 0 := by omega
  have hg1pos : 0 < rgcd x.num y.den := rgcd_pos (Or.inr hyd0)
  have hg2pos : 0 < rgcd y.num x.den := rgcd_pos (Or.inr hxd0)
  have h11 := rgcd_dvd_left x.num y.den
  have h12 := rgcd_dvd_right x.num y.den
  have h21 := rgcd_dvd_left y.num x.den
  have h22 := rgcd_dvd_right y.num x.den
  have hshape : rmul x y = ⟨cdiv x.num (rgcd x.num y.den) * cdiv y.num (rgcd y.num x.den),
      cdiv x.den (rgcd y.num x.den) * cdiv y.den (rgcd x.num y.den)⟩ := rfl
  constructor
  · rw [hshape]
    exact mul_pos (cdiv_pos h22 hxd hg2pos) (cdiv_pos h12 hyd hg1pos)
  · rw [hshape]
    show Int.gcd _ _ = 1
    apply Int.gcd_eq_one_iff_coprime.mpr
    have hAD : IsCoprime (cdiv x.num (rgcd x.num y.den)) (cdiv y.den (rgcd x.num y.den)) :=
      coprime_cdiv_gcd (Or.inr hyd0)
    have hCB : IsCoprime (cdiv y.num (rgcd y.num x.den)) (cdiv x.den (rgcd y.num x.den)) :=
      coprime_cdiv_gcd (Or.inr hxd0)
    have hAB : IsCoprime (cdiv x.num (rgcd x.num y.den)) (cdiv x.den (rgcd y.num x.den)) :=
      ((Int.gcd_eq_one_iff_coprime.mp hxc).of_isCoprime_of_dvd_left
        (cdiv_dvd h11)).of_isCoprime_of_dvd_right (cdiv_dvd h22)
    have hCD : IsCoprime (cdiv y.num (rgcd y.num x.den)) (cdiv y.den (rgcd x.num y.den)) :=
      ((Int.gcd_eq_one_iff_coprime.mp hyc).of_isCoprime_of_dvd_left
        (cdiv_dvd h21)).of_isCoprime_of_dvd_right (cdiv_dvd h12)
    exact (hAB.mul_right hAD).mul_left (hCB.mul_right hCD)

theorem rdiv_some_num {x y : rational} {z : rational} (h : rdiv x y = some z) :
    y.num ≠ 0 := by
  intro hy
  rw [(rdiv_eq_none_iff x y).mpr hy] at h
  cases h

theorem rdiv_reduced {x y z : rational} (hx : rreduced x) (hy : rreduced y)
    (h : rdiv x y = some z) : rreduced z := by
  have hyn : y.num ≠ 0 := rdiv_some_num h
  obtain ⟨hxd, hxc⟩ := hx
  obtain ⟨hyd, hyc⟩ := hy
  have hxd0 : x.den ≠ 0 := by omega
  have hyd0 : y.den ≠ 0 := by omega
  by_cases h0 : x.num = 0
  · unfold rdiv at h
    rw [if_neg hyn, if_pos h0] at h
    cases h
    exact ⟨hxd, hxc⟩
  · rw [rdiv_pos_def x y h0 hyn] at h
    have hg1pos : 0 < rgcd x.num y.num := rgcd_pos (Or.inl h0)
    have hg2pos : 0 < rgcd y.den x.den := rgcd_pos (Or.inl hyd0)
    have h11 := rgcd_dvd_left x.num y.num
    have h12 := rgcd_dvd_right x.num y.num
    have h21 := rgcd_dvd_left y.den x.den
    have h22 := rgcd_dvd_right y.den x.den
    have hDpos : cdiv x.den (rgcd y.den x.den) * cdiv y.num (rgcd x.num y.num) ≠ 0 :=
      mul_ne_zero (cdiv_ne_zero h22 hxd0) (cdiv_ne_zero h12 hyn)
    have hcop : IsCoprime
        (cdiv x.num (rgcd x.num y.num) * cdiv y.den (rgcd y.den x.den))
        (cdiv x.den (rgcd y.den x.den) * cdiv y.num (rgcd x.num y.num)) := by
      have hAC : IsCoprime (cdiv x.num (rgcd x.num y.num)) (cdiv y.num (rgcd x.num y.num)) :=
        coprime_cdiv_gcd (Or.inl h0)
      have hEB : IsCoprime (cdiv y.den (rgcd y.den x.den)) (cdiv x.den (rgcd y.den x.den)) :=
        coprime_cdiv_gcd (Or.inl hyd0)
      have hAB : IsCoprime (cdiv x.num (rgcd x.num y.num)) (cdiv x.den (rgcd y.den x.den)) :=
        ((Int.gcd_eq_one_iff_coprime.mp hxc).of_isCoprime_of_dvd_left
          (cdiv_dvd h11)).of_isCoprime_of_dvd_right (cdiv_dvd h22)
      have hEC : IsCoprime (cdiv y.den (rgcd y.den x.den)) (cdiv y.num (rgcd x.num y.num)) :=
        ((Int.gcd_eq_one_iff_coprime.mp hyc).symm.of_isCoprime_of_dvd_left
          (cdiv_dvd h21)).of_isCoprime_of_dvd_right (cdiv_dvd h12)
      exact (hAB.mul_right hAC).mul_left (hEB.mul_right hEC)
    split at h <;> cases h
    · constructor
      · show (0 : Int) < -(cdiv x.den (rgcd y.den x.den) * cdiv y.num (rgcd x.num y.num))
        omega
      · show Int.gcd (-(cdiv x.num (rgcd x.num y.num) * cdiv y.den (rgcd y.den x.den)))
            (-(cdiv x.den (rgcd y.den x.den) * cdiv y.num (rgcd x.num y.num))) = 1
        rw [Int.neg_gcd, Int.gcd_neg]
        exact Int.gcd_eq_one_iff_coprime.mpr hcop
    · constructor
      · show (0 : Int) < cdiv x.den (rgcd y.den x.den) * cdiv y.num (rgcd x.num y.num)
        omega
      · exact Int.gcd_eq_one_iff_coprime.mpr hcop

theorem ofInt_reduced (n : Int) : rreduced (rational.ofInt n) :=
  ⟨by norm_num [rational.ofInt], by simp [rational.ofInt]⟩

theorem rval_ofInt (n : Int) : rval (rational.ofInt n) = (n : ℚ) := by
  simp [rval, rational.ofInt]

theorem rreduced_den_ne {x : rational} (h : rreduced x) : x.den ≠ 0 := by
  have := h.1
  omega

theorem rval_eq_zero_iff {x : rational} (h : x.den ≠ 0) :
    rval x = 0 ↔ x.num = 0 := by
  rw [rval, div_eq_zero_iff]
  have : (x.den : ℚ) ≠ 0 := Int.cast_ne_zero.mpr h
  simp [this]

theorem iadd_reduced {x y : irrational} (hx : ireduced x) (hy : ireduced y) :
    ireduced (iadd x y) := ⟨radd_reduced hx.1 hy.1, radd_reduced hx.2 hy.2⟩

theorem isub_reduced {x y : irrational} (hx : ireduced x) (hy : ireduced y) :
    ireduced (isub x y) := ⟨rsub_reduced hx.1 hy.1, rsub_reduced hx.2 hy.2⟩

theorem imul_reduced {x y : irrational} (hx : ireduced x) (hy : ireduced y) :
    ireduced (imul x y) :=
  ⟨radd_reduced (rmul_reduced hx.1 hy.1)
      (rmul_reduced (rmul_reduced (ofInt_reduced 2) hx.2) hy.2),
   radd_reduced (rmul_reduced hx.1 hy.2) (rmul_reduced hx.2 hy.1)⟩

theorem iadd_val {x y : irrational} (hx : ireduced x) (hy : ireduced y) :
    ivalp (iadd x y) = qq_add (ivalp x) (ivalp y) := by
  rw [show iadd x y = ⟨radd x.intpart y.intpart, radd x.sqrt2part y.sqrt2part⟩ from rfl]
  rw [ivalp, ivalp, ivalp, qq_add]
  rw [radd_val _ _ (rreduced_den_ne hx.1) (rreduced_den_ne hy.1),
    radd_val _ _ (rreduced_den_ne hx.2) (rreduced_den_ne hy.2)]

theorem isub_val {x y : irrational} (hx : ireduced x) (hy : ireduced y) :
    ivalp (isub x y) = qq_sub (ivalp x) (ivalp y) := by
  rw [show isub x y = ⟨rsub x.intpart y.intpart, rsub x.sqrt2part y.sqrt2part⟩ from rfl]
  rw [ivalp, ivalp, ivalp, qq_sub]
  rw [rsub_val _ _ (rreduced_den_ne hx.1) (rreduced_den_ne hy.1),
    rsub_val _ _ (rreduced_den_ne hx.2) (rreduced_den_ne hy.2)]

theorem imul_val {x y : irrational} (hx : ireduced x) (hy : ireduced y) :
    ivalp (imul x y) = qq_mul (ivalp x) (ivalp y) := by
  rw [show imul x y = ⟨radd (rmul x.intpart y.intpart)
        (rmul (rmul (rational.ofInt 2) x.sqrt2part) y.sqrt2part),
      radd (rmul x.intpart y.sqrt2part) (rmul x.sqrt2part y.intpart)⟩ from rfl]
  have h2b : rreduced (rmul (rational.ofInt 2) x.sqrt2part) :=
    rmul_reduced (ofInt_reduced 2) hx.2
  rw [ivalp, ivalp, ivalp, qq_mul]
  rw [radd_val _ _ (rreduced_den_ne (rmul_reduced hx.1 hy.1))
      (rreduced_den_ne (rmul_reduced h2b hy.2)),
    radd_val _ _ (rreduced_den_ne (rmul_reduced hx.1 hy.2))
      (rreduced_den_ne (rmul_reduced hx.2 hy.1)),
    rmul_val _ _ (rreduced_den_ne hx.1) (rreduced_den_ne hy.1),
    rmul_val _ _ (rreduced_den_ne h2b) (rreduced_den_ne hy.2),
    rmul_val _ _ (rreduced_den_ne (ofInt_reduced 2)) (rreduced_den_ne hx.2),
    rmul_val _ _ (rreduced_den_ne hx.1) (rreduced_den_ne hy.2),
    rmul_val _ _ (rreduced_den_ne hx.2) (rreduced_den_ne hy.1),
    rval_ofInt]
  norm_num

theorem idiv_def (x y : irrational) :
    idiv x y =
      (rdiv (rsub (rmul x.intpart y.intpart)
          (rmul (rmul (rational.ofInt 2) x.sqrt2part) y.sqrt2part)) (idenom y)).bind
        fun ip => (rdiv (rsub (rmul x.sqrt2part y.intpart)
          (rmul x.intpart y.sqrt2part)) (idenom y)).bind
        fun sp => some ⟨ip, sp⟩ := rfl

theorem idenom_reduced {y : irrational} (hy : ireduced y) : rreduced (idenom y) :=
  rsub_reduced (rmul_reduced hy.1 hy.1)
    (rmul_reduced (rmul_reduced (ofInt_reduced 2) hy.2) hy.2)

theorem idenom_val {y : irrational} (hy : ireduced y) :
    rval (idenom y) = rval y.intpart * rval y.intpart -
      2 * (rval y.sqrt2part * rval y.sqrt2part) := by
  have h2b : rreduced (rmul (rational.ofInt 2) y.sqrt2part) :=
    rmul_reduced (ofInt_reduced 2) hy.2
  rw [idenom,
    rsub_val _ _ (rreduced_den_ne (rmul_reduced hy.1 hy.1))
      (rreduced_den_ne (rmul_reduced h2b hy.2)),
    rmul_val _ _ (rreduced_den_ne hy.1) (rreduced_den_ne hy.1),
    rmul_val _ _ (rreduced_den_ne h2b) (rreduced_den_ne hy.2),
    rmul_val _ _ (rreduced_den_ne (ofInt_reduced 2)) (rreduced_den_ne hy.2),
    rval_ofInt]
  ring

theorem rdiv_isSome {x y : rational} (hy : y.num ≠ 0) :
    ∃ z, rdiv x y = some z := by
  by_cases h0 : x.num = 0
  · refine ⟨x, ?_⟩
    unfold rdiv
    rw [if_neg hy, if_pos h0]
  · rw [rdiv_pos_def x y h0 hy]
    split
    · exact ⟨_, rfl⟩
    · exact ⟨_, rfl⟩

theorem idiv_eq_none_iff {x y : irrational} :
    idiv x y = none ↔ (idenom y).num = 0 := by
  rw [idiv_def]
  by_cases hd : (idenom y).num = 0
  · rw [(rdiv_eq_none_iff _ _).mpr hd]
    simp [hd]
  · obtain ⟨z1, hz1⟩ := rdiv_isSome (x := rsub (rmul x.intpart y.intpart)
      (rmul (rmul (rational.ofInt 2) x.sqrt2part) y.sqrt2part)) hd
    obtain ⟨z2, hz2⟩ := rdiv_isSome (x := rsub (rmul x.sqrt2part y.intpart)
      (rmul x.intpart y.sqrt2part)) hd
    rw [hz1, hz2]
    simp [hd]

theorem idiv_val {x y : irrational} {z : irrational} (hx : ireduced x)
    (hy : ireduced y) (h : idiv x y = some z) :
    ivalp z = qq_div (ivalp x) (ivalp y) := by
  rw [idiv_def] at h
  rcases Option.bind_eq_some.mp h with ⟨ip, hip, h2⟩
  rcases Option.bind_eq_some.mp h2 with ⟨sp, hsp, h3⟩
  cases h3
  have hdn : (idenom y).num ≠ 0 := rdiv_some_num hip
  have hdd : (idenom y).den ≠ 0 := rreduced_den_ne (idenom_reduced hy)
  have h2b : rreduced (rmul (rational.ofInt 2) x.sqrt2part) :=
    rmul_reduced (ofInt_reduced 2) hx.2
  have hn1 : rreduced (rsub (rmul x.intpart y.intpart)
      (rmul (rmul (rational.ofInt 2) x.sqrt2part) y.sqrt2part)) :=
    rsub_reduced (rmul_reduced hx.1 hy.1) (rmul_reduced h2b hy.2)
  have hn2 : rreduced (rsub (rmul x.sqrt2part y.intpart)
      (rmul x.intpart y.sqrt2part)) :=
    rsub_reduced (rmul_reduced hx.2 hy.1) (rmul_reduced hx.1 hy.2)
  have hv1 := rdiv_val _ _ _ (rreduced_den_ne hn1) hdd hdn hip
  have hv2 := rdiv_val _ _ _ (rreduced_den_ne hn2) hdd hdn hsp
  rw [show ivalp ⟨ip, sp⟩ = (rval ip, rval sp) from rfl, hv1, hv2]
  rw [rsub_val _ _ (rreduced_den_ne (rmul_reduced hx.1 hy.1))
      (rreduced_den_ne (rmul_reduced h2b hy.2)),
    rsub_val _ _ (rreduced_den_ne (rmul_reduced hx.2 hy.1))
      (rreduced_den_ne (rmul_reduced hx.1 hy.2)),
    rmul_val _ _ (rreduced_den_ne hx.1) (rreduced_den_ne hy.1),
    rmul_val _ _ (rreduced_den_ne h2b) (rreduced_den_ne hy.2),
    rmul_val _ _ (rreduced_den_ne (ofInt_reduced 2)) (rreduced_den_ne hx.2),
    rmul_val _ _ (rreduced_den_ne hx.2) (rreduced_den_ne hy.1),
    rmul_val _ _ (rreduced_den_ne hx.1) (rreduced_den_ne hy.2),
    idenom_val hy, rval_ofInt]
  rw [qq_div, ivalp, ivalp]
  norm_num
  exact ⟨by ring_nf, by ring_nf⟩

theorem idiv_reduced {x y : irrational} {z : irrational} (hx : ireduced x)
    (hy : ireduced y) (h : idiv x y = some z) : ireduced z := by
  rw [idiv_def] at h
  rcases Option.bind_eq_some.mp h with ⟨ip, hip, h2⟩
  rcases Option.bind_eq_some.mp h2 with ⟨sp, hsp, h3⟩
  cases h3
  have h2b : rreduced (rmul (rational.ofInt 2) x.sqrt2part) :=
    rmul_reduced (ofInt_reduced 2) hx.2
  exact ⟨rdiv_reduced (rsub_reduced (rmul_reduced hx.1 hy.1)
      (rmul_reduced h2b hy.2)) (idenom_reduced hy) hip,
    rdiv_reduced (rsub_reduced (rmul_reduced hx.2 hy.1)
      (rmul_reduced hx.1 hy.2)) (idenom_reduced hy) hsp⟩

theorem rat_sq_ne_two (q : ℚ) : q ^ 2 ≠ 2 := by
  intro h
  have h2 : ((q : ℝ)) ^ 2 = 2 := by exact_mod_cast h
  have hs : Real.sqrt 2 = |(q : ℝ)| := by
    rw [← h2, Real.sqrt_sq_eq_abs]
  refine Rat.not_irrational |q| ?_
  rw [Rat.cast_abs, ← hs]
  exact irrational_sqrt_two

theorem rat_sq_sub_two_sq (c d : ℚ) :
    c * c - 2 * (d * d) = 0 ↔ c = 0 ∧ d = 0 := by
  constructor
  · intro h
    by_cases hd : d = 0
    · subst hd
      constructor
      · nlinarith
      · rfl
    · exfalso
      refine rat_sq_ne_two (c / d) ?_
      field_simp
      nlinarith
  · rintro ⟨rfl, rfl⟩
    ring

theorem rat_sum_sq_eq_zero (a b c d : ℚ) :
    a * a + 2 * b * b + (c * c + 2 * d * d) = 0 ↔
      a = 0 ∧ b = 0 ∧ c = 0 ∧ d = 0 := by
  constructor
  · intro h
    refine ⟨?_, ?_, ?_, ?_⟩ <;> nlinarith [sq_nonneg a, sq_nonneg b, sq_nonneg c,
      sq_nonneg d, mul_self_nonneg a, mul_self_nonneg b, mul_self_nonneg c,
      mul_self_nonneg d]
  · rintro ⟨rfl, rfl, rfl, rfl⟩
    ring

theorem wdiv_def (x y : weight) :
    wdiv x y =
      (idiv (iadd (imul x.real y.real) (imul x.imag y.imag)) (wdenom y)).bind
        fun re => (idiv (isub (imul x.imag y.real) (imul x.real y.imag)) (wdenom y)).bind
        fun im => some ⟨re, im⟩ := rfl

theorem wdenom_reduced {y : weight} (hy : wreduced y) : ireduced (wdenom y) :=
  iadd_reduced (imul_reduced hy.1 hy.1) (imul_reduced hy.2 hy.2)

theorem idiv_isSome {x y : irrational} (hd : (idenom y).num ≠ 0) :
    ∃ z, idiv x y = some z := by
  rw [idiv_def]
  obtain ⟨z1, hz1⟩ := rdiv_isSome (x := rsub (rmul x.intpart y.intpart)
    (rmul (rmul (rational.ofInt 2) x.sqrt2part) y.sqrt2part)) hd
  obtain ⟨z2, hz2⟩ := rdiv_isSome (x := rsub (rmul x.sqrt2part y.intpart)
    (rmul x.intpart y.sqrt2part)) hd
  rw [hz1, hz2]
  exact ⟨⟨z1, z2⟩, rfl⟩

/-- `weight::operator/=` fails exactly on a zero divisor: the division by
`c² + d²` (and within it by the rational `C² − 2D²`) reaches the
`assert(r_num != 0)` iff the divisor weight has value 0 in ℚ[√2][i]. -/
theorem wdiv_eq_none_iff {x y : weight} (hy : wreduced y) :
    wdiv x y = none ↔ wvalp y = cw_zero := by
  have hdred : ireduced (wdenom y) := wdenom_reduced hy
  have hidred : rreduced (idenom (wdenom y)) := idenom_reduced hdred
  have hvd : ivalp (wdenom y) = qq_add (qq_mul (ivalp y.real) (ivalp y.real))
      (qq_mul (ivalp y.imag) (ivalp y.imag)) := by
    rw [wdenom, iadd_val (imul_reduced hy.1 hy.1) (imul_reduced hy.2 hy.2),
      imul_val hy.1 hy.1, imul_val hy.2 hy.2]
  have hkey : (idenom (wdenom y)).num = 0 ↔ wvalp y = cw_zero := by
    rw [← rval_eq_zero_iff (rreduced_den_ne hidred), idenom_val hdred]
    have h1 : rval (wdenom y).intpart = (ivalp (wdenom y)).1 := rfl
    have h2 : rval (wdenom y).sqrt2part = (ivalp (wdenom y)).2 := rfl
    rw [h1, h2, hvd]
    rw [qq_add, qq_mul, qq_mul]
    set a := (ivalp y.real).1
    set b := (ivalp y.real).2
    set c := (ivalp y.imag).1
    set d := (ivalp y.imag).2
    have hC : (a * a + 2 * b * b + (c * c + 2 * d * d),
        a * b + b * a + (c * d + d * c)).1 = a * a + 2 * b * b + (c * c + 2 * d * d) := rfl
    constructor
    · intro h
      have hCzero : a * a + 2 * b * b + (c * c + 2 * d * d) = 0 ∧
          a * b + b * a + (c * d + d * c) = 0 := by
        have := (rat_sq_sub_two_sq (a * a + 2 * b * b + (c * c + 2 * d * d))
          (a * b + b * a + (c * d + d * c))).mp (by
            convert h using 2)
        exact this
      obtain ⟨ha, hb, hc, hd⟩ := (rat_sum_sq_eq_zero a b c d).mp hCzero.1
      show wvalp y = cw_zero
      have hr : ivalp y.real = (0, 0) := by
        rw [show ivalp y.real = (a, b) from rfl, ha, hb]
      have hi : ivalp y.imag = (0, 0) := by
        rw [show ivalp y.imag = (c, d) from rfl, hc, hd]
      rw [wvalp, hr, hi]
      rfl
    · intro h
      have hr : a = 0 ∧ b = 0 ∧ c = 0 ∧ d = 0 := by
        have h1 : ivalp y.real = (0, 0) := congrArg Prod.fst h
        have h2 : ivalp y.imag = (0, 0) := congrArg Prod.snd h
        refine ⟨?_, ?_, ?_, ?_⟩
        · exact congrArg Prod.fst h1
        · exact congrArg Prod.snd h1
        · exact congrArg Prod.fst h2
        · exact congrArg Prod.snd h2
      obtain ⟨ha, hb, hc, hd⟩ := hr
      rw [ha, hb, hc, hd]
      ring
  constructor
  · intro h
    rw [wdiv_def] at h
    by_cases hd : (idenom (wdenom y)).num = 0
    · exact hkey.mp hd
    · obtain ⟨z1, hz1⟩ := idiv_isSome (x := iadd (imul x.real y.real)
        (imul x.imag y.imag)) hd
      obtain ⟨z2, hz2⟩ := idiv_isSome (x := isub (imul x.imag y.real)
        (imul x.real y.imag)) hd
      rw [hz1, hz2] at h
      simp at h
  · intro h
    rw [wdiv_def, idiv_eq_none_iff.mpr (hkey.mpr h)]
    rfl

theorem wdiv_val {x y z : weight} (hx : wreduced x) (hy : wreduced y)
    (h : wdiv x y = some z) : wvalp z = cw_div (wvalp x) (wvalp y) := by
  rw [wdiv_def] at h
  rcases Option.bind_eq_some.mp h with ⟨re, hre, h2⟩
  rcases Option.bind_eq_some.mp h2 with ⟨im, him, h3⟩
  cases h3
  have hn1 : ireduced (iadd (imul x.real y.real) (imul x.imag y.imag)) :=
    iadd_reduced (imul_reduced hx.1 hy.1) (imul_reduced hx.2 hy.2)
  have hn2 : ireduced (isub (imul x.imag y.real) (imul x.real y.imag)) :=
    isub_reduced (imul_reduced hx.2 hy.1) (imul_reduced hx.1 hy.2)
  have hv1 := idiv_val hn1 (wdenom_reduced hy) hre
  have hv2 := idiv_val hn2 (wdenom_reduced hy) him
  rw [show wvalp ⟨re, im⟩ = (ivalp re, ivalp im) from rfl, hv1, hv2]
  rw [iadd_val (imul_reduced hx.1 hy.1) (imul_reduced hx.2 hy.2),
    isub_val (imul_reduced hx.2 hy.1) (imul_reduced hx.1 hy.2),
    imul_val hx.1 hy.1, imul_val hx.2 hy.2, imul_val hx.2 hy.1,
    imul_val hx.1 hy.2]
  rw [show wdenom y = iadd (imul y.real y.real) (imul y.imag y.imag) from rfl,
    iadd_val (imul_reduced hy.1 hy.1) (imul_reduced hy.2 hy.2),
    imul_val hy.1 hy.1, imul_val hy.2 hy.2]
  rfl

theorem wdiv_reduced {x y z : weight} (hx : wreduced x) (hy : wreduced y)
    (h : wdiv x y = some z) : wreduced z := by
  rw [wdiv_def] at h
  rcases Option.bind_eq_some.mp h with ⟨re, hre, h2⟩
  rcases Option.bind_eq_some.mp h2 with ⟨im, him, h3⟩
  cases h3
  exact ⟨idiv_reduced (iadd_reduced (imul_reduced hx.1 hy.1)
      (imul_reduced hx.2 hy.2)) (wdenom_reduced hy) hre,
    idiv_reduced (isub_reduced (imul_reduced hx.2 hy.1)
      (imul_reduced hx.1 hy.2)) (wdenom_reduced hy) him⟩

theorem aget_eq_some_mem {α : Type} :
    ∀ {l : List (Nat × α)} {k : Nat} {v : α}, aget l k = some v → (k, v) ∈ l := by
  intro l
  induction l with
  | nil => intro k v h; cases h
  | cons kv t ih =>
    intro k v h
    obtain ⟨a, b⟩ := kv
    rw [show aget ((a, b) :: t) k = if a = k then some b else aget t k from rfl] at h
    by_cases ha : a = k
    · rw [if_pos ha] at h
      cases h
      subst ha
      exact List.mem_cons_self _ _
    · rw [if_neg ha] at h
      exact List.mem_cons_of_mem _ (ih h)

theorem wt_find_ne_invalid {wtab : List (Nat × wentry)} {w0 w1 op : Nat}
    (h : wt_find wtab w0 w1 op ≠ invalid_value) :
    ∃ kv ∈ wtab, kv.2.w0 = w0 ∧ kv.2.w1 = w1 ∧ kv.2.op = op ∧
      kv.2.r = wt_find wtab w0 w1 op := by
  have hw : ∀ g, aget wtab (wkey w0 w1 op) = g → wt_find wtab w0 w1 op =
      match g with
      | none => invalid_value
      | some en =>
        if en.w0 = w0 ∧ en.w1 = w1 ∧ en.op = op then en.r else invalid_value := by
    intro g hg
    rw [wt_find, hg]
  cases hg : aget wtab (wkey w0 w1 op) with
  | none => rw [hw none hg] at h; exact absurd rfl h
  | some en =>
    rw [hw (some en) hg] at h
    replace h : (if en.w0 = w0 ∧ en.w1 = w1 ∧ en.op = op then en.r
        else invalid_value) ≠ invalid_value := h
    by_cases hc : en.w0 = w0 ∧ en.w1 = w1 ∧ en.op = op
    · refine ⟨(wkey w0 w1 op, en), aget_eq_some_mem hg, hc.1, hc.2.1, hc.2.2, ?_⟩
      rw [hw (some en) hg]
      show en.r = if en.w0 = w0 ∧ en.w1 = w1 ∧ en.op = op then en.r
        else invalid_value
      rw [if_pos hc]
    · rw [if_neg hc] at h; exact absurd rfl h

theorem weight_op_eval_div (x y : weight) : weight_op_eval x y 3 = wdiv x y := rfl

/-- C8: `apply(w0, w1, weight_op_div)` on two valid weight handles of a
well-formed engine state fails — reaches the `assert(r_num != 0)` branch of
`rational::operator/=` through `weight::operator/=`, modelled as `none` —
exactly when the divisor weight's value in ℚ[√2][i] is zero; every divisor of
nonzero value makes all the nested complex, irrational and rational division
steps succeed. -/
theorem c8_div_fails_iff_zero_divisor {s : St} (hwf : WFw s) {w0 w1 : Nat}
    (h0 : w0 < s.wlist.length) (h1 : w1 < s.wlist.length) :
    (apply_weight s w0 w1 3 = none ↔
      wvalp (s.wlist.get ⟨w1, h1⟩) = cw_zero) := by
  by_cases hf : wt_find s.wtab w0 w1 3 = invalid_value
  · have hx : s.wlist.get? w0 = some (s.wlist.get ⟨w0, h0⟩) := List.get?_eq_get h0
    have hy : s.wlist.get? w1 = some (s.wlist.get ⟨w1, h1⟩) := List.get?_eq_get h1
    have hyred : wreduced (s.wlist.get ⟨w1, h1⟩) :=
      hwf.1 _ (s.wlist.get_mem _ _)
    cases hd : wdiv (s.wlist.get ⟨w0, h0⟩) (s.wlist.get ⟨w1, h1⟩) with
    | none =>
      have happ : apply_weight s w0 w1 3 = none := by
        simp only [apply_weight, hf, ne_eq, not_true_eq_false, if_false, hx, hy,
          Option.bind_eq_bind, Option.some_bind, weight_op_eval_div, hd,
          Option.none_bind]
      exact iff_of_true happ ((wdiv_eq_none_iff hyred).mp hd)
    | some z =>
      have happ : apply_weight s w0 w1 3 ≠ none := by
        simp only [apply_weight, hf, ne_eq, not_true_eq_false, if_false, hx, hy,
          Option.bind_eq_bind, Option.some_bind, weight_op_eval_div, hd]
        exact fun hcon => by cases hcon
      refine iff_of_false happ fun hzero => ?_
      rw [(wdiv_eq_none_iff hyred).mpr hzero] at hd
      cases hd
  · obtain ⟨kv, hmem, _, he1, he2, _⟩ := wt_find_ne_invalid hf
    obtain ⟨y, hy', hyne⟩ := hwf.2 kv hmem he2
    have happ : apply_weight s w0 w1 3 = some (s, wt_find s.wtab w0 w1 3) := by
      simp only [apply_weight, ne_eq, hf, not_false_iff, if_true]
    refine iff_of_false (by simp [happ]) fun hzero => ?_
    apply hyne
    rw [he1, List.get?_eq_get h1] at hy'
    obtain rfl := Option.some.inj hy'
    exact hzero

theorem c8_init_wf : WFw (init_qmdd 1) := by
  refine ⟨?_, ?_⟩
  · intro w hw
    have hcase : w = weight.zero ∨ w = weight.one := by
      simpa [init_qmdd] using hw
    rcases hcase with rfl | rfl
    · exact ⟨⟨⟨by decide, by decide⟩, ⟨by decide, by decide⟩⟩,
        ⟨⟨by decide, by decide⟩, ⟨by decide, by decide⟩⟩⟩
    · exact ⟨⟨⟨by decide, by decide⟩, ⟨by decide, by decide⟩⟩,
        ⟨⟨by decide, by decide⟩, ⟨by decide, by decide⟩⟩⟩
  · intro kv hkv
    simp [init_qmdd] at hkv

theorem c8_witness :
    WFw (init_qmdd 1) ∧ 1 < (init_qmdd 1).wlist.length ∧
      0 < (init_qmdd 1).wlist.length ∧
      (apply_weight (init_qmdd 1) 1 0 3 = none ↔
        wvalp ((init_qmdd 1).wlist.get ⟨0, by decide⟩) = cw_zero) :=
  ⟨c8_init_wf, by decide, by decide,
    c8_div_fails_iff_zero_divisor c8_init_wf (by decide) (by decide)⟩

theorem normalize_rest_nil (f : Nat) (s : St) :
    normalize_rest f [] s = some (s, []) := rfl

theorem normalize_rest_cons (f w : Nat) (t : List Nat) (s : St) :
    normalize_rest f (w :: t) s =
      if w ≠ 0 then
        (apply_weight s w f 3).bind fun p =>
          (normalize_rest f t p.1).bind fun q => some (q.1, p.2 :: q.2)
      else
        (normalize_rest f t s).bind fun q => some (q.1, w :: q.2) := rfl

theorem normalize_weights_nil (s : St) :
    normalize_weights [] s = some (s, 0, []) := rfl

theorem normalize_weights_cons (w : Nat) (t : List Nat) (s : St) :
    normalize_weights (w :: t) s =
      if w = 0 then
        (normalize_weights t s).bind fun q => some (q.1, q.2.1, w :: q.2.2)
      else
        (normalize_rest w t s).bind fun q => some (q.1, w, 1 :: q.2) := rfl

theorem get?_mono {α : Type} {l t : List α} {i : Nat} {y : α}
    (h : l.get? i = some y) : (l ++ t).get? i = some y := by
  obtain ⟨hlt, _⟩ := List.get?_eq_some.mp h
  rw [List.get?_append hlt]
  exact h

theorem aset_mem {α : Type} :
    ∀ {l : List (Nat × α)} {k : Nat} {v : α} {kv : Nat × α},
      kv ∈ aset l k v → kv = (k, v) ∨ kv ∈ l := by
  intro l
  induction l with
  | nil =>
    intro k v kv h
    rw [show aset [] k v = [(k, v)] from rfl] at h
    exact Or.inl (List.mem_singleton.mp h)
  | cons hd t ih =>
    intro k v kv h
    rw [show aset (hd :: t) k v =
        if hd.1 = k then (k, v) :: t else hd :: aset t k v from rfl] at h
    by_cases hk : hd.1 = k
    · rw [if_pos hk] at h
      rcases List.mem_cons.mp h with rfl | h2
      · exact Or.inl rfl
      · exact Or.inr (List.mem_cons_of_mem _ h2)
    · rw [if_neg hk] at h
      rcases List.mem_cons.mp h with rfl | h2
      · exact Or.inr (List.mem_cons_self _ _)
      · rcases ih h2 with h3 | h3
        · exact Or.inl h3
        · exact Or.inr (List.mem_cons_of_mem _ h3)

theorem wvalp_zero : wvalp weight.zero = cw_zero := by
  show ((rval ⟨0, 1⟩, rval ⟨0, 1⟩), (rval ⟨0, 1⟩, rval ⟨0, 1⟩)) = cw_zero
  norm_num [rval, cw_zero]

theorem rreduced_val_zero {x : rational} (hx : rreduced x) (h : rval x = 0) :
    x = ⟨0, 1⟩ := by
  have hpos : 0 < x.den := hx.1
  have hnum : x.num = 0 := (rval_eq_zero_iff (by omega)).mp h
  have hgcd := hx.2
  rw [hnum] at hgcd
  have hd1 : x.den.natAbs = 1 := by simpa [Int.gcd] using hgcd
  have hd : x.den = 1 := by omega
  have hx0 : x = ⟨x.num, x.den⟩ := rfl
  rw [hx0, hnum, hd]

theorem wreduced_val_zero {y : weight} (hy : wreduced y)
    (h : wvalp y = cw_zero) : y = weight.zero := by
  have h1 : rval y.real.intpart = 0 := congrArg (fun u => u.1.1) h
  have h2 : rval y.real.sqrt2part = 0 := congrArg (fun u => u.1.2) h
  have h3 : rval y.imag.intpart = 0 := congrArg (fun u => u.2.1) h
  have h4 : rval y.imag.sqrt2part = 0 := congrArg (fun u => u.2.2) h
  have hy0 : y = ⟨⟨y.real.intpart, y.real.sqrt2part⟩,
      ⟨y.imag.intpart, y.imag.sqrt2part⟩⟩ := rfl
  rw [hy0, rreduced_val_zero hy.1.1 h1, rreduced_val_zero hy.1.2 h2,
    rreduced_val_zero hy.2.1 h3, rreduced_val_zero hy.2.2 h4]
  rfl

theorem cw_div_zero (v : (ℚ × ℚ) × (ℚ × ℚ)) : cw_div cw_zero v = cw_zero := by
  simp [cw_div, qq_div, qq_add, qq_sub, qq_mul, cw_zero]

/-- In a well-formed state, a nonzero weight handle holds a weight of nonzero
value: reduced representations are unique, so only handle 0 can hold value 0. -/
theorem handle_nonzero_value {s : St} (hwf : WFq s) {f : Nat} {yf : weight}
    (hf : s.wlist.get? f = some yf) (hfz : f ≠ 0) : wvalp yf ≠ cw_zero := by
  intro hzero
  have hyred : wreduced yf := hwf.1 yf (List.get?_mem hf)
  have hyz : yf = weight.zero := wreduced_val_zero hyred hzero
  subst hyz
  obtain ⟨hlt, _⟩ := List.get?_eq_some.mp hf
  exact hfz (List.get?_inj hlt hwf.2.1 (hf.trans hwf.2.2.1.symm))

/-- `qmdd::apply` on weight handles with the division op, started from a
well-formed state with valid operand handles and a divisor of nonzero value:
it succeeds, only ever appends to the weight vector, preserves
well-formedness, and the returned handle holds a weight whose value is the
complex quotient of the operand values. -/
theorem apply_weight_div_char {s : St} (hwf : WFq s) {a b : Nat} {x y : weight}
    (hxa : s.wlist.get? a = some x) (hyb : s.wlist.get? b = some y)
    (hynz : wvalp y ≠ cw_zero) :
    ∃ s' r z, apply_weight s a b 3 = some (s', r) ∧ WFq s' ∧
      (∃ t, s'.wlist = s.wlist ++ t) ∧
      s'.wlist.get? r = some z ∧ wvalp z = cw_div (wvalp x) (wvalp y) := by
  by_cases hf : wt_find s.wtab a b 3 = invalid_value
  · have hyred : wreduced y := hwf.1 y (List.get?_mem hyb)
    have hxred : wreduced x := hwf.1 x (List.get?_mem hxa)
    cases hd : wdiv x y with
    | none => exact absurd ((wdiv_eq_none_iff hyred).mp hd) hynz
    | some nw =>
      have hnwval : wvalp nw = cw_div (wvalp x) (wvalp y) :=
        wdiv_val hxred hyred hd
      have hnwred : wreduced nw := wdiv_reduced hxred hyred hd
      have happ : ∀ p : Nat × List weight, uw_insert s.wlist nw = p → apply_weight s a b 3 = some ({ s with wlist := p.2, wtab := aset s.wtab (wkey a b 3) ⟨a, b, 3, p.1⟩ }, p.1) := by
        intro p hp
        simp only [apply_weight, hf, ne_eq, not_true_eq_false, if_false, hxa,
          hyb, Option.bind_eq_bind, Option.some_bind, weight_op_eval_div, hd, hp]
      cases hscan : uw_scan s.wlist nw with
      | some i =>
        have hins : uw_insert s.wlist nw = (i, s.wlist) := by
          rw [uw_insert, hscan]
        have h2 := happ (i, s.wlist) hins
        have hget : s.wlist.get? i = some nw := uw_scan_get _ _ _ hscan
        refine ⟨_, i, nw, h2, ?_, ⟨[], (List.append_nil _).symm⟩, hget, hnwval⟩
        refine ⟨hwf.1, hwf.2.1, hwf.2.2.1, ?_⟩
        intro kv hkv hop
        rcases aset_mem hkv with rfl | hold
        · exact ⟨x, y, nw, hxa, hyb, hget, hynz, hnwval⟩
        · exact hwf.2.2.2 kv hold hop
      | none =>
        have hins : uw_insert s.wlist nw = (s.wlist.length, s.wlist ++ [nw]) := by
          rw [uw_insert, hscan]
        have h2 := happ (s.wlist.length, s.wlist ++ [nw]) hins
        have hmem : nw ∉ s.wlist := (uw_scan_none _ _).mp hscan
        have hget : (s.wlist ++ [nw]).get? s.wlist.length = some nw :=
          List.get?_concat_length _ _
        refine ⟨_, s.wlist.length, nw, h2, ?_, ⟨[nw], rfl⟩, hget, hnwval⟩
        refine ⟨?_, ?_, get?_mono hwf.2.2.1, ?_⟩
        · intro w hw
          rcases List.mem_append.mp hw with hw1 | hw1
          · exact hwf.1 w hw1
          · rw [List.mem_singleton.mp hw1]
            exact hnwred
        · exact List.nodup_append.mpr ⟨hwf.2.1, List.nodup_singleton _,
            fun u hu hv => hmem (by rw [← List.mem_singleton.mp hv]; exact hu)⟩
        · intro kv hkv hop
          rcases aset_mem hkv with rfl | hold
          · exact ⟨x, y, nw, get?_mono hxa, get?_mono hyb, hget, hynz, hnwval⟩
          · obtain ⟨x', y', z', hx', hy', hz', hynz', hzval'⟩ :=
              hwf.2.2.2 kv hold hop
            exact ⟨x', y', z', get?_mono hx', get?_mono hy', get?_mono hz',
              hynz', hzval'⟩
  · obtain ⟨kv, hmem, he0, he1, he2, her⟩ := wt_find_ne_invalid hf
    obtain ⟨x', y', z, hx', hy', hz, hynz', hzval⟩ := hwf.2.2.2 kv hmem he2
    rw [he0] at hx'
    rw [he1] at hy'
    obtain rfl := Option.some.inj (hx'.symm.trans hxa)
    obtain rfl := Option.some.inj (hy'.symm.trans hyb)
    have happ : apply_weight s a b 3 = some (s, wt_find s.wtab a b 3) := by
      simp only [apply_weight, ne_eq, hf, not_false_iff, if_true]
    refine ⟨s, wt_find s.wtab a b 3, z, happ, hwf,
      ⟨[], (List.append_nil _).symm⟩, ?_, hzval⟩
    rw [← her]
    exact hz

/-- The normalization division loop (the inner `j` loop of
`apply_helper::normalize`): from a well-formed state, with a factor handle of
nonzero value and valid slot handles, it succeeds, preserves well-formedness,
only appends to the weight vector, keeps the slot count, and each output slot
holds a weight whose value is the corresponding input slot's value divided by
the factor's value (zero slots are kept verbatim, and the zero value is fixed
by division). -/
theorem normalize_rest_char :
    ∀ (rest : List Nat) (s : St), WFq s →
      (∀ h ∈ rest, ∃ w, s.wlist.get? h = some w) →
      ∀ (f : Nat) (yf : weight), s.wlist.get? f = some yf →
        wvalp yf ≠ cw_zero →
      ∃ s' rest', normalize_rest f rest s = some (s', rest') ∧ WFq s' ∧
        (∃ t, s'.wlist = s.wlist ++ t) ∧ rest'.length = rest.length ∧
        ∀ j, j < rest.length →
          ∃ w w', s.wlist.get? (rest.getD j 0) = some w ∧
            s'.wlist.get? (rest'.getD j 0) = some w' ∧
            wvalp w' = cw_div (wvalp w) (wvalp yf) := by
  intro rest
  induction rest with
  | nil =>
    intro s hwf _ f yf hf hynz
    exact ⟨s, [], normalize_rest_nil f s, hwf, ⟨[], (List.append_nil _).symm⟩,
      rfl, fun j hj => absurd hj (Nat.not_lt_zero j)⟩
  | cons w t ih =>
    intro s hwf hvalid f yf hf hynz
    by_cases hw : w = 0
    · obtain ⟨s', t', hrun, hwf', ⟨ext, hext⟩, hlen, hvals⟩ :=
        ih s hwf (fun h hh => hvalid h (List.mem_cons_of_mem _ hh)) f yf hf hynz
      refine ⟨s', w :: t', ?_, hwf', ⟨ext, hext⟩, by simpa using hlen, ?_⟩
      · rw [normalize_rest_cons, if_neg (by simpa using hw), hrun]
        rfl
      · intro j hj
        cases j with
        | zero =>
          subst hw
          exact ⟨weight.zero, weight.zero, hwf.2.2.1, hwf'.2.2.1,
            by rw [wvalp_zero, cw_div_zero]⟩
        | succ j =>
          have hj' : j < t.length := by simpa using hj
          exact hvals j hj'
    · obtain ⟨xw, hxw⟩ := hvalid w (List.mem_cons_self _ _)
      obtain ⟨s1, r, z, happ, hwf1, ⟨t1, ht1⟩, hgetr, hzval⟩ :=
        apply_weight_div_char hwf hxw hf hynz
      have hstab : ∀ {h : Nat} {u : weight}, s.wlist.get? h = some u →
          s1.wlist.get? h = some u := fun hu => by rw [ht1]; exact get?_mono hu
      obtain ⟨s2, t', hrun2, hwf2, ⟨t2, ht2⟩, hlen, hvals⟩ :=
        ih s1 hwf1 (fun h hh => (hvalid h (List.mem_cons_of_mem _ hh)).imp
          fun _ hu => hstab hu) f yf (hstab hf) hynz
      have hstab2 : ∀ {h : Nat} {u : weight}, s1.wlist.get? h = some u →
          s2.wlist.get? h = some u := fun hu => by rw [ht2]; exact get?_mono hu
      refine ⟨s2, r :: t', ?_, hwf2,
        ⟨t1 ++ t2, by rw [ht2, ht1, List.append_assoc]⟩,
        by simpa using hlen, ?_⟩
      · rw [normalize_rest_cons, if_pos hw, happ]
        simp only [Option.some_bind, hrun2]
      · intro j hj
        cases j with
        | zero => exact ⟨xw, z, hxw, hstab2 hgetr, hzval⟩
        | succ j =>
          have hj' : j < t.length := by simpa using hj
          obtain ⟨w1, w1', hw1, hw1', hv⟩ := hvals j hj'
          have hmemt : t.getD j 0 ∈ t := by
            rw [List.getD_eq_get t 0 hj']
            exact List.get_mem t j hj'
          obtain ⟨w0, hw0⟩ := hvalid (t.getD j 0) (List.mem_cons_of_mem _ hmemt)
          obtain rfl := Option.some.inj ((hstab hw0).symm.trans hw1)
          exact ⟨w0, w1', hw0, hw1', hv⟩

theorem normalize_weights_all_zero :
    ∀ (slots : List Nat) (s : St), (∀ x ∈ slots, x = 0) →
      normalize_weights slots s = some (s, 0, slots) := by
  intro slots
  induction slots with
  | nil => intro s _; exact normalize_weights_nil s
  | cons w t ih =>
    intro s hz
    have hw : w = 0 := hz w (List.mem_cons_self _ _)
    rw [normalize_weights_cons, if_pos hw,
      ih s (fun x hx => hz x (List.mem_cons_of_mem _ hx))]
    rfl

theorem normalize_weights_first_nonzero :
    ∀ (zs : List Nat) (f : Nat) (rest : List Nat) (s : St),
      (∀ x ∈ zs, x = 0) → f ≠ 0 → WFq s →
      (∀ h ∈ f :: rest, ∃ w, s.wlist.get? h = some w) →
      ∃ s' rest' yf, s.wlist.get? f = some yf ∧
        normalize_weights (zs ++ f :: rest) s = some (s', f, zs ++ 1 :: rest') ∧
        WFq s' ∧ (∃ t, s'.wlist = s.wlist ++ t) ∧ rest'.length = rest.length ∧
        ∀ j, j < rest.length →
          ∃ w w', s.wlist.get? (rest.getD j 0) = some w ∧
            s'.wlist.get? (rest'.getD j 0) = some w' ∧
            wvalp w' = cw_div (wvalp w) (wvalp yf) := by
  intro zs
  induction zs with
  | nil =>
    intro f rest s _ hfz hwf hvalid
    obtain ⟨yf, hyf⟩ := hvalid f (List.mem_cons_self _ _)
    have hynz := handle_nonzero_value hwf hyf hfz
    obtain ⟨s', rest', hrun, hwf', hext, hlen, hvals⟩ :=
      normalize_rest_char rest s hwf
        (fun h hh => hvalid h (List.mem_cons_of_mem _ hh)) f yf hyf hynz
    refine ⟨s', rest', yf, hyf, ?_, hwf', hext, hlen, hvals⟩
    rw [List.nil_append, normalize_weights_cons, if_neg hfz, hrun]
    rfl
  | cons z zs ih =>
    intro f rest s hz hfz hwf hvalid
    have hz0 : z = 0 := hz z (List.mem_cons_self _ _)
    obtain ⟨s', rest', yf, hyf, hrun, hwf', hext, hlen, hvals⟩ :=
      ih f rest s (fun x hx => hz x (List.mem_cons_of_mem _ hx)) hfz hwf hvalid
    refine ⟨s', rest', yf, hyf, ?_, hwf', hext, hlen, hvals⟩
    rw [List.cons_append, normalize_weights_cons, if_pos hz0, hrun]
    rfl

/-- C4: `apply_helper::normalize` behaves exactly as specified.  First
conjunct: when every slot is `W0` (handle 0) it returns `W0` and leaves both
the slots and the engine state unchanged.  Second conjunct: on a slot vector
`zs ++ f :: rest` whose first nonzero slot is `f`, in a well-formed state
with valid slot handles, it returns `f` itself as the factor, keeps the
leading zero slots, writes `W1` (handle 1) into the factor's slot, and every
later slot ends up holding a weight whose value in ℚ[√2][i] is the original
slot's value divided by the factor's value. -/
theorem c4_normalize_spec :
    (∀ (slots : List Nat) (s : St), (∀ x ∈ slots, x = 0) →
      normalize_weights slots s = some (s, 0, slots)) ∧
    (∀ (zs : List Nat) (f : Nat) (rest : List Nat) (s : St),
      (∀ x ∈ zs, x = 0) → f ≠ 0 → WFq s →
      (∀ h ∈ f :: rest, ∃ w, s.wlist.get? h = some w) →
      ∃ s' rest' yf, s.wlist.get? f = some yf ∧
        normalize_weights (zs ++ f :: rest) s = some (s', f, zs ++ 1 :: rest') ∧
        WFq s' ∧ (∃ t, s'.wlist = s.wlist ++ t) ∧ rest'.length = rest.length ∧
        ∀ j, j < rest.length →
          ∃ w w', s.wlist.get? (rest.getD j 0) = some w ∧
            s'.wlist.get? (rest'.getD j 0) = some w' ∧
            wvalp w' = cw_div (wvalp w) (wvalp yf)) :=
  ⟨normalize_weights_all_zero, normalize_weights_first_nonzero⟩

theorem c4_init_wfq : WFq (init_qmdd 1) := by
  refine ⟨?_, ?_, rfl, ?_⟩
  · intro w hw
    have hcase : w = weight.zero ∨ w = weight.one := by
      simpa [init_qmdd] using hw
    rcases hcase with rfl | rfl
    · exact ⟨⟨⟨by decide, by decide⟩, ⟨by decide, by decide⟩⟩,
        ⟨⟨by decide, by decide⟩, ⟨by decide, by decide⟩⟩⟩
    · exact ⟨⟨⟨by decide, by decide⟩, ⟨by decide, by decide⟩⟩,
        ⟨⟨by decide, by decide⟩, ⟨by decide, by decide⟩⟩⟩
  · show ([weight.zero, weight.one] : List weight).Nodup
    decide
  · intro kv hkv
    simp [init_qmdd] at hkv

theorem c4_witness :
    normalize_weights [0, 0] (init_qmdd 1) = some (init_qmdd 1, 0, [0, 0]) ∧
    (∃ s' rest' yf, (init_qmdd 1).wlist.get? 1 = some yf ∧
      normalize_weights ([0] ++ 1 :: [0]) (init_qmdd 1) =
        some (s', 1, [0] ++ 1 :: rest') ∧
      WFq s' ∧ (∃ t, s'.wlist = (init_qmdd 1).wlist ++ t) ∧
      rest'.length = [0].length ∧
      ∀ j, j < [0].length →
        ∃ w w', (init_qmdd 1).wlist.get? ([0].getD j 0) = some w ∧
          s'.wlist.get? (rest'.getD j 0) = some w' ∧
          wvalp w' = cw_div (wvalp w) (wvalp yf)) :=
  ⟨c4_normalize_spec.1 [0, 0] (init_qmdd 1) (by decide),
   c4_normalize_spec.2 [0] 1 [0] (init_qmdd 1) (by decide) (by decide)
     c4_init_wfq
     (fun h hh => by
       rcases List.mem_cons.mp hh with rfl | hh2
       · exact ⟨weight.one, rfl⟩
       · rw [List.mem_singleton.mp hh2]
         exact ⟨weight.zero, rfl⟩)⟩

theorem run_succ (fuel : Nat) (s : St) (c : call) :
    run (fuel + 1) s c = run_step (run fuel) s c := rfl

theorem run_zero (s : St) (c : call) : run 0 s c = none := rfl

theorem run_step_ap_add (ih : St → call → Option (St × edge)) (s : St)
    (e0 e1 : edge) :
    run_step ih s (call.ap e0 e1 0) =
      if (ct_find s.ctab e0 e1 0).v ≠ invalid_value then
        some (s, ct_find s.ctab e0 e1 0)
      else
        (ih s (call.addc e0 e1)).bind fun p =>
          some ({ p.1 with ctab := aset p.1.ctab (ckey e0 e1 0) ⟨e0, e1, 0, p.2⟩ }, p.2) := rfl

theorem run_step_ap_mul (ih : St → call → Option (St × edge)) (s : St)
    (e0 e1 : edge) :
    run_step ih s (call.ap e0 e1 1) =
      if (ct_find s.ctab e0 e1 1).v ≠ invalid_value then
        some (s, ct_find s.ctab e0 e1 1)
      else
        (ih s (call.mulc e0 e1)).bind fun p =>
          some ({ p.1 with ctab := aset p.1.ctab (ckey e0 e1 1) ⟨e0, e1, 1, p.2⟩ }, p.2) := rfl

theorem run_step_ap_kro (ih : St → call → Option (St × edge)) (s : St)
    (e0 e1 : edge) :
    run_step ih s (call.ap e0 e1 2) =
      if (ct_find s.ctab e0 e1 2).v ≠ invalid_value then
        some (s, ct_find s.ctab e0 e1 2)
      else
        (ih s (call.kroc e0 e1)).bind fun p =>
          some ({ p.1 with ctab := aset p.1.ctab (ckey e0 e1 2) ⟨e0, e1, 2, p.2⟩ }, p.2) := rfl

theorem run_step_ap_bad (ih : St → call → Option (St × edge)) (s : St)
    (e0 e1 : edge) (m : Nat) :
    run_step ih s (call.ap e0 e1 (m + 3)) =
      if (ct_find s.ctab e0 e1 (m + 3)).v ≠ invalid_value then
        some (s, ct_find s.ctab e0 e1 (m + 3))
      else none := rfl

theorem run_step_addc (ih : St → call → Option (St × edge)) (s : St)
    (e0 e1 : edge) :
    run_step ih s (call.addc e0 e1) =
      if term e0 && e0.w = 0 then some (s, e1)
      else if term e0 && term e1 then
        (apply_weight s e0.w e1.w 0).bind fun p => some (p.1, (⟨p.2, 0⟩ : edge))
      else if get_var s e0.v > get_var s e1.v then ih s (call.addc e1 e0)
      else
        (add_quad (fun s a b op => ih s (call.ap a b op)) e0 e1 [0, 1, 2, 3] s).bind fun p =>
          (normalize_weights (p.2.map edge.w) p.1).bind fun q =>
            (make_node q.1 (get_var p.1 e0.v) (p.2.map edge.v) q.2.2).bind fun m =>
              some (m.2, (⟨q.2.1, m.1⟩ : edge)) := rfl

theorem run_step_mulc (ih : St → call → Option (St × edge)) (s : St)
    (e0 e1 : edge) :
    run_step ih s (call.mulc e0 e1) =
      if term e0 && e0.w = 0 then some (s, e0)
      else if term e0 && e0.w = 1 then some (s, e1)
      else if term e0 then
        (apply_weight s e0.w e1.w 2).bind fun p =>
          some (p.1, (⟨p.2, e1.v⟩ : edge))
      else if get_var s e0.v > get_var s e1.v then ih s (call.addc e1 e0)
      else
        (mul_quad (fun s a b op => ih s (call.ap a b op)) e0 e1 [(0, 0), (0, 1), (2, 0), (2, 1)] s).bind fun p =>
          (normalize_weights (p.2.map edge.w) p.1).bind fun q =>
            (make_node q.1 (get_var p.1 e0.v) (p.2.map edge.v) q.2.2).bind fun m =>
              some (m.2, (⟨q.2.1, m.1⟩ : edge)) := rfl

theorem run_step_kroc (ih : St → call → Option (St × edge)) (s : St)
    (e0 e1 : edge) :
    run_step ih s (call.kroc e0 e1) =
      if term e0 && e0.w = 0 then some (s, e0)
      else if term e0 && e0.w = 1 then some (s, e1)
      else if term e0 then
        (apply_weight s e0.w e1.w 2).bind fun p =>
          some (p.1, (⟨p.2, e1.v⟩ : edge))
      else if get_var s e0.v < get_var s e1.v then
        (kro_quad (fun s a b op => ih s (call.ap a b op)) e0 e1 [0, 1, 2, 3] s).bind fun p =>
          (normalize_weights (p.2.map edge.w) p.1).bind fun q =>
            (apply_weight q.1 q.2.1 e0.w 2).bind fun r =>
              (make_node r.1 (get_var p.1 e0.v) (p.2.map edge.v) q.2.2).bind fun m =>
                some (m.2, (⟨r.2, m.1⟩ : edge))
      else none := rfl

theorem add_quad_nil (g : St → edge → edge → Nat → Option (St × edge))
    (e0 e1 : edge) (s : St) : add_quad g e0 e1 [] s = some (s, []) := rfl

theorem add_quad_cons (g : St → edge → edge → Nat → Option (St × edge))
    (e0 e1 : edge) (i : Nat) (idx : List Nat) (s : St) :
    add_quad g e0 e1 (i :: idx) s =
      (apply_weight s e0.w (get_weight s e0.v i) 2).bind fun p =>
        if get_var s e0.v = get_var s e1.v then
          (apply_weight p.1 e1.w (get_weight p.1 e1.v i) 2).bind fun q =>
            (g q.1 (⟨p.2, get_child s e0.v i⟩ : edge)
                (⟨q.2, get_child p.1 e1.v i⟩ : edge) 0).bind fun u =>
              (add_quad g e0 e1 idx u.1).bind fun v => some (v.1, u.2 :: v.2)
        else
          (g p.1 (⟨p.2, get_child s e0.v i⟩ : edge) e1 0).bind fun u =>
            (add_quad g e0 e1 idx u.1).bind fun v => some (v.1, u.2 :: v.2) := rfl

theorem mul_sum_nil (g : St → edge → edge → Nat → Option (St × edge))
    (e0 e1 : edge) (i j : Nat) (s : St) (acc : edge) :
    mul_sum g e0 e1 i j [] s acc = some (s, acc) := rfl

theorem mul_sum_cons (g : St → edge → edge → Nat → Option (St × edge))
    (e0 e1 : edge) (i j k : Nat) (ks : List Nat) (s : St) (acc : edge) :
    mul_sum g e0 e1 i j (k :: ks) s acc =
      (apply_weight s e0.w (get_weight s e0.v (i + k)) 2).bind fun p =>
        if get_var s e0.v = get_var s e1.v then
          (apply_weight p.1 e1.w (get_weight p.1 e1.v (j + 2 * k)) 2).bind fun q =>
            (g q.1 (⟨p.2, get_child s e0.v (i + k)⟩ : edge)
                (⟨q.2, get_child p.1 e1.v (j + 2 * k)⟩ : edge) 1).bind fun u =>
              (g u.1 acc u.2 0).bind fun v => mul_sum g e0 e1 i j ks v.1 v.2
        else
          (g p.1 (⟨p.2, get_child s e0.v (i + k)⟩ : edge) e1 1).bind fun u =>
            (g u.1 acc u.2 0).bind fun v => mul_sum g e0 e1 i j ks v.1 v.2 := rfl

theorem mul_quad_nil (g : St → edge → edge → Nat → Option (St × edge))
    (e0 e1 : edge) (s : St) : mul_quad g e0 e1 [] s = some (s, []) := rfl

theorem mul_quad_cons (g : St → edge → edge → Nat → Option (St × edge))
    (e0 e1 : edge) (ij : Nat × Nat) (ijs : List (Nat × Nat)) (s : St) :
    mul_quad g e0 e1 (ij :: ijs) s =
      (mul_sum g e0 e1 ij.1 ij.2 [0, 1] s ⟨0, 0⟩).bind fun p =>
        (mul_quad g e0 e1 ijs p.1).bind fun q =>
          some (q.1, p.2 :: q.2) := rfl

theorem kro_quad_nil (g : St → edge → edge → Nat → Option (St × edge))
    (e0 e1 : edge) (s : St) : kro_quad g e0 e1 [] s = some (s, []) := rfl

theorem kro_quad_cons (g : St → edge → edge → Nat → Option (St × edge))
    (e0 e1 : edge) (i : Nat) (idx : List Nat) (s : St) :
    kro_quad g e0 e1 (i :: idx) s =
      (g s (Ei s e0 i) e1 2).bind fun p =>
        (kro_quad g e0 e1 idx p.1).bind fun q =>
          some (q.1, p.2 :: q.2) := rfl

theorem node_at_get? {s : St} {h : Nat} (hl : h < s.pool.length) :
    s.pool.get? h = some (node_at s h) := by
  rw [List.get?_eq_get hl, node_at, List.getD_eq_get s.pool _ hl]

theorem node_at_congr {s s' : St} (hp : s'.pool = s.pool) (h : Nat) :
    node_at s' h = node_at s h := by
  rw [node_at, node_at, hp]

theorem node_at_append {s s' : St} {t : List node} (hp : s'.pool = s.pool ++ t)
    {h : Nat} (hl : h < s.pool.length) : node_at s' h = node_at s h := by
  have h2 : s'.pool.get? h = some (node_at s h) := by
    rw [hp]
    exact get?_mono (node_at_get? hl)
  have h3 : h < s'.pool.length := by
    rw [hp, List.length_append]
    omega
  have h4 := node_at_get? h3
  rw [h2] at h4
  exact (Option.some.inj h4).symm

theorem get_var_congr {s s' : St} (hp : s'.pool = s.pool) (h : Nat) :
    get_var s' h = get_var s h := by
  rw [get_var, get_var, node_at_congr hp]

theorem get_var_append {s s' : St} {t : List node} (hp : s'.pool = s.pool ++ t)
    {h : Nat} (hl : h < s.pool.length) : get_var s' h = get_var s h := by
  rw [get_var, get_var, node_at_append hp hl]

theorem ut_probe_zero (n : node) (key : Nat) (s : St) :
    ut_probe n 0 key s = none := rfl

theorem ut_probe_succ (n : node) (fuel key : Nat) (s : St) :
    ut_probe n (fuel + 1) key s =
      match aget s.table key with
      | none =>
        if s.pool.length ≥ ddcapacity then none
        else
          some (s.pool.length,
            { s with pool := s.pool ++ [n], table := aset s.table key s.pool.length })
      | some h =>
        match s.pool.get? h with
        | none => none
        | some m =>
          if m = n then some (h, s) else ut_probe n fuel ((key + 1) % ddcapacity) s := rfl

theorem ut_probe_spec :
    ∀ (fuel : Nat) {n : node} {key : Nat} {s : St} {h : Nat} {s' : St},
      ut_probe n fuel key s = some (h, s') →
      s'.ctab = s.ctab ∧ s'.wlist = s.wlist ∧ s'.wtab = s.wtab ∧
      ((s'.pool = s.pool ∧ s.pool.get? h = some n) ∨
        (s'.pool = s.pool ++ [n] ∧ h = s.pool.length)) := by
  intro fuel
  induction fuel with
  | zero =>
    intro n key s h s' hp
    rw [ut_probe_zero] at hp
    cases hp
  | succ fuel ih =>
    intro n key s h s' hp
    rw [ut_probe_succ] at hp
    split at hp
    · split at hp
      · cases hp
      · obtain ⟨h1, h2⟩ := Prod.mk.inj (Option.some.inj hp)
        subst h2
        exact ⟨rfl, rfl, rfl, Or.inr ⟨rfl, h1.symm⟩⟩
    · rename_i h0 hg
      split at hp
      · cases hp
      · rename_i m hm
        split at hp
        · rename_i hmn
          obtain ⟨h1, h2⟩ := Prod.mk.inj (Option.some.inj hp)
          subst h1
          subst h2
          exact ⟨rfl, rfl, rfl, Or.inl ⟨rfl, by rw [hm, hmn]⟩⟩
        · exact ih hp

theorem make_node_spec {s : St} {var : Nat} {children weights : List Nat}
    {h : Nat} {s' : St}
    (hmk : make_node s var children weights = some (h, s')) :
    s'.ctab = s.ctab ∧ s'.wlist = s.wlist ∧ s'.wtab = s.wtab ∧
    ((s'.pool = s.pool ∧
        (h ∈ children ∨ s.pool.get? h = some ⟨var, children, weights⟩)) ∨
      (s'.pool = s.pool ++ [⟨var, children, weights⟩] ∧ h = s.pool.length)) := by
  unfold make_node at hmk
  split at hmk
  · split at hmk
    · rename_i c hc
      obtain ⟨h1, h2⟩ := Prod.mk.inj (Option.some.inj hmk)
      subst h1
      subst h2
      exact ⟨rfl, rfl, rfl, Or.inl ⟨rfl, Or.inl (List.mem_of_mem_head? hc)⟩⟩
    · cases hmk
  · unfold ut_insert at hmk
    obtain ⟨hc, hw, hwt, hpool⟩ := ut_probe_spec _ hmk
    refine ⟨hc, hw, hwt, ?_⟩
    rcases hpool with ⟨hp, hg⟩ | ⟨hp, hh⟩
    · exact Or.inl ⟨hp, Or.inr hg⟩
    · exact Or.inr ⟨hp, hh⟩

theorem apply_weight_fields {s : St} {a b op : Nat} {s' : St} {r : Nat}
    (h : apply_weight s a b op = some (s', r)) :
    s'.pool = s.pool ∧ s'.ctab = s.ctab := by
  by_cases hf : wt_find s.wtab a b op = invalid_value
  · simp only [apply_weight, hf, ne_eq, not_true_eq_false, if_false,
      Option.bind_eq_bind] at h
    rcases Option.bind_eq_some.mp h with ⟨x, _, h2⟩
    rcases Option.bind_eq_some.mp h2 with ⟨y, _, h3⟩
    rcases Option.bind_eq_some.mp h3 with ⟨nw, _, h4⟩
    obtain ⟨h5, _⟩ := Prod.mk.inj (Option.some.inj h4)
    rw [← h5]
    exact ⟨rfl, rfl⟩
  · simp only [apply_weight, ne_eq, hf, not_false_iff, if_true] at h
    obtain ⟨h5, _⟩ := Prod.mk.inj (Option.some.inj h)
    rw [← h5]
    exact ⟨rfl, rfl⟩

theorem normalize_rest_fields :
    ∀ {rest : List Nat} {f : Nat} {s s' : St} {out : List Nat},
      normalize_rest f rest s = some (s', out) →
      s'.pool = s.pool ∧ s'.ctab = s.ctab := by
  intro rest
  induction rest with
  | nil =>
    intro f s s' out h
    rw [normalize_rest_nil] at h
    obtain ⟨h5, _⟩ := Prod.mk.inj (Option.some.inj h)
    rw [← h5]
    exact ⟨rfl, rfl⟩
  | cons w t ih =>
    intro f s s' out h
    rw [normalize_rest_cons] at h
    split at h
    · rcases Option.bind_eq_some.mp h with ⟨p, hp, h2⟩
      rcases Option.bind_eq_some.mp h2 with ⟨q, hq, h3⟩
      obtain ⟨h5, _⟩ := Prod.mk.inj (Option.some.inj h3)
      obtain ⟨hp1, hp2⟩ :=
        apply_weight_fields (show apply_weight s w f 3 = some (p.1, p.2) from hp)
      obtain ⟨hq1, hq2⟩ := ih hq
      rw [← h5]
      exact ⟨hq1.trans hp1, hq2.trans hp2⟩
    · rcases Option.bind_eq_some.mp h with ⟨q, hq, h3⟩
      obtain ⟨h5, _⟩ := Prod.mk.inj (Option.some.inj h3)
      obtain ⟨hq1, hq2⟩ := ih hq
      rw [← h5]
      exact ⟨hq1, hq2⟩

theorem normalize_weights_fields :
    ∀ {slots : List Nat} {s s' : St} {f : Nat} {out : List Nat},
      normalize_weights slots s = some (s', f, out) →
      s'.pool = s.pool ∧ s'.ctab = s.ctab := by
  intro slots
  induction slots with
  | nil =>
    intro s s' f out h
    rw [normalize_weights_nil] at h
    obtain ⟨h5, _⟩ := Prod.mk.inj (Option.some.inj h)
    rw [← h5]
    exact ⟨rfl, rfl⟩
  | cons w t ih =>
    intro s s' f out h
    rw [normalize_weights_cons] at h
    split at h
    · rcases Option.bind_eq_some.mp h with ⟨q, hq, h3⟩
      obtain ⟨h5, _⟩ := Prod.mk.inj (Option.some.inj h3)
      obtain ⟨hq1, hq2⟩ := ih hq
      rw [← h5]
      exact ⟨hq1, hq2⟩
    · rcases Option.bind_eq_some.mp h with ⟨q, hq, h3⟩
      obtain ⟨h5, _⟩ := Prod.mk.inj (Option.some.inj h3)
      obtain ⟨hq1, hq2⟩ := normalize_rest_fields hq
      rw [← h5]
      exact ⟨hq1, hq2⟩

theorem ct_find_ne_invalid {ctab : List (Nat × centry)} {e0 e1 : edge}
    {op : Nat} (h : (ct_find ctab e0 e1 op).v ≠ invalid_value) :
    ∃ kv ∈ ctab, kv.2.e0 = e0 ∧ kv.2.e1 = e1 ∧ kv.2.op = op ∧
      kv.2.result = ct_find ctab e0 e1 op := by
  have hw : ∀ g, aget ctab (ckey e0 e1 op) = g → ct_find ctab e0 e1 op =
      match g with
      | none => ⟨invalid_value, invalid_value⟩
      | some en =>
        if en.e0 = e0 ∧ en.e1 = e1 ∧ en.op = op then en.result
        else ⟨invalid_value, invalid_value⟩ := by
    intro g hg
    rw [ct_find, hg]
  cases hg : aget ctab (ckey e0 e1 op) with
  | none => rw [hw none hg] at h; exact absurd rfl h
  | some en =>
    rw [hw (some en) hg] at h
    replace h : (if en.e0 = e0 ∧ en.e1 = e1 ∧ en.op = op then en.result
        else (⟨invalid_value, invalid_value⟩ : edge)).v ≠ invalid_value := h
    by_cases hc : en.e0 = e0 ∧ en.e1 = e1 ∧ en.op = op
    · refine ⟨(ckey e0 e1 op, en), aget_eq_some_mem hg, hc.1, hc.2.1, hc.2.2, ?_⟩
      rw [hw (some en) hg]
      show en.result = if en.e0 = e0 ∧ en.e1 = e1 ∧ en.op = op then en.result
        else (⟨invalid_value, invalid_value⟩ : edge)
      rw [if_pos hc]
    · rw [if_neg hc] at h
      exact absurd rfl h

theorem pool_nonempty {n : Nat} {s : St} (hwf : WFpool n s) :
    0 < s.pool.length := by
  rcases List.get?_eq_some.mp hwf.1 with ⟨hlt, _⟩
  exact hlt

theorem get_var_of_get? {s : St} {h : Nat} {nd : node}
    (hg : s.pool.get? h = some nd) : get_var s h = nd.var := by
  rcases List.get?_eq_some.mp hg with ⟨hlt, _⟩
  have h1 := node_at_get? hlt
  rw [hg] at h1
  rw [get_var, Option.some.inj h1]

theorem get_var_zero {n : Nat} {s : St} (hwf : WFpool n s) : get_var s 0 = n :=
  get_var_of_get? hwf.1

theorem var_lt_of_nonzero {n : Nat} {s : St} (hwf : WFpool n s) {h : Nat}
    (hl : h < s.pool.length) (hz : h ≠ 0) : get_var s h < n :=
  (hwf.2 h (node_at s h) (node_at_get? hl) hz).1

theorem child_ok {n : Nat} {s : St} (hwf : WFpool n s) {h : Nat}
    (hl : h < s.pool.length) (hz : h ≠ 0) (i : Nat) :
    get_child s h i < s.pool.length ∧
      get_var s h < get_var s (get_child s h i) := by
  obtain ⟨hvar, _, hch⟩ := hwf.2 h (node_at s h) (node_at_get? hl) hz
  by_cases hi : i < (node_at s h).children.length
  · have hmem : (node_at s h).children.getD i 0 ∈ (node_at s h).children := by
      rw [List.getD_eq_get _ _ hi]
      exact List.get_mem _ _ _
    exact hch _ hmem
  · have hc0 : get_child s h i = 0 := by
      rw [get_child, List.getD_eq_default]
      omega
    rw [hc0]
    refine ⟨pool_nonempty hwf, ?_⟩
    rw [get_var_zero hwf]
    exact hvar

theorem WFpool_congr {n : Nat} {s s' : St} (hp : s'.pool = s.pool)
    (hwf : WFpool n s) : WFpool n s' := by
  refine ⟨by rw [hp]; exact hwf.1, ?_⟩
  intro h nd hg hz
  rw [hp] at hg
  obtain ⟨h1, h2, h3⟩ := hwf.2 h nd hg hz
  refine ⟨h1, h2, fun c hcm => ?_⟩
  obtain ⟨hc1, hc2⟩ := h3 c hcm
  rw [hp, get_var_congr hp]
  exact ⟨hc1, hc2⟩

theorem WFctab_congr {s s' : St} (hp : s'.pool = s.pool)
    (hct : s'.ctab = s.ctab) (hwf : WFctab s) : WFctab s' := by
  intro kv hkv
  rw [hct] at hkv
  obtain ⟨h1, h2, h3, h4⟩ := hwf kv hkv
  rw [hp, get_var_congr hp, get_var_congr hp, get_var_congr hp]
  exact ⟨h1, h2, h3, h4⟩

theorem WFst_congr {n : Nat} {s s' : St} (hp : s'.pool = s.pool)
    (hct : s'.ctab = s.ctab) (hwf : WFst n s) : WFst n s' :=
  ⟨WFpool_congr hp hwf.1, WFctab_congr hp hct hwf.2⟩

theorem WFctab_append {s s' : St} {t : List node} (hp : s'.pool = s.pool ++ t)
    (hct : s'.ctab = s.ctab) (hwf : WFctab s) : WFctab s' := by
  intro kv hkv
  rw [hct] at hkv
  obtain ⟨h1, h2, h3, h4⟩ := hwf kv hkv
  have hl : s.pool.length ≤ s'.pool.length := by
    rw [hp, List.length_append]
    omega
  rw [get_var_append hp h1, get_var_append hp h2, get_var_append hp h3]
  exact ⟨lt_of_lt_of_le h1 hl, lt_of_lt_of_le h2 hl, lt_of_lt_of_le h3 hl, h4⟩

theorem WFpool_snoc {n : Nat} {s s' : St} {nn : node}
    (hp : s'.pool = s.pool ++ [nn]) (hwf : WFpool n s)
    (hvar : nn.var < n) (hclen : nn.children.length = 4)
    (hch : ∀ c ∈ nn.children, c < s.pool.length ∧ nn.var < get_var s c) :
    WFpool n s' := by
  have hl : s.pool.length ≤ s'.pool.length := by
    rw [hp, List.length_append]
    omega
  refine ⟨by rw [hp]; exact get?_mono hwf.1, ?_⟩
  intro h nd hg hz
  rcases Nat.lt_trichotomy h s.pool.length with hlt | heq | hgt
  · have hg0 : s.pool.get? h = some nd := by
      rw [hp, List.get?_append hlt] at hg
      exact hg
    obtain ⟨h1, h2, h3⟩ := hwf.2 h nd hg0 hz
    refine ⟨h1, h2, fun c hcm => ?_⟩
    obtain ⟨hc1, hc2⟩ := h3 c hcm
    rw [get_var_append hp hc1]
    exact ⟨lt_of_lt_of_le hc1 hl, hc2⟩
  · have hg1 : s'.pool.get? h = some nn := by
      rw [hp, heq]
      exact List.get?_concat_length _ _
    rw [hg] at hg1
    obtain rfl := Option.some.inj hg1.symm
    refine ⟨hvar, hclen, fun c hcm => ?_⟩
    obtain ⟨hc1, hc2⟩ := hch c hcm
    rw [get_var_append hp hc1]
    exact ⟨lt_of_lt_of_le hc1 hl, hc2⟩
  · exfalso
    have : s'.pool.get? h = none := by
      rw [List.get?_eq_none, hp, List.length_append]
      simp only [List.length_singleton]
      omega
    rw [hg] at this
    cases this

/-- Guarded `make_node` preserves the engine invariant, never removes pool
nodes, and returns an in-range handle whose `var` is at least the requested
`var` (exactly `var` for a fresh or deduplicated node, larger when the
no-redundancy collapse returns a child). -/
theorem make_node_wf {n : Nat} {s : St} {var : Nat}
    {children weights : List Nat} {h : Nat} {s' : St} (hwf : WFst n s)
    (hvar : var < n) (hclen : children.length = 4)
    (hch : ∀ c ∈ children, c < s.pool.length ∧ var < get_var s c)
    (hmk : make_node s var children weights = some (h, s')) :
    WFst n s' ∧ (∃ t, s'.pool = s.pool ++ t) ∧ h < s'.pool.length ∧
      var ≤ get_var s' h := by
  obtain ⟨hct, _, _, hpool⟩ := make_node_spec hmk
  rcases hpool with ⟨hp, hcase⟩ | ⟨hp, hh⟩
  · refine ⟨WFst_congr hp hct hwf, ⟨[], by rw [hp, List.append_nil]⟩, ?_, ?_⟩
    · rcases hcase with hmem | hg
      · rw [hp]
        exact (hch h hmem).1
      · rw [hp]
        rcases List.get?_eq_some.mp hg with ⟨hlt, _⟩
        exact hlt
    · rcases hcase with hmem | hg
      · rw [get_var_congr hp]
        exact le_of_lt (hch h hmem).2
      · rw [get_var_congr hp, get_var_of_get? hg]
  · subst hh
    refine ⟨⟨WFpool_snoc hp hwf.1 hvar hclen hch, WFctab_append hp hct hwf.2⟩,
      ⟨[⟨var, children, weights⟩], hp⟩, ?_, ?_⟩
    · rw [hp, List.length_append]
      simp
    · have hg1 : s'.pool.get? s.pool.length = some ⟨var, children, weights⟩ := by
        rw [hp]
        exact List.get?_concat_length _ _
      rw [get_var_of_get? hg1]

theorem ext_refl (s : St) : ∃ t, s.pool = s.pool ++ t :=
  ⟨[], (List.append_nil _).symm⟩

theorem ext_trans {s1 s2 s3 : St} (h12 : ∃ t, s2.pool = s1.pool ++ t)
    (h23 : ∃ t, s3.pool = s2.pool ++ t) : ∃ t, s3.pool = s1.pool ++ t := by
  rcases h12 with ⟨t1, ht1⟩
  rcases h23 with ⟨t2, ht2⟩
  exact ⟨t1 ++ t2, by rw [ht2, ht1, List.append_assoc]⟩

theorem ext_len {s s' : St} (h : ∃ t, s'.pool = s.pool ++ t) :
    s.pool.length ≤ s'.pool.length := by
  rcases h with ⟨t, ht⟩
  rw [ht, List.length_append]
  omega

theorem ext_get_var {s s' : St} (hx : ∃ t, s'.pool = s.pool ++ t) {h : Nat}
    (hl : h < s.pool.length) : get_var s' h = get_var s h := by
  rcases hx with ⟨t, ht⟩
  exact get_var_append ht hl

theorem get_child_congr {s s' : St} (hp : s'.pool = s.pool) (h i : Nat) :
    get_child s' h i = get_child s h i := by
  rw [get_child, get_child, node_at_congr hp]

theorem ext_get_child {s s' : St} (hx : ∃ t, s'.pool = s.pool ++ t) {h : Nat}
    (hl : h < s.pool.length) (i : Nat) : get_child s' h i = get_child s h i := by
  rcases hx with ⟨t, ht⟩
  rw [get_child, get_child, node_at_append ht hl]

theorem nonterm_of_var_eq {n : Nat} {s : St} {e0 e1 : edge}
    (hwf : WFpool n s) (h0l : e0.v < s.pool.length) (h0z : e0.v ≠ 0)
    (hv : get_var s e0.v = get_var s e1.v) : e1.v ≠ 0 := by
  intro h1
  rw [h1, get_var_zero hwf] at hv
  exact absurd hv (Nat.ne_of_lt (var_lt_of_nonzero hwf h0l h0z))

theorem add_quad_wf {n : Nat}
    {g : St → edge → edge → Nat → Option (St × edge)}
    (hg : ∀ (s : St) (a b : edge) (opc : Nat) (s' : St) (e : edge),
      WFst n s → a.v < s.pool.length → b.v < s.pool.length →
      g s a b opc = some (s', e) →
      WFst n s' ∧ (∃ t, s'.pool = s.pool ++ t) ∧ e.v < s'.pool.length ∧
        min (get_var s a.v) (get_var s b.v) ≤ get_var s' e.v)
    (e0 e1 : edge) :
    ∀ (idx : List Nat) (s s1 : St) (zs : List edge),
      WFst n s → e0.v < s.pool.length → e0.v ≠ 0 → e1.v < s.pool.length →
      get_var s e0.v ≤ get_var s e1.v →
      add_quad g e0 e1 idx s = some (s1, zs) →
      WFst n s1 ∧ (∃ t, s1.pool = s.pool ++ t) ∧ zs.length = idx.length ∧
        ∀ z ∈ zs, z.v < s1.pool.length ∧ get_var s e0.v < get_var s1 z.v := by
  intro idx
  induction idx with
  | nil =>
    intro s s1 zs hwf _ _ _ _ hrun
    rw [add_quad_nil] at hrun
    obtain ⟨h1, h2⟩ := Prod.mk.inj (Option.some.inj hrun)
    subst h1
    subst h2
    exact ⟨hwf, ext_refl s, rfl, fun z hz => absurd hz (List.not_mem_nil z)⟩
  | cons i idx ih =>
    intro s s1 zs hwf he0l he0z he1l hle hrun
    have hxn : get_var s e0.v < n := var_lt_of_nonzero hwf.1 he0l he0z
    rw [add_quad_cons] at hrun
    rcases Option.bind_eq_some.mp hrun with ⟨p, hp, h2⟩
    obtain ⟨hp1, hp2⟩ :=
      apply_weight_fields (show _ = some (p.1, p.2) from hp)
    have hwfp : WFst n p.1 := WFst_congr hp1 hp2 hwf
    obtain ⟨hc0l, hc0v⟩ := child_ok hwf.1 he0l he0z i
    by_cases hv : get_var s e0.v = get_var s e1.v
    · rw [if_pos hv] at h2
      have he1z : e1.v ≠ 0 := nonterm_of_var_eq hwf.1 he0l he0z hv
      obtain ⟨hc1l, hc1v⟩ := child_ok hwf.1 he1l he1z i
      rcases Option.bind_eq_some.mp h2 with ⟨q, hq, h3⟩
      obtain ⟨hq1, hq2⟩ :=
        apply_weight_fields (show _ = some (q.1, q.2) from hq)
      have hqs : q.1.pool = s.pool := hq1.trans hp1
      have hwfq : WFst n q.1 := WFst_congr hqs (hq2.trans hp2) hwf
      rcases Option.bind_eq_some.mp h3 with ⟨u, hu, h4⟩
      have hchild1 : get_child p.1 e1.v i = get_child s e1.v i :=
        get_child_congr hp1 _ _
      obtain ⟨hwfu, hxu, hul, humin⟩ :=
        hg q.1 ⟨p.2, get_child s e0.v i⟩ ⟨q.2, get_child p.1 e1.v i⟩ 0 u.1 u.2
          hwfq (by rw [hqs]; exact hc0l) (by rw [hqs, hchild1]; exact hc1l)
          (show _ = some (u.1, u.2) from hu)
      have hxsu : ∃ t, u.1.pool = s.pool ++ t := by
        rcases hxu with ⟨t, ht⟩
        exact ⟨t, by rw [ht, hqs]⟩
      rcases Option.bind_eq_some.mp h4 with ⟨v, hv2, h5⟩
      obtain ⟨hwfv, hxv, hlen, hall⟩ := ih u.1 v.1 v.2 hwfu
        (lt_of_lt_of_le he0l (ext_len hxsu)) he0z
        (lt_of_lt_of_le he1l (ext_len hxsu))
        (by rw [ext_get_var hxsu he0l, ext_get_var hxsu he1l]; exact hle)
        (show _ = some (v.1, v.2) from hv2)
      obtain ⟨h6, h7⟩ := Prod.mk.inj (Option.some.inj h5)
      subst h6
      subst h7
      have humin2 : get_var s e0.v < get_var u.1 u.2.v := by
        refine lt_of_lt_of_le ?_ humin
        rw [get_var_congr hqs, get_var_congr hqs, hchild1]
        exact lt_min (by exact hc0v) (by rw [hv]; exact hc1v)
      refine ⟨hwfv, ext_trans hxsu hxv, by simpa using hlen, ?_⟩
      intro z hz
      rcases List.mem_cons.mp hz with rfl | hz2
      · exact ⟨lt_of_lt_of_le hul (ext_len hxv),
          by rw [ext_get_var hxv hul]; exact humin2⟩
      · obtain ⟨hz1, hz3⟩ := hall z hz2
        refine ⟨hz1, ?_⟩
        rw [ext_get_var hxsu he0l] at hz3
        exact hz3
    · rw [if_neg hv] at h2
      have hltv : get_var s e0.v < get_var s e1.v := lt_of_le_of_ne hle hv
      rcases Option.bind_eq_some.mp h2 with ⟨u, hu, h4⟩
      obtain ⟨hwfu, hxu, hul, humin⟩ :=
        hg p.1 ⟨p.2, get_child s e0.v i⟩ e1 0 u.1 u.2 hwfp
          (by rw [hp1]; exact hc0l) (by rw [hp1]; exact he1l)
          (show _ = some (u.1, u.2) from hu)
      have hxsu : ∃ t, u.1.pool = s.pool ++ t := by
        rcases hxu with ⟨t, ht⟩
        exact ⟨t, by rw [ht, hp1]⟩
      rcases Option.bind_eq_some.mp h4 with ⟨v, hv2, h5⟩
      obtain ⟨hwfv, hxv, hlen, hall⟩ := ih u.1 v.1 v.2 hwfu
        (lt_of_lt_of_le he0l (ext_len hxsu)) he0z
        (lt_of_lt_of_le he1l (ext_len hxsu))
        (by rw [ext_get_var hxsu he0l, ext_get_var hxsu he1l]; exact hle)
        (show _ = some (v.1, v.2) from hv2)
      obtain ⟨h6, h7⟩ := Prod.mk.inj (Option.some.inj h5)
      subst h6
      subst h7
      have humin2 : get_var s e0.v < get_var u.1 u.2.v := by
        refine lt_of_lt_of_le ?_ humin
        rw [get_var_congr hp1, get_var_congr hp1]
        exact lt_min hc0v hltv
      refine ⟨hwfv, ext_trans hxsu hxv, by simpa using hlen, ?_⟩
      intro z hz
      rcases List.mem_cons.mp hz with rfl | hz2
      · exact ⟨lt_of_lt_of_le hul (ext_len hxv),
          by rw [ext_get_var hxv hul]; exact humin2⟩
      · obtain ⟨hz1, hz3⟩ := hall z hz2
        refine ⟨hz1, ?_⟩
        rw [ext_get_var hxsu he0l] at hz3
        exact hz3

theorem mul_sum_wf {n : Nat}
    {g : St → edge → edge → Nat → Option (St × edge)}
    (hg : ∀ (s : St) (a b : edge) (opc : Nat) (s' : St) (e : edge),
      WFst n s → a.v < s.pool.length → b.v < s.pool.length →
      g s a b opc = some (s', e) →
      WFst n s' ∧ (∃ t, s'.pool = s.pool ++ t) ∧ e.v < s'.pool.length ∧
        min (get_var s a.v) (get_var s b.v) ≤ get_var s' e.v)
    (e0 e1 : edge) (i j : Nat) :
    ∀ (ks : List Nat) (s s1 : St) (acc z : edge),
      WFst n s → e0.v < s.pool.length → e0.v ≠ 0 → e1.v < s.pool.length →
      get_var s e0.v ≤ get_var s e1.v →
      acc.v < s.pool.length → get_var s e0.v < get_var s acc.v →
      mul_sum g e0 e1 i j ks s acc = some (s1, z) →
      WFst n s1 ∧ (∃ t, s1.pool = s.pool ++ t) ∧ z.v < s1.pool.length ∧
        get_var s e0.v < get_var s1 z.v := by
  intro ks
  induction ks with
  | nil =>
    intro s s1 acc z hwf _ _ _ _ hal hav hrun
    rw [mul_sum_nil] at hrun
    obtain ⟨h1, h2⟩ := Prod.mk.inj (Option.some.inj hrun)
    subst h1
    subst h2
    exact ⟨hwf, ext_refl s, hal, hav⟩
  | cons k ks ih =>
    intro s s1 acc z hwf he0l he0z he1l hle hal hav hrun
    rw [mul_sum_cons] at hrun
    rcases Option.bind_eq_some.mp hrun with ⟨p, hp, h2⟩
    obtain ⟨hp1, hp2⟩ :=
      apply_weight_fields (show _ = some (p.1, p.2) from hp)
    have hwfp : WFst n p.1 := WFst_congr hp1 hp2 hwf
    obtain ⟨hc0l, hc0v⟩ := child_ok hwf.1 he0l he0z (i + k)
    by_cases hv : get_var s e0.v = get_var s e1.v
    · rw [if_pos hv] at h2
      have he1z : e1.v ≠ 0 := nonterm_of_var_eq hwf.1 he0l he0z hv
      obtain ⟨hc1l, hc1v⟩ := child_ok hwf.1 he1l he1z (j + 2 * k)
      rcases Option.bind_eq_some.mp h2 with ⟨q, hq, h3⟩
      obtain ⟨hq1, hq2⟩ :=
        apply_weight_fields (show _ = some (q.1, q.2) from hq)
      have hqs : q.1.pool = s.pool := hq1.trans hp1
      have hwfq : WFst n q.1 := WFst_congr hqs (hq2.trans hp2) hwf
      rcases Option.bind_eq_some.mp h3 with ⟨u, hu, h4⟩
      have hchild1 : get_child p.1 e1.v (j + 2 * k) = get_child s e1.v (j + 2 * k) :=
        get_child_congr hp1 _ _
      obtain ⟨hwfu, hxu, hul, humin⟩ :=
        hg q.1 ⟨p.2, get_child s e0.v (i + k)⟩
          ⟨q.2, get_child p.1 e1.v (j + 2 * k)⟩ 1 u.1 u.2
          hwfq (by rw [hqs]; exact hc0l) (by rw [hqs, hchild1]; exact hc1l)
          (show _ = some (u.1, u.2) from hu)
      have hxsu : ∃ t, u.1.pool = s.pool ++ t := by
        rcases hxu with ⟨t, ht⟩
        exact ⟨t, by rw [ht, hqs]⟩
      have humin2 : get_var s e0.v < get_var u.1 u.2.v := by
        refine lt_of_lt_of_le ?_ humin
        rw [get_var_congr hqs, get_var_congr hqs, hchild1]
        exact lt_min (by exact hc0v) (by rw [hv]; exact hc1v)
      rcases Option.bind_eq_some.mp h4 with ⟨w, hw, h5⟩
      obtain ⟨hwfw, hxw, hwl, hwmin⟩ :=
        hg u.1 acc u.2 0 w.1 w.2 hwfu
          (lt_of_lt_of_le hal (ext_len hxsu)) hul
          (show _ = some (w.1, w.2) from hw)
      have hxsw : ∃ t, w.1.pool = s.pool ++ t := ext_trans hxsu hxw
      have hwmin2 : get_var s e0.v < get_var w.1 w.2.v := by
        refine lt_of_lt_of_le ?_ hwmin
        rw [ext_get_var hxsu hal]
        exact lt_min hav humin2
      obtain ⟨hwf1, hx1, hzl, hzv⟩ := ih w.1 s1 w.2 z hwfw
        (lt_of_lt_of_le he0l (ext_len hxsw)) he0z
        (lt_of_lt_of_le he1l (ext_len hxsw))
        (by rw [ext_get_var hxsw he0l, ext_get_var hxsw he1l]; exact hle)
        hwl (by rw [ext_get_var hxsw he0l]; exact hwmin2) h5
      refine ⟨hwf1, ext_trans hxsw hx1, hzl, ?_⟩
      rw [ext_get_var hxsw he0l] at hzv
      exact hzv
    · rw [if_neg hv] at h2
      have hltv : get_var s e0.v < get_var s e1.v := lt_of_le_of_ne hle hv
      rcases Option.bind_eq_some.mp h2 with ⟨u, hu, h4⟩
      obtain ⟨hwfu, hxu, hul, humin⟩ :=
        hg p.1 ⟨p.2, get_child s e0.v (i + k)⟩ e1 1 u.1 u.2 hwfp
          (by rw [hp1]; exact hc0l) (by rw [hp1]; exact he1l)
          (show _ = some (u.1, u.2) from hu)
      have hxsu : ∃ t, u.1.pool = s.pool ++ t := by
        rcases hxu with ⟨t, ht⟩
        exact ⟨t, by rw [ht, hp1]⟩
      have humin2 : get_var s e0.v < get_var u.1 u.2.v := by
        refine lt_of_lt_of_le ?_ humin
        rw [get_var_congr hp1, get_var_congr hp1]
        exact lt_min hc0v hltv
      rcases Option.bind_eq_some.mp h4 with ⟨w, hw, h5⟩
      obtain ⟨hwfw, hxw, hwl, hwmin⟩ :=
        hg u.1 acc u.2 0 w.1 w.2 hwfu
          (lt_of_lt_of_le hal (ext_len hxsu)) hul
          (show _ = some (w.1, w.2) from hw)
      have hxsw : ∃ t, w.1.pool = s.pool ++ t := ext_trans hxsu hxw
      have hwmin2 : get_var s e0.v < get_var w.1 w.2.v := by
        refine lt_of_lt_of_le ?_ hwmin
        rw [ext_get_var hxsu hal]
        exact lt_min hav humin2
      obtain ⟨hwf1, hx1, hzl, hzv⟩ := ih w.1 s1 w.2 z hwfw
        (lt_of_lt_of_le he0l (ext_len hxsw)) he0z
        (lt_of_lt_of_le he1l (ext_len hxsw))
        (by rw [ext_get_var hxsw he0l, ext_get_var hxsw he1l]; exact hle)
        hwl (by rw [ext_get_var hxsw he0l]; exact hwmin2) h5
      refine ⟨hwf1, ext_trans hxsw hx1, hzl, ?_⟩
      rw [ext_get_var hxsw he0l] at hzv
      exact hzv

theorem mul_quad_wf {n : Nat}
    {g : St → edge → edge → Nat → Option (St × edge)}
    (hg : ∀ (s : St) (a b : edge) (opc : Nat) (s' : St) (e : edge),
      WFst n s → a.v < s.pool.length → b.v < s.pool.length →
      g s a b opc = some (s', e) →
      WFst n s' ∧ (∃ t, s'.pool = s.pool ++ t) ∧ e.v < s'.pool.length ∧
        min (get_var s a.v) (get_var s b.v) ≤ get_var s' e.v)
    (e0 e1 : edge) :
    ∀ (ijs : List (Nat × Nat)) (s s1 : St) (zs : List edge),
      WFst n s → e0.v < s.pool.length → e0.v ≠ 0 → e1.v < s.pool.length →
      get_var s e0.v ≤ get_var s e1.v →
      mul_quad g e0 e1 ijs s = some (s1, zs) →
      WFst n s1 ∧ (∃ t, s1.pool = s.pool ++ t) ∧ zs.length = ijs.length ∧
        ∀ z ∈ zs, z.v < s1.pool.length ∧ get_var s e0.v < get_var s1 z.v := by
  intro ijs
  induction ijs with
  | nil =>
    intro s s1 zs hwf _ _ _ _ hrun
    rw [mul_quad_nil] at hrun
    obtain ⟨h1, h2⟩ := Prod.mk.inj (Option.some.inj hrun)
    subst h1
    subst h2
    exact ⟨hwf, ext_refl s, rfl, fun z hz => absurd hz (List.not_mem_nil z)⟩
  | cons ij ijs ih =>
    intro s s1 zs hwf he0l he0z he1l hle hrun
    rw [mul_quad_cons] at hrun
    rcases Option.bind_eq_some.mp hrun with ⟨p, hp, h2⟩
    have hzt : (0 : Nat) < s.pool.length := pool_nonempty hwf.1
    have hzv : get_var s e0.v < get_var s 0 := by
      rw [get_var_zero hwf.1]
      exact var_lt_of_nonzero hwf.1 he0l he0z
    obtain ⟨hwfp, hxp, hpl, hpv⟩ := mul_sum_wf hg e0 e1 ij.1 ij.2 [0, 1]
      s p.1 ⟨0, 0⟩ p.2 hwf he0l he0z he1l hle hzt hzv
      (show _ = some (p.1, p.2) from hp)
    rcases Option.bind_eq_some.mp h2 with ⟨q, hq, h3⟩
    obtain ⟨hwfq, hxq, hlen, hall⟩ := ih p.1 q.1 q.2 hwfp
      (lt_of_lt_of_le he0l (ext_len hxp)) he0z
      (lt_of_lt_of_le he1l (ext_len hxp))
      (by rw [ext_get_var hxp he0l, ext_get_var hxp he1l]; exact hle)
      (show _ = some (q.1, q.2) from hq)
    obtain ⟨h6, h7⟩ := Prod.mk.inj (Option.some.inj h3)
    subst h6
    subst h7
    refine ⟨hwfq, ext_trans hxp hxq, by simpa using hlen, ?_⟩
    intro z hz
    rcases List.mem_cons.mp hz with rfl | hz2
    · exact ⟨lt_of_lt_of_le hpl (ext_len hxq),
        by rw [ext_get_var hxq hpl]; exact hpv⟩
    · obtain ⟨hz1, hz3⟩ := hall z hz2
      refine ⟨hz1, ?_⟩
      rw [ext_get_var hxp he0l] at hz3
      exact hz3

theorem kro_quad_wf {n : Nat}
    {g : St → edge → edge → Nat → Option (St × edge)}
    (hg : ∀ (s : St) (a b : edge) (opc : Nat) (s' : St) (e : edge),
      WFst n s → a.v < s.pool.length → b.v < s.pool.length →
      g s a b opc = some (s', e) →
      WFst n s' ∧ (∃ t, s'.pool = s.pool ++ t) ∧ e.v < s'.pool.length ∧
        min (get_var s a.v) (get_var s b.v) ≤ get_var s' e.v)
    (e0 e1 : edge) :
    ∀ (idx : List Nat) (s s1 : St) (zs : List edge),
      WFst n s → e0.v < s.pool.length → e0.v ≠ 0 → e1.v < s.pool.length →
      get_var s e0.v < get_var s e1.v →
      kro_quad g e0 e1 idx s = some (s1, zs) →
      WFst n s1 ∧ (∃ t, s1.pool = s.pool ++ t) ∧ zs.length = idx.length ∧
        ∀ z ∈ zs, z.v < s1.pool.length ∧ get_var s e0.v < get_var s1 z.v := by
  intro idx
  induction idx with
  | nil =>
    intro s s1 zs hwf _ _ _ _ hrun
    rw [kro_quad_nil] at hrun
    obtain ⟨h1, h2⟩ := Prod.mk.inj (Option.some.inj hrun)
    subst h1
    subst h2
    exact ⟨hwf, ext_refl s, rfl, fun z hz => absurd hz (List.not_mem_nil z)⟩
  | cons i idx ih =>
    intro s s1 zs hwf he0l he0z he1l hlt hrun
    rw [kro_quad_cons] at hrun
    rcases Option.bind_eq_some.mp hrun with ⟨p, hp, h2⟩
    obtain ⟨hc0l, hc0v⟩ := child_ok hwf.1 he0l he0z i
    obtain ⟨hwfp, hxp, hpl, hpmin⟩ :=
      hg s (Ei s e0 i) e1 2 p.1 p.2 hwf hc0l he1l
        (show _ = some (p.1, p.2) from hp)
    have hpv : get_var s e0.v < get_var p.1 p.2.v := by
      refine lt_of_lt_of_le ?_ hpmin
      exact lt_min hc0v hlt
    rcases Option.bind_eq_some.mp h2 with ⟨q, hq, h3⟩
    obtain ⟨hwfq, hxq, hlen, hall⟩ := ih p.1 q.1 q.2 hwfp
      (lt_of_lt_of_le he0l (ext_len hxp)) he0z
      (lt_of_lt_of_le he1l (ext_len hxp))
      (by rw [ext_get_var hxp he0l, ext_get_var hxp he1l]; exact hlt)
      (show _ = some (q.1, q.2) from hq)
    obtain ⟨h6, h7⟩ := Prod.mk.inj (Option.some.inj h3)
    subst h6
    subst h7
    refine ⟨hwfq, ext_trans hxp hxq, by simpa using hlen, ?_⟩
    intro z hz
    rcases List.mem_cons.mp hz with rfl | hz2
    · exact ⟨lt_of_lt_of_le hpl (ext_len hxq),
        by rw [ext_get_var hxq hpl]; exact hpv⟩
    · obtain ⟨hz1, hz3⟩ := hall z hz2
      refine ⟨hz1, ?_⟩
      rw [ext_get_var hxp he0l] at hz3
      exact hz3

theorem term_eq {e : edge} : term e = true ↔ e.v = 0 := by
  simp [term]

/-- The master invariant-preservation induction over the fuel-indexed
evaluator: from a well-formed state and in-range operand edges, every
successful `run` preserves the invariant, only appends to the node pool, and
returns an in-range edge whose root `var` is at least the minimum operand
`var`. -/
theorem run_wf {n : Nat} :
    ∀ (fuel : Nat) (s : St) (c : call) (s' : St) (e : edge),
      WFst n s → (ce0 c).v < s.pool.length → (ce1 c).v < s.pool.length →
      run fuel s c = some (s', e) →
      WFst n s' ∧ (∃ t, s'.pool = s.pool ++ t) ∧ e.v < s'.pool.length ∧
        min (get_var s (ce0 c).v) (get_var s (ce1 c).v) ≤ get_var s' e.v := by
  intro fuel
  induction fuel with
  | zero =>
    intro s c s' e _ _ _ h
    rw [run_zero] at h
    cases h
  | succ fuel ih =>
    have hg : ∀ (s : St) (a b : edge) (opc : Nat) (s2 : St) (e2 : edge),
        WFst n s → a.v < s.pool.length → b.v < s.pool.length →
        run fuel s (call.ap a b opc) = some (s2, e2) →
        WFst n s2 ∧ (∃ t, s2.pool = s.pool ++ t) ∧ e2.v < s2.pool.length ∧
          min (get_var s a.v) (get_var s b.v) ≤ get_var s2 e2.v :=
      fun s a b opc s2 e2 hw ha hb hr => ih s (call.ap a b opc) s2 e2 hw ha hb hr
    have hcache : ∀ (s : St) (e0 e1 : edge) (op : Nat),
        WFst n s → ¬ (ct_find s.ctab e0 e1 op).v = invalid_value →
        (ct_find s.ctab e0 e1 op).v < s.pool.length ∧
          min (get_var s e0.v) (get_var s e1.v) ≤
            get_var s (ct_find s.ctab e0 e1 op).v := by
      intro s e0 e1 op hwf hf
      obtain ⟨kv, hmem, hk0, hk1, _, hkr⟩ := ct_find_ne_invalid hf
      obtain ⟨_, _, h3, h4⟩ := hwf.2 kv hmem
      rw [hkr] at h3 h4
      rw [hk0, hk1] at h4
      exact ⟨h3, h4⟩
    have hwrap : ∀ (s1 : St) (e0 e1 : edge) (op : Nat) (r : edge),
        WFst n s1 → e0.v < s1.pool.length → e1.v < s1.pool.length →
        r.v < s1.pool.length →
        min (get_var s1 e0.v) (get_var s1 e1.v) ≤ get_var s1 r.v →
        WFst n { s1 with ctab := aset s1.ctab (ckey e0 e1 op) ⟨e0, e1, op, r⟩ } := by
      intro s1 e0 e1 op r hwf h0 h1 hr hmin
      refine ⟨WFpool_congr rfl hwf.1, ?_⟩
      intro kv hkv
      rcases aset_mem hkv with rfl | hold
      · exact ⟨h0, h1, hr, hmin⟩
      · exact hwf.2 kv hold
    have hapcore : ∀ (s : St) (e0 e1 : edge) (op : Nat) (c2 : call)
        (s' : St) (e : edge),
        WFst n s → e0.v < s.pool.length → e1.v < s.pool.length →
        ce0 c2 = e0 → ce1 c2 = e1 →
        ((run fuel s c2).bind fun p =>
          some ({ p.1 with ctab := aset p.1.ctab (ckey e0 e1 op) ⟨e0, e1, op, p.2⟩ }, p.2)) =
            some (s', e) →
        WFst n s' ∧ (∃ t, s'.pool = s.pool ++ t) ∧ e.v < s'.pool.length ∧
          min (get_var s e0.v) (get_var s e1.v) ≤ get_var s' e.v := by
      intro s e0 e1 op c2 s' e hwf h0l h1l hc0 hc1 hrun
      rcases Option.bind_eq_some.mp hrun with ⟨p, hp, h2⟩
      obtain ⟨hwfp, hxp, hpl, hpmin⟩ := ih s c2 p.1 p.2 hwf
        (by rw [hc0]; exact h0l) (by rw [hc1]; exact h1l)
        (show _ = some (p.1, p.2) from hp)
      rw [hc0, hc1] at hpmin
      obtain ⟨h6, h7⟩ := Prod.mk.inj (Option.some.inj h2)
      subst h6
      subst h7
      have hmin1 : min (get_var p.1 e0.v) (get_var p.1 e1.v) ≤ get_var p.1 p.2.v := by
        rw [ext_get_var hxp h0l, ext_get_var hxp h1l]
        exact hpmin
      refine ⟨hwrap p.1 e0 e1 op p.2 hwfp
          (lt_of_lt_of_le h0l (ext_len hxp))
          (lt_of_lt_of_le h1l (ext_len hxp)) hpl hmin1,
        hxp, hpl, hpmin⟩
    intro s c s' e hwf h0l h1l hrun
    rw [run_succ] at hrun
    cases c with
    | ap e0 e1 op =>
      replace h0l : e0.v < s.pool.length := h0l
      replace h1l : e1.v < s.pool.length := h1l
      show WFst n s' ∧ (∃ t, s'.pool = s.pool ++ t) ∧ e.v < s'.pool.length ∧
        min (get_var s e0.v) (get_var s e1.v) ≤ get_var s' e.v
      have hhit : ∀ (hf : ¬ (ct_find s.ctab e0 e1 op).v = invalid_value),
          some (s, ct_find s.ctab e0 e1 op) = some (s', e) →
          WFst n s' ∧ (∃ t, s'.pool = s.pool ++ t) ∧ e.v < s'.pool.length ∧
            min (get_var s e0.v) (get_var s e1.v) ≤ get_var s' e.v := by
        intro hf heq
        obtain ⟨h6, h7⟩ := Prod.mk.inj (Option.some.inj heq)
        subst h6
        subst h7
        obtain ⟨ha, hb⟩ := hcache s e0 e1 op hwf hf
        exact ⟨hwf, ext_refl s, ha, hb⟩
      match op, hrun with
      | 0, hrun => ?_
      | 1, hrun => ?_
      | 2, hrun => ?_
      | (m + 3), hrun => ?_
      case _ =>
        rw [run_step_ap_add] at hrun
        by_cases hf : (ct_find s.ctab e0 e1 0).v = invalid_value
        · rw [if_neg (not_not_intro hf)] at hrun
          exact hapcore s e0 e1 0 (call.addc e0 e1) s' e hwf h0l h1l rfl rfl hrun
        · rw [if_pos hf] at hrun
          exact hhit hf hrun
      case _ =>
        rw [run_step_ap_mul] at hrun
        by_cases hf : (ct_find s.ctab e0 e1 1).v = invalid_value
        · rw [if_neg (not_not_intro hf)] at hrun
          exact hapcore s e0 e1 1 (call.mulc e0 e1) s' e hwf h0l h1l rfl rfl hrun
        · rw [if_pos hf] at hrun
          exact hhit hf hrun
      case _ =>
        rw [run_step_ap_kro] at hrun
        by_cases hf : (ct_find s.ctab e0 e1 2).v = invalid_value
        · rw [if_neg (not_not_intro hf)] at hrun
          exact hapcore s e0 e1 2 (call.kroc e0 e1) s' e hwf h0l h1l rfl rfl hrun
        · rw [if_pos hf] at hrun
          exact hhit hf hrun
      case _ =>
        rw [run_step_ap_bad] at hrun
        by_cases hf : (ct_find s.ctab e0 e1 (m + 3)).v = invalid_value
        · rw [if_neg (not_not_intro hf)] at hrun
          cases hrun
        · rw [if_pos hf] at hrun
          exact hhit hf hrun
    | addc e0 e1 =>
      replace h0l : e0.v < s.pool.length := h0l
      replace h1l : e1.v < s.pool.length := h1l
      show WFst n s' ∧ (∃ t, s'.pool = s.pool ++ t) ∧ e.v < s'.pool.length ∧
        min (get_var s e0.v) (get_var s e1.v) ≤ get_var s' e.v
      rw [run_step_addc] at hrun
      by_cases hc1 : (term e0 && e0.w = 0) = true
      · rw [if_pos hc1] at hrun
        obtain ⟨h6, h7⟩ := Prod.mk.inj (Option.some.inj hrun)
        subst h6
        subst h7
        exact ⟨hwf, ext_refl s, h1l, min_le_right _ _⟩
      · rw [if_neg hc1] at hrun
        by_cases hc2 : (term e0 && term e1) = true
        · rw [if_pos hc2] at hrun
          rcases Option.bind_eq_some.mp hrun with ⟨p, hp, h2⟩
          obtain ⟨hp1, hp2⟩ :=
            apply_weight_fields (show _ = some (p.1, p.2) from hp)
          obtain ⟨h6, h7⟩ := Prod.mk.inj (Option.some.inj h2)
          subst h6
          subst h7
          have h0 : (0 : Nat) < s.pool.length := pool_nonempty hwf.1
          refine ⟨WFst_congr hp1 hp2 hwf, ⟨[], by rw [hp1, List.append_nil]⟩,
            by rw [hp1]; exact h0, ?_⟩
          show _ ≤ get_var p.1 0
          rw [get_var_congr hp1, get_var_zero hwf.1]
          have hand := hc2
          rw [Bool.and_eq_true] at hand
          have ht1 : e1.v = 0 := term_eq.mp hand.2
          rw [ht1, get_var_zero hwf.1]
          exact min_le_right _ _
        · rw [if_neg hc2] at hrun
          by_cases hc3 : get_var s e0.v > get_var s e1.v
          · rw [if_pos hc3] at hrun
            obtain ⟨hwf1, hx1, hel, hmin⟩ :=
              ih s (call.addc e1 e0) s' e hwf h1l h0l hrun
            exact ⟨hwf1, hx1, hel, by rw [Nat.min_comm]; exact hmin⟩
          · rw [if_neg hc3] at hrun
            have hle : get_var s e0.v ≤ get_var s e1.v := Nat.le_of_not_lt hc3
            have he0z : e0.v ≠ 0 := by
              intro h0
              have he1z : e1.v ≠ 0 := by
                intro h1
                refine hc2 ?_
                rw [Bool.and_eq_true]
                exact ⟨term_eq.mpr h0, term_eq.mpr h1⟩
              have hlt : get_var s e1.v < n := var_lt_of_nonzero hwf.1 h1l he1z
              rw [h0, get_var_zero hwf.1] at hle
              omega
            rcases Option.bind_eq_some.mp hrun with ⟨p, hp, h2⟩
            obtain ⟨hwfp, hxp, hplen, hall⟩ :=
              add_quad_wf hg e0 e1 [0, 1, 2, 3] s p.1 p.2 hwf
                h0l he0z h1l hle (show _ = some (p.1, p.2) from hp)
            rcases Option.bind_eq_some.mp h2 with ⟨q, hq, h3⟩
            obtain ⟨hq1, hq2⟩ := normalize_weights_fields
              (show _ = some (q.1, q.2.1, q.2.2) from hq)
            rcases Option.bind_eq_some.mp h3 with ⟨m, hm, h4⟩
            have hvx : get_var p.1 e0.v = get_var s e0.v := ext_get_var hxp h0l
            obtain ⟨hwfm, hxm, hml, hmv⟩ :=
              make_node_wf (WFst_congr hq1 hq2 hwfp)
                (by rw [hvx]; exact var_lt_of_nonzero hwf.1 h0l he0z)
                (by rw [List.length_map, hplen]; rfl)
                (by
                  intro c hcm
                  rcases List.mem_map.mp hcm with ⟨z, hz, rfl⟩
                  obtain ⟨hz1, hz2⟩ := hall z hz
                  rw [hq1, get_var_congr hq1, hvx]
                  exact ⟨hz1, hz2⟩)
                (show _ = some (m.1, m.2) from hm)
            obtain ⟨h6, h7⟩ := Prod.mk.inj (Option.some.inj h4)
            subst h6
            subst h7
            have hxq : ∃ t, q.1.pool = s.pool ++ t := by
              rcases hxp with ⟨t, ht⟩
              exact ⟨t, by rw [hq1, ht]⟩
            refine ⟨hwfm, ext_trans hxq hxm, hml, ?_⟩
            refine le_trans (min_le_left _ _) ?_
            refine le_trans ?_ hmv
            rw [hvx]
    | mulc e0 e1 =>
      replace h0l : e0.v < s.pool.length := h0l
      replace h1l : e1.v < s.pool.length := h1l
      show WFst n s' ∧ (∃ t, s'.pool = s.pool ++ t) ∧ e.v < s'.pool.length ∧
        min (get_var s e0.v) (get_var s e1.v) ≤ get_var s' e.v
      rw [run_step_mulc] at hrun
      by_cases hc1 : (term e0 && e0.w = 0) = true
      · rw [if_pos hc1] at hrun
        obtain ⟨h6, h7⟩ := Prod.mk.inj (Option.some.inj hrun)
        subst h6
        subst h7
        exact ⟨hwf, ext_refl s, h0l, min_le_left _ _⟩
      · rw [if_neg hc1] at hrun
        by_cases hc2 : (term e0 && e0.w = 1) = true
        · rw [if_pos hc2] at hrun
          obtain ⟨h6, h7⟩ := Prod.mk.inj (Option.some.inj hrun)
          subst h6
          subst h7
          exact ⟨hwf, ext_refl s, h1l, min_le_right _ _⟩
        · rw [if_neg hc2] at hrun
          by_cases hc3 : term e0 = true
          · rw [if_pos hc3] at hrun
            rcases Option.bind_eq_some.mp hrun with ⟨p, hp, h2⟩
            obtain ⟨hp1, hp2⟩ :=
              apply_weight_fields (show _ = some (p.1, p.2) from hp)
            obtain ⟨h6, h7⟩ := Prod.mk.inj (Option.some.inj h2)
            subst h6
            subst h7
            refine ⟨WFst_congr hp1 hp2 hwf, ⟨[], by rw [hp1, List.append_nil]⟩,
              by rw [hp1]; exact h1l, ?_⟩
            show _ ≤ get_var p.1 e1.v
            rw [get_var_congr hp1]
            exact min_le_right _ _
          · rw [if_neg hc3] at hrun
            have he0z : e0.v ≠ 0 := fun h0 => hc3 (term_eq.mpr h0)
            by_cases hc4 : get_var s e0.v > get_var s e1.v
            · rw [if_pos hc4] at hrun
              obtain ⟨hwf1, hx1, hel, hmin⟩ :=
                ih s (call.addc e1 e0) s' e hwf h1l h0l hrun
              exact ⟨hwf1, hx1, hel, by rw [Nat.min_comm]; exact hmin⟩
            · rw [if_neg hc4] at hrun
              have hle : get_var s e0.v ≤ get_var s e1.v := Nat.le_of_not_lt hc4
              rcases Option.bind_eq_some.mp hrun with ⟨p, hp, h2⟩
              obtain ⟨hwfp, hxp, hplen, hall⟩ :=
                mul_quad_wf hg e0 e1 [(0, 0), (0, 1), (2, 0), (2, 1)] s p.1 p.2
                  hwf h0l he0z h1l hle (show _ = some (p.1, p.2) from hp)
              rcases Option.bind_eq_some.mp h2 with ⟨q, hq, h3⟩
              obtain ⟨hq1, hq2⟩ := normalize_weights_fields
                (show _ = some (q.1, q.2.1, q.2.2) from hq)
              rcases Option.bind_eq_some.mp h3 with ⟨m, hm, h4⟩
              have hvx : get_var p.1 e0.v = get_var s e0.v := ext_get_var hxp h0l
              obtain ⟨hwfm, hxm, hml, hmv⟩ :=
                make_node_wf (WFst_congr hq1 hq2 hwfp)
                  (by rw [hvx]; exact var_lt_of_nonzero hwf.1 h0l he0z)
                  (by rw [List.length_map, hplen]; rfl)
                  (by
                    intro c hcm
                    rcases List.mem_map.mp hcm with ⟨z, hz, rfl⟩
                    obtain ⟨hz1, hz2⟩ := hall z hz
                    rw [hq1, get_var_congr hq1, hvx]
                    exact ⟨hz1, hz2⟩)
                  (show _ = some (m.1, m.2) from hm)
              obtain ⟨h6, h7⟩ := Prod.mk.inj (Option.some.inj h4)
              subst h6
              subst h7
              have hxq : ∃ t, q.1.pool = s.pool ++ t := by
                rcases hxp with ⟨t, ht⟩
                exact ⟨t, by rw [hq1, ht]⟩
              refine ⟨hwfm, ext_trans hxq hxm, hml, ?_⟩
              refine le_trans (min_le_left _ _) ?_
              refine le_trans ?_ hmv
              rw [hvx]
    | kroc e0 e1 =>
      replace h0l : e0.v < s.pool.length := h0l
      replace h1l : e1.v < s.pool.length := h1l
      show WFst n s' ∧ (∃ t, s'.pool = s.pool ++ t) ∧ e.v < s'.pool.length ∧
        min (get_var s e0.v) (get_var s e1.v) ≤ get_var s' e.v
      rw [run_step_kroc] at hrun
      by_cases hc1 : (term e0 && e0.w = 0) = true
      · rw [if_pos hc1] at hrun
        obtain ⟨h6, h7⟩ := Prod.mk.inj (Option.some.inj hrun)
        subst h6
        subst h7
        exact ⟨hwf, ext_refl s, h0l, min_le_left _ _⟩
      · rw [if_neg hc1] at hrun
        by_cases hc2 : (term e0 && e0.w = 1) = true
        · rw [if_pos hc2] at hrun
          obtain ⟨h6, h7⟩ := Prod.mk.inj (Option.some.inj hrun)
          subst h6
          subst h7
          exact ⟨hwf, ext_refl s, h1l, min_le_right _ _⟩
        · rw [if_neg hc2] at hrun
          by_cases hc3 : term e0 = true
          · rw [if_pos hc3] at hrun
            rcases Option.bind_eq_some.mp hrun with ⟨p, hp, h2⟩
            obtain ⟨hp1, hp2⟩ :=
              apply_weight_fields (show _ = some (p.1, p.2) from hp)
            obtain ⟨h6, h7⟩ := Prod.mk.inj (Option.some.inj h2)
            subst h6
            subst h7
            refine ⟨WFst_congr hp1 hp2 hwf, ⟨[], by rw [hp1, List.append_nil]⟩,
              by rw [hp1]; exact h1l, ?_⟩
            show _ ≤ get_var p.1 e1.v
            rw [get_var_congr hp1]
            exact min_le_right _ _
          · rw [if_neg hc3] at hrun
            have he0z : e0.v ≠ 0 := fun h0 => hc3 (term_eq.mpr h0)
            by_cases hc4 : get_var s e0.v < get_var s e1.v
            · rw [if_pos hc4] at hrun
              rcases Option.bind_eq_some.mp hrun with ⟨p, hp, h2⟩
              obtain ⟨hwfp, hxp, hplen, hall⟩ :=
                kro_quad_wf hg e0 e1 [0, 1, 2, 3] s p.1 p.2 hwf
                  h0l he0z h1l hc4 (show _ = some (p.1, p.2) from hp)
              rcases Option.bind_eq_some.mp h2 with ⟨q, hq, h3⟩
              obtain ⟨hq1, hq2⟩ := normalize_weights_fields
                (show _ = some (q.1, q.2.1, q.2.2) from hq)
              rcases Option.bind_eq_some.mp h3 with ⟨r, hr, h4⟩
              obtain ⟨hr1, hr2⟩ :=
                apply_weight_fields (show _ = some (r.1, r.2) from hr)
              rcases Option.bind_eq_some.mp h4 with ⟨m, hm, h5⟩
              have hvx : get_var p.1 e0.v = get_var s e0.v := ext_get_var hxp h0l
              have hrq : r.1.pool = q.1.pool := hr1
              obtain ⟨hwfm, hxm, hml, hmv⟩ :=
                make_node_wf
                  (WFst_congr (hr1.trans hq1) (hr2.trans hq2) hwfp)
                  (by rw [hvx]; exact var_lt_of_nonzero hwf.1 h0l he0z)
                  (by rw [List.length_map, hplen]; rfl)
                  (by
                    intro c hcm
                    rcases List.mem_map.mp hcm with ⟨z, hz, rfl⟩
                    obtain ⟨hz1, hz2⟩ := hall z hz
                    rw [hr1.trans hq1, get_var_congr (hr1.trans hq1), hvx]
                    exact ⟨hz1, hz2⟩)
                  (show _ = some (m.1, m.2) from hm)
              obtain ⟨h6, h7⟩ := Prod.mk.inj (Option.some.inj h5)
              subst h6
              subst h7
              have hxr : ∃ t, r.1.pool = s.pool ++ t := by
                rcases hxp with ⟨t, ht⟩
                exact ⟨t, by rw [hr1.trans hq1, ht]⟩
              refine ⟨hwfm, ext_trans hxr hxm, hml, ?_⟩
              refine le_trans (min_le_left _ _) ?_
              refine le_trans ?_ hmv
              rw [hvx]
            · rw [if_neg hc4] at hrun
              cases hrun

theorem citer_zero (s : St) (f : Nat → Nat) (h : Nat) : citer s f 0 h = h := rfl

theorem citer_succ (s : St) (f : Nat → Nat) (k h : Nat) :
    citer s f (k + 1) h = citer s f k (cstep s f h) := rfl

theorem cstep_zero (s : St) (f : Nat → Nat) : cstep s f 0 = 0 := rfl

theorem cstep_ok {n : Nat} {s : St} (hwf : WFpool n s) (f : Nat → Nat)
    {h : Nat} (hl : h < s.pool.length) (hz : h ≠ 0) :
    cstep s f h < s.pool.length ∧ get_var s h < get_var s (cstep s f h) := by
  have hc : cstep s f h = get_child s h (f h) := by
    rw [cstep, if_neg hz, get_child]
  rw [hc]
  exact child_ok hwf hl hz (f h)

/-- Iterating child descent from any in-range handle reaches the terminal
within `k` steps once `k` covers the remaining `var` budget: `var` strictly
increases at each step, non-terminal nodes have `var < n`, and the terminal
absorbs. -/
theorem citer_reaches_terminal {n : Nat} {s : St} (hwf : WFpool n s)
    (f : Nat → Nat) :
    ∀ (k h : Nat), h < s.pool.length → n ≤ get_var s h + k →
      citer s f k h = 0 := by
  intro k
  induction k with
  | zero =>
    intro h hl hge
    rw [citer_zero]
    by_contra hz
    have := var_lt_of_nonzero hwf hl hz
    omega
  | succ k ihk =>
    intro h hl hge
    rw [citer_succ]
    by_cases hz : h = 0
    · subst hz
      rw [cstep_zero]
      refine ihk 0 (pool_nonempty hwf) ?_
      rw [get_var_zero hwf]
      omega
    · obtain ⟨hc1, hc2⟩ := cstep_ok hwf f hl hz
      exact ihk _ hc1 (by omega)

/-- Every state reached by guarded `make_node` calls and arbitrary `apply`
calls is well-formed. -/
theorem reach_wf {n : Nat} {s : St} (h : ReachMA n s) : WFst n s := by
  induction h with
  | init =>
    refine ⟨⟨rfl, ?_⟩, ?_⟩
    · intro h nd hg hz
      have hnone : (init_qmdd n).pool.get? h = none := by
        rw [List.get?_eq_none]
        show 1 ≤ h
        omega
      rw [hnone] at hg
      cases hg
    · intro kv hkv
      cases hkv
  | mk hre hvar hclen hch hmk ih =>
    exact (make_node_wf ih hvar hclen hch
      (show _ = some (_, _) from hmk)).1
  | appe hre hl0 hl1 happ ih =>
    refine (run_wf _ _ _ _ _ ih ?_ ?_ happ).1
    · exact hl0
    · exact hl1
  | appw hre happ ih =>
    obtain ⟨hp, hc⟩ := apply_weight_fields (show _ = some (_, _) from happ)
    exact WFst_congr hp hc ih

/-- From a fresh one-variable engine, two unguarded `make_node` calls build a
node (handle 2, the root of the produced edge) at `var = 0` whose four
children are all node 1, whose `var` is also 0: `var` does not strictly
increase from a node to its child, refuting I1 for unrestricted `make_node`
sequences. -/
theorem c6_counterexample :
    (c6_seq.map fun p => (p.1, get_var p.2 p.1, (node_at p.2 p.1).children,
      get_var p.2 1)) = some (2, 0, [1, 1, 1, 1], 0) := by
  decide!

/-- C6 (amended): in any state reached from `qmdd(n)` by a sequence of
`make_node` calls that respect the construction precondition (children are
existing nodes of strictly greater `var`, the new `var` is below `n`, four
children passed — as every internal caller does) and arbitrary `apply`
calls, the terminal sits at handle 0 with `var = n`, every other pool node —
hence every node reachable from any produced edge — has `var < n` and only
in-range children of strictly greater `var`, and iterated child descent from
any in-range node (under any slot choice) reaches the terminal within `n`
steps. -/
theorem c6_var_invariant {n : Nat} {s : St} (h : ReachMA n s) :
    s.pool.get? 0 = some ⟨n, [0, 0, 0, 0], [1, 1, 1, 1]⟩ ∧
    (∀ h0 nd, s.pool.get? h0 = some nd → h0 ≠ 0 →
      nd.var < n ∧ ∀ c ∈ nd.children, c < s.pool.length ∧ nd.var < get_var s c) ∧
    (∀ (f : Nat → Nat) (h0 : Nat), h0 < s.pool.length → citer s f n h0 = 0) := by
  have hwf := reach_wf h
  refine ⟨hwf.1.1, ?_, ?_⟩
  · intro h0 nd hg hz
    obtain ⟨h1, _, h3⟩ := hwf.1.2 h0 nd hg hz
    exact ⟨h1, h3⟩
  · intro f h0 hl
    exact citer_reaches_terminal hwf.1 f n h0 hl (by omega)

theorem c6_witness :
    (init_qmdd 1).pool.get? 0 = some ⟨1, [0, 0, 0, 0], [1, 1, 1, 1]⟩ ∧
    (∀ h0 nd, (init_qmdd 1).pool.get? h0 = some nd → h0 ≠ 0 →
      nd.var < 1 ∧ ∀ c ∈ nd.children, c < (init_qmdd 1).pool.length ∧
        nd.var < get_var (init_qmdd 1) c) ∧
    (∀ (f : Nat → Nat) (h0 : Nat), h0 < (init_qmdd 1).pool.length →
      citer (init_qmdd 1) f 1 h0 = 0) :=
  c6_var_invariant (ReachMA.init 1)

theorem nrun_succ (fuel : Nat) (t : NSt) (c : call) :
    nrun (fuel + 1) t c = nrun_step (nrun fuel) t c := rfl

theorem nrun_zero (t : NSt) (c : call) : nrun 0 t c = none := rfl

theorem nrun_step_ap_add (ih : NSt → call → Option (NSt × edge)) (t : NSt)
    (e0 e1 : edge) :
    nrun_step ih t (call.ap e0 e1 0) = ih t (call.addc e0 e1) := rfl

theorem nrun_step_ap_mul (ih : NSt → call → Option (NSt × edge)) (t : NSt)
    (e0 e1 : edge) :
    nrun_step ih t (call.ap e0 e1 1) = ih t (call.mulc e0 e1) := rfl

theorem nrun_step_ap_kro (ih : NSt → call → Option (NSt × edge)) (t : NSt)
    (e0 e1 : edge) :
    nrun_step ih t (call.ap e0 e1 2) = ih t (call.kroc e0 e1) := rfl

theorem nrun_step_ap_bad (ih : NSt → call → Option (NSt × edge)) (t : NSt)
    (e0 e1 : edge) (m : Nat) :
    nrun_step ih t (call.ap e0 e1 (m + 3)) = none := rfl

theorem nrun_step_addc (ih : NSt → call → Option (NSt × edge)) (t : NSt)
    (e0 e1 : edge) :
    nrun_step ih t (call.addc e0 e1) =
      if term e0 && e0.w = 0 then some (t, e1)
      else if term e0 && term e1 then
        (napply_weight t e0.w e1.w 0).bind fun p => some (p.1, (⟨p.2, 0⟩ : edge))
      else if nget_var t e0.v > nget_var t e1.v then ih t (call.addc e1 e0)
      else
        (nadd_quad (fun t a b op => ih t (call.ap a b op)) e0 e1 [0, 1, 2, 3] t).bind fun p =>
          (nnormalize_weights (p.2.map edge.w) p.1).bind fun q =>
            (nmake_node q.1 (nget_var p.1 e0.v) (p.2.map edge.v) q.2.2).bind fun m =>
              some (m.2, (⟨q.2.1, m.1⟩ : edge)) := rfl

theorem nrun_step_mulc (ih : NSt → call → Option (NSt × edge)) (t : NSt)
    (e0 e1 : edge) :
    nrun_step ih t (call.mulc e0 e1) =
      if term e0 && e0.w = 0 then some (t, e0)
      else if term e0 && e0.w = 1 then some (t, e1)
      else if term e0 then
        (napply_weight t e0.w e1.w 2).bind fun p =>
          some (p.1, (⟨p.2, e1.v⟩ : edge))
      else if nget_var t e0.v > nget_var t e1.v then ih t (call.addc e1 e0)
      else
        (nmul_quad (fun t a b op => ih t (call.ap a b op)) e0 e1 [(0, 0), (0, 1), (2, 0), (2, 1)] t).bind fun p =>
          (nnormalize_weights (p.2.map edge.w) p.1).bind fun q =>
            (nmake_node q.1 (nget_var p.1 e0.v) (p.2.map edge.v) q.2.2).bind fun m =>
              some (m.2, (⟨q.2.1, m.1⟩ : edge)) := rfl

theorem nrun_step_kroc (ih : NSt → call → Option (NSt × edge)) (t : NSt)
    (e0 e1 : edge) :
    nrun_step ih t (call.kroc e0 e1) =
      if term e0 && e0.w = 0 then some (t, e0)
      else if term e0 && e0.w = 1 then some (t, e1)
      else if term e0 then
        (napply_weight t e0.w e1.w 2).bind fun p =>
          some (p.1, (⟨p.2, e1.v⟩ : edge))
      else if nget_var t e0.v < nget_var t e1.v then
        (nkro_quad (fun t a b op => ih t (call.ap a b op)) e0 e1 [0, 1, 2, 3] t).bind fun p =>
          (nnormalize_weights (p.2.map edge.w) p.1).bind fun q =>
            (napply_weight q.1 q.2.1 e0.w 2).bind fun r =>
              (nmake_node r.1 (nget_var p.1 e0.v) (p.2.map edge.v) q.2.2).bind fun m =>
                some (m.2, (⟨r.2, m.1⟩ : edge))
      else none := rfl

theorem nadd_quad_nil (g : NSt → edge → edge → Nat → Option (NSt × edge))
    (e0 e1 : edge) (t : NSt) : nadd_quad g e0 e1 [] t = some (t, []) := rfl

theorem nadd_quad_cons (g : NSt → edge → edge → Nat → Option (NSt × edge))
    (e0 e1 : edge) (i : Nat) (idx : List Nat) (t : NSt) :
    nadd_quad g e0 e1 (i :: idx) t =
      (napply_weight t e0.w (nget_weight t e0.v i) 2).bind fun p =>
        if nget_var t e0.v = nget_var t e1.v then
          (napply_weight p.1 e1.w (nget_weight p.1 e1.v i) 2).bind fun q =>
            (g q.1 (⟨p.2, nget_child t e0.v i⟩ : edge)
                (⟨q.2, nget_child p.1 e1.v i⟩ : edge) 0).bind fun u =>
              (nadd_quad g e0 e1 idx u.1).bind fun v => some (v.1, u.2 :: v.2)
        else
          (g p.1 (⟨p.2, nget_child t e0.v i⟩ : edge) e1 0).bind fun u =>
            (nadd_quad g e0 e1 idx u.1).bind fun v => some (v.1, u.2 :: v.2) := rfl

theorem nmul_sum_nil (g : NSt → edge → edge → Nat → Option (NSt × edge))
    (e0 e1 : edge) (i j : Nat) (t : NSt) (acc : edge) :
    nmul_sum g e0 e1 i j [] t acc = some (t, acc) := rfl

theorem nmul_sum_cons (g : NSt → edge → edge → Nat → Option (NSt × edge))
    (e0 e1 : edge) (i j k : Nat) (ks : List Nat) (t : NSt) (acc : edge) :
    nmul_sum g e0 e1 i j (k :: ks) t acc =
      (napply_weight t e0.w (nget_weight t e0.v (i + k)) 2).bind fun p =>
        if nget_var t e0.v = nget_var t e1.v then
          (napply_weight p.1 e1.w (nget_weight p.1 e1.v (j + 2 * k)) 2).bind fun q =>
            (g q.1 (⟨p.2, nget_child t e0.v (i + k)⟩ : edge)
                (⟨q.2, nget_child p.1 e1.v (j + 2 * k)⟩ : edge) 1).bind fun u =>
              (g u.1 acc u.2 0).bind fun v => nmul_sum g e0 e1 i j ks v.1 v.2
        else
          (g p.1 (⟨p.2, nget_child t e0.v (i + k)⟩ : edge) e1 1).bind fun u =>
            (g u.1 acc u.2 0).bind fun v => nmul_sum g e0 e1 i j ks v.1 v.2 := rfl

theorem nmul_quad_nil (g : NSt → edge → edge → Nat → Option (NSt × edge))
    (e0 e1 : edge) (t : NSt) : nmul_quad g e0 e1 [] t = some (t, []) := rfl

theorem nmul_quad_cons (g : NSt → edge → edge → Nat → Option (NSt × edge))
    (e0 e1 : edge) (ij : Nat × Nat) (ijs : List (Nat × Nat)) (t : NSt) :
    nmul_quad g e0 e1 (ij :: ijs) t =
      (nmul_sum g e0 e1 ij.1 ij.2 [0, 1] t ⟨0, 0⟩).bind fun p =>
        (nmul_quad g e0 e1 ijs p.1).bind fun q =>
          some (q.1, p.2 :: q.2) := rfl

theorem nkro_quad_nil (g : NSt → edge → edge → Nat → Option (NSt × edge))
    (e0 e1 : edge) (t : NSt) : nkro_quad g e0 e1 [] t = some (t, []) := rfl

theorem nkro_quad_cons (g : NSt → edge → edge → Nat → Option (NSt × edge))
    (e0 e1 : edge) (i : Nat) (idx : List Nat) (t : NSt) :
    nkro_quad g e0 e1 (i :: idx) t =
      (g t (nEi t e0 i) e1 2).bind fun p =>
        (nkro_quad g e0 e1 idx p.1).bind fun q =>
          some (q.1, p.2 :: q.2) := rfl

theorem nnormalize_rest_nil (f : Nat) (t : NSt) :
    nnormalize_rest f [] t = some (t, []) := rfl

theorem nnormalize_rest_cons (f w : Nat) (rest : List Nat) (t : NSt) :
    nnormalize_rest f (w :: rest) t =
      if w ≠ 0 then
        (napply_weight t w f 3).bind fun p =>
          (nnormalize_rest f rest p.1).bind fun q => some (q.1, p.2 :: q.2)
      else
        (nnormalize_rest f rest t).bind fun q => some (q.1, w :: q.2) := rfl

theorem nnormalize_weights_nil (t : NSt) :
    nnormalize_weights [] t = some (t, 0, []) := rfl

theorem nnormalize_weights_cons (w : Nat) (rest : List Nat) (t : NSt) :
    nnormalize_weights (w :: rest) t =
      if w = 0 then
        (nnormalize_weights rest t).bind fun q => some (q.1, q.2.1, w :: q.2.2)
      else
        (nnormalize_rest w rest t).bind fun q => some (q.1, w, 1 :: q.2) := rfl

theorem nut_probe_zero (n : node) (key : Nat) (t : NSt) :
    nut_probe n 0 key t = none := rfl

theorem nut_probe_succ (n : node) (fuel key : Nat) (t : NSt) :
    nut_probe n (fuel + 1) key t =
      match aget t.table key with
      | none =>
        if t.pool.length ≥ ddcapacity then none
        else
          some (t.pool.length,
            { t with pool := t.pool ++ [n], table := aset t.table key t.pool.length })
      | some h =>
        match t.pool.get? h with
        | none => none
        | some m =>
          if m = n then some (h, t) else nut_probe n fuel ((key + 1) % ddcapacity) t := rfl

theorem nle_refl (t : NSt) : nle t t :=
  ⟨⟨[], (List.append_nil _).symm⟩, ⟨[], (List.append_nil _).symm⟩,
    fun _ _ h => h⟩

theorem nle_trans {t1 t2 t3 : NSt} (h12 : nle t1 t2) (h23 : nle t2 t3) :
    nle t1 t3 := by
  obtain ⟨⟨u1, hp1⟩, ⟨v1, hw1⟩, ht1⟩ := h12
  obtain ⟨⟨u2, hp2⟩, ⟨v2, hw2⟩, ht2⟩ := h23
  exact ⟨⟨u1 ++ u2, by rw [hp2, hp1, List.append_assoc]⟩,
    ⟨v1 ++ v2, by rw [hw2, hw1, List.append_assoc]⟩,
    fun k h hk => ht2 k h (ht1 k h hk)⟩

theorem aget_aset_self {α : Type} :
    ∀ (l : List (Nat × α)) (k : Nat) (v : α), aget (aset l k v) k = some v := by
  intro l
  induction l with
  | nil =>
    intro k v
    rw [show aset [] k v = [(k, v)] from rfl,
      show aget [(k, v)] k = if k = k then some v else aget [] k from rfl,
      if_pos rfl]
  | cons hd tl ih =>
    intro k v
    rw [show aset (hd :: tl) k v =
      if hd.1 = k then (k, v) :: tl else hd :: aset tl k v from rfl]
    by_cases hk : hd.1 = k
    · rw [if_pos hk,
        show aget ((k, v) :: tl) k = if k = k then some v else aget tl k from rfl,
        if_pos rfl]
    · rw [if_neg hk,
        show aget (hd :: aset tl k v) k =
          if hd.1 = k then some hd.2 else aget (aset tl k v) k from rfl,
        if_neg hk]
      exact ih k v

theorem aget_aset_ne {α : Type} :
    ∀ (l : List (Nat × α)) (k k' : Nat) (v : α), k' ≠ k →
      aget (aset l k v) k' = aget l k' := by
  intro l
  induction l with
  | nil =>
    intro k k' v hne
    rw [show aset [] k v = [(k, v)] from rfl,
      show aget [(k, v)] k' = if k = k' then some v else aget [] k' from rfl,
      if_neg (fun h => hne h.symm)]
  | cons hd tl ih =>
    intro k k' v hne
    rw [show aset (hd :: tl) k v =
      if hd.1 = k then (k, v) :: tl else hd :: aset tl k v from rfl]
    by_cases hk : hd.1 = k
    · rw [if_pos hk,
        show aget ((k, v) :: tl) k' = if k = k' then some v else aget tl k' from rfl,
        if_neg (fun h => hne h.symm),
        show aget (hd :: tl) k' = if hd.1 = k' then some hd.2 else aget tl k' from rfl,
        if_neg (by rw [hk]; exact fun h => hne h.symm)]
    · rw [if_neg hk,
        show aget (hd :: aset tl k v) k' =
          if hd.1 = k' then some hd.2 else aget (aset tl k v) k' from rfl,
        show aget (hd :: tl) k' = if hd.1 = k' then some hd.2 else aget tl k' from rfl]
      by_cases hk' : hd.1 = k'
      · rw [if_pos hk', if_pos hk']
      · rw [if_neg hk', if_neg hk']
        exact ih k k' v hne

theorem uw_scan_prefix :
    ∀ (l : List weight) (u : List weight) (w : weight) (i : Nat),
      uw_scan l w = some i → uw_scan (l ++ u) w = some i := by
  intro l
  induction l with
  | nil =>
    intro u w i h
    rw [uw_scan_nil] at h
    cases h
  | cons a tl ih =>
    intro u w i h
    rw [uw_scan_cons] at h
    rw [List.cons_append, uw_scan_cons]
    by_cases ha : a = w
    · rw [if_pos ha] at h ⊢
      exact h
    · rw [if_neg ha] at h ⊢
      rcases Option.map_eq_some'.mp h with ⟨j, hj, rfl⟩
      rw [ih u w j hj]
      rfl

theorem uw_insert_char {l : List weight} {w : weight} {h : Nat}
    {wl : List weight} (hins : uw_insert l w = (h, wl)) :
    uw_scan wl w = some h ∧ (wl = l ∨ wl = l ++ [w]) := by
  unfold uw_insert at hins
  cases hscan : uw_scan l w with
  | some i =>
    rw [hscan] at hins
    obtain ⟨h1, h2⟩ := Prod.mk.inj hins
    subst h1
    subst h2
    exact ⟨hscan, Or.inl rfl⟩
  | none =>
    rw [hscan] at hins
    obtain ⟨h1, h2⟩ := Prod.mk.inj hins
    subst h1
    subst h2
    exact ⟨uw_scan_append l w hscan, Or.inr rfl⟩

theorem napply_weight_spec {t : NSt} {a b op : Nat} {t2 : NSt} {r : Nat}
    (h : napply_weight t a b op = some (t2, r)) :
    t2.pool = t.pool ∧ t2.table = t.table ∧
    (t2.wlist = t.wlist ∨ ∃ nw, t2.wlist = t.wlist ++ [nw]) ∧ nle t t2 ∧
    (∀ t'', nle t2 t'' → napply_weight t'' a b op = some (t'', r)) := by
  rcases Option.bind_eq_some.mp h with ⟨x, hx, h2⟩
  rcases Option.bind_eq_some.mp h2 with ⟨y, hy, h3⟩
  rcases Option.bind_eq_some.mp h3 with ⟨nw, hnw, h4⟩
  obtain ⟨h5, h6⟩ := Prod.mk.inj (Option.some.inj h4)
  obtain ⟨hscan, hcase⟩ := uw_insert_char
    (show uw_insert t.wlist nw = ((uw_insert t.wlist nw).1, (uw_insert t.wlist nw).2) from rfl)
  have hwl : t2.wlist = (uw_insert t.wlist nw).2 := by rw [← h5]; rfl
  have hr : r = (uw_insert t.wlist nw).1 := by rw [← h6]; rfl
  have hpool : t2.pool = t.pool := by rw [← h5]
  have htab : t2.table = t.table := by rw [← h5]
  have hext : ∃ u, t2.wlist = t.wlist ++ u := by
    rcases hcase with hc | hc
    · exact ⟨[], by rw [hwl, hc, List.append_nil]⟩
    · exact ⟨[nw], by rw [hwl, hc]⟩
  refine ⟨hpool, htab, by
      rcases hcase with hc | hc
      · exact Or.inl (by rw [hwl, hc])
      · exact Or.inr ⟨nw, by rw [hwl, hc]⟩, ?_, ?_⟩
  · exact ⟨⟨[], by rw [hpool, List.append_nil]⟩, hext, fun k h0 hk => by rw [htab]; exact hk⟩
  · intro t'' hle
    obtain ⟨⟨u1, hp1⟩, ⟨v1, hw1⟩, _⟩ := hle
    have hx' : t''.wlist.get? a = some x := by
      rw [hw1, hwl]
      rcases hcase with hc | hc
      · rw [hc]
        exact get?_mono hx
      · rw [hc, List.append_assoc]
        exact get?_mono hx
    have hy' : t''.wlist.get? b = some y := by
      rw [hw1, hwl]
      rcases hcase with hc | hc
      · rw [hc]
        exact get?_mono hy
      · rw [hc, List.append_assoc]
        exact get?_mono hy
    have hscan' : uw_scan t''.wlist nw = some r := by
      rw [hw1, hwl, hr]
      exact uw_scan_prefix _ _ _ _ hscan
    have hins' : uw_insert t''.wlist nw = (r, t''.wlist) := by
      rw [uw_insert, hscan']
    have heq : napply_weight t'' a b op =
        some ({ t'' with wlist := (uw_insert t''.wlist nw).2 },
          (uw_insert t''.wlist nw).1) := by
      simp only [napply_weight, Option.bind_eq_bind, hx', Option.some_bind, hy',
        hnw]
    rw [heq, hins']

theorem nnode_at_get? {t : NSt} {h : Nat} (hl : h < t.pool.length) :
    t.pool.get? h = some (nnode_at t h) := by
  rw [List.get?_eq_get hl, nnode_at, List.getD_eq_get t.pool _ hl]

theorem nle_node_at {t t'' : NSt} (hle : nle t t'') {h : Nat}
    (hl : h < t.pool.length) : nnode_at t'' h = nnode_at t h := by
  obtain ⟨⟨u, hp⟩, _, _⟩ := hle
  have h2 : t''.pool.get? h = some (nnode_at t h) := by
    rw [hp]
    exact get?_mono (nnode_at_get? hl)
  have h3 : h < t''.pool.length := by
    rw [hp, List.length_append]
    omega
  have h4 := nnode_at_get? h3
  rw [h2] at h4
  exact (Option.some.inj h4).symm

theorem nle_get_var {t t'' : NSt} (hle : nle t t'') {h : Nat}
    (hl : h < t.pool.length) : nget_var t'' h = nget_var t h := by
  rw [nget_var, nget_var, nle_node_at hle hl]

theorem nle_get_child {t t'' : NSt} (hle : nle t t'') {h : Nat}
    (hl : h < t.pool.length) (i : Nat) :
    nget_child t'' h i = nget_child t h i := by
  rw [nget_child, nget_child, nle_node_at hle hl]

theorem nle_get_weight {t t'' : NSt} (hle : nle t t'') {h : Nat}
    (hl : h < t.pool.length) (i : Nat) :
    nget_weight t'' h i = nget_weight t h i := by
  rw [nget_weight, nget_weight, nle_node_at hle hl]

theorem nle_pool_len {t t'' : NSt} (hle : nle t t'') :
    t.pool.length ≤ t''.pool.length := by
  obtain ⟨⟨u, hp⟩, _, _⟩ := hle
  rw [hp, List.length_append]
  omega

theorem nchild_ok {t : NSt} (hwf : nWFp t) {h : Nat}
    (hl : h < t.pool.length) (i : Nat) : nget_child t h i < t.pool.length := by
  by_cases hi : i < (nnode_at t h).children.length
  · have hmem : (nnode_at t h).children.getD i 0 ∈ (nnode_at t h).children := by
      rw [List.getD_eq_get _ _ hi]
      exact List.get_mem _ _ _
    exact hwf.2 h (nnode_at t h) (nnode_at_get? hl) _ hmem
  · have hc0 : nget_child t h i = 0 := by
      rw [nget_child, List.getD_eq_default]
      omega
    rw [hc0]
    exact hwf.1

theorem nWFp_congr {t t' : NSt} (hp : t'.pool = t.pool) (hwf : nWFp t) :
    nWFp t' := by
  refine ⟨by rw [hp]; exact hwf.1, ?_⟩
  intro h nd hg c hc
  rw [hp] at hg ⊢
  exact hwf.2 h nd hg c hc

theorem nWFp_snoc {t t' : NSt} {nn : node} (hp : t'.pool = t.pool ++ [nn])
    (hwf : nWFp t) (hch : ∀ c ∈ nn.children, c < t.pool.length) : nWFp t' := by
  have hl : t.pool.length ≤ t'.pool.length := by
    rw [hp, List.length_append]
    omega
  refine ⟨lt_of_lt_of_le hwf.1 hl, ?_⟩
  intro h nd hg c hc
  rcases Nat.lt_trichotomy h t.pool.length with hlt | heq | hgt
  · have hg0 : t.pool.get? h = some nd := by
      rw [hp, List.get?_append hlt] at hg
      exact hg
    exact lt_of_lt_of_le (hwf.2 h nd hg0 c hc) hl
  · have hg1 : t'.pool.get? h = some nn := by
      rw [hp, heq]
      exact List.get?_concat_length _ _
    rw [hg] at hg1
    obtain rfl := Option.some.inj hg1.symm
    exact lt_of_lt_of_le (hch c hc) hl
  · exfalso
    have hnone : t'.pool.get? h = none := by
      rw [List.get?_eq_none, hp, List.length_append]
      simp only [List.length_singleton]
      omega
    rw [hg] at hnone
    cases hnone

theorem nut_probe_spec :
    ∀ (fuel : Nat) {n : node} {key : Nat} {t : NSt} {h : Nat} {t2 : NSt},
      nut_probe n fuel key t = some (h, t2) →
      t2.wlist = t.wlist ∧
      ((t2 = t ∧ t.pool.get? h = some n) ∨
        (∃ key', aget t.table key' = none ∧ t2.pool = t.pool ++ [n] ∧
          t2.table = aset t.table key' t.pool.length ∧ h = t.pool.length)) := by
  intro fuel
  induction fuel with
  | zero =>
    intro n key t h t2 hp
    rw [nut_probe_zero] at hp
    cases hp
  | succ fuel ih =>
    intro n key t h t2 hp
    rw [nut_probe_succ] at hp
    split at hp
    · rename_i hg
      split at hp
      · cases hp
      · obtain ⟨h1, h2⟩ := Prod.mk.inj (Option.some.inj hp)
        subst h2
        exact ⟨rfl, Or.inr ⟨key, hg, rfl, rfl, h1.symm⟩⟩
    · rename_i h0 hg
      split at hp
      · cases hp
      · rename_i m hm
        split at hp
        · rename_i hmn
          obtain ⟨h1, h2⟩ := Prod.mk.inj (Option.some.inj hp)
          subst h1
          subst h2
          exact ⟨rfl, Or.inl ⟨rfl, by rw [hm, hmn]⟩⟩
        · exact ih hp

theorem nut_probe_nle {fuel : Nat} {n : node} {key : Nat} {t : NSt} {h : Nat}
    {t2 : NSt} (hp : nut_probe n fuel key t = some (h, t2)) : nle t t2 := by
  obtain ⟨hw, hcase⟩ := nut_probe_spec fuel hp
  rcases hcase with ⟨rfl, _⟩ | ⟨key', hkey, hpool, htab, _⟩
  · exact nle_refl _
  · refine ⟨⟨[n], hpool⟩, ⟨[], by rw [hw, List.append_nil]⟩, ?_⟩
    intro k h0 hk
    rw [htab, aget_aset_ne t.table key' k _ ?_]
    · exact hk
    · intro hkk
      rw [hkk, hkey] at hk
      cases hk

theorem nut_probe_stable :
    ∀ (fuel : Nat) {n : node} {key : Nat} {t : NSt} {h : Nat} {t2 : NSt},
      nut_probe n fuel key t = some (h, t2) →
      ∀ t'', nle t2 t'' → nut_probe n fuel key t'' = some (h, t'') := by
  intro fuel
  induction fuel with
  | zero =>
    intro n key t h t2 hp
    rw [nut_probe_zero] at hp
    cases hp
  | succ fuel ih =>
    intro n key t h t2 hp t'' hle
    rw [nut_probe_succ] at hp
    rw [nut_probe_succ]
    split at hp
    · rename_i hg
      split at hp
      · cases hp
      · obtain ⟨h1, h2⟩ := Prod.mk.inj (Option.some.inj hp)
        have hg2 : aget t2.table key = some t.pool.length := by
          rw [← h2]
          exact aget_aset_self _ _ _
        have hg3 : aget t''.table key = some t.pool.length :=
          hle.2.2 key _ hg2
        have hget : t''.pool.get? t.pool.length = some n := by
          obtain ⟨⟨u, hpu⟩, _, _⟩ := hle
          rw [hpu, ← h2]
          show ((t.pool ++ [n]) ++ u).get? t.pool.length = some n
          exact get?_mono (List.get?_concat_length _ _)
        simp only [hg3, hget]
        rw [if_true, h1]
    · rename_i h0 hg
      split at hp
      · cases hp
      · rename_i m hm
        have hg3 : aget t''.table key = some h0 := by
          refine hle.2.2 key h0 ?_
          have ht2 : nle t t2 := by
            by_cases hmn : m = n
            · rw [if_pos hmn] at hp
              obtain ⟨_, h2⟩ := Prod.mk.inj (Option.some.inj hp)
              rw [← h2]
              exact nle_refl t
            · rw [if_neg hmn] at hp
              exact nut_probe_nle hp
          exact ht2.2.2 key h0 hg
        have hget : t''.pool.get? h0 = some m := by
          have ht2 : nle t t2 := by
            by_cases hmn : m = n
            · rw [if_pos hmn] at hp
              obtain ⟨_, h2⟩ := Prod.mk.inj (Option.some.inj hp)
              rw [← h2]
              exact nle_refl t
            · rw [if_neg hmn] at hp
              exact nut_probe_nle hp
          obtain ⟨⟨u2, hpu2⟩, _, _⟩ := nle_trans ht2 hle
          rw [hpu2]
          exact get?_mono hm
        simp only [hg3, hget]
        split at hp
        · rename_i hmn
          obtain ⟨h1, h2⟩ := Prod.mk.inj (Option.some.inj hp)
          subst h1
          rw [if_pos hmn]
        · rename_i hmn
          rw [if_neg hmn]
          exact ih hp t'' hle

theorem nmake_node_cases {t : NSt} {var : Nat} {ch ws : List Nat} {h : Nat}
    {t2 : NSt} (hmk : nmake_node t var ch ws = some (h, t2)) :
    ((all_adjacent_eq ch && all_adjacent_eq ws) = true ∧ ch.head? = some h ∧
      t2 = t) ∨
    (¬ (all_adjacent_eq ch && all_adjacent_eq ws) = true ∧
      nut_insert t ⟨var, ch, ws⟩ = some (h, t2)) := by
  unfold nmake_node at hmk
  split at hmk
  · rename_i hcol
    split at hmk
    · rename_i c hc
      obtain ⟨h1, h2⟩ := Prod.mk.inj (Option.some.inj hmk)
      subst h1
      exact Or.inl ⟨hcol, hc, h2.symm⟩
    · cases hmk
  · rename_i hcol
    exact Or.inr ⟨hcol, hmk⟩

theorem nmake_node_collapse {t : NSt} {var : Nat} {ch ws : List Nat} {c : Nat}
    (h1 : (all_adjacent_eq ch && all_adjacent_eq ws) = true)
    (h2 : ch.head? = some c) :
    nmake_node t var ch ws = some (c, t) := by
  unfold nmake_node
  rw [if_pos h1]
  simp only [h2]

theorem nmake_node_insert {t : NSt} {var : Nat} {ch ws : List Nat}
    (h1 : ¬ (all_adjacent_eq ch && all_adjacent_eq ws) = true) :
    nmake_node t var ch ws = nut_insert t ⟨var, ch, ws⟩ := by
  unfold nmake_node
  rw [if_neg h1]

theorem nmake_node_stable {t : NSt} {var : Nat} {ch ws : List Nat} {h : Nat}
    {t2 : NSt} (hmk : nmake_node t var ch ws = some (h, t2)) :
    ∀ t'', nle t2 t'' → nmake_node t'' var ch ws = some (h, t'') := by
  intro t'' hle
  rcases nmake_node_cases hmk with ⟨hcol, hc, rfl⟩ | ⟨hcol, hins⟩
  · exact nmake_node_collapse hcol hc
  · rw [nmake_node_insert hcol]
    unfold nut_insert at hins ⊢
    exact nut_probe_stable _ hins t'' hle

theorem nmake_node_wfp {t : NSt} {var : Nat} {ch ws : List Nat} {h : Nat}
    {t2 : NSt} (hwf : nWFp t) (hch : ∀ c ∈ ch, c < t.pool.length)
    (hmk : nmake_node t var ch ws = some (h, t2)) :
    nWFp t2 ∧ nle t t2 ∧ h < t2.pool.length := by
  rcases nmake_node_cases hmk with ⟨hcol, hc, rfl⟩ | ⟨hcol, hins⟩
  · exact ⟨hwf, nle_refl _, hch h (List.mem_of_mem_head? hc)⟩
  · unfold nut_insert at hins
    obtain ⟨hw, hcase⟩ := nut_probe_spec _ hins
    have hnle := nut_probe_nle hins
    rcases hcase with ⟨rfl, hg⟩ | ⟨key', hkey, hpool, htab, hh⟩
    · rcases List.get?_eq_some.mp hg with ⟨hlt, _⟩
      exact ⟨hwf, nle_refl _, hlt⟩
    · subst hh
      refine ⟨nWFp_snoc hpool hwf hch, hnle, ?_⟩
      rw [hpool, List.length_append]
      simp

theorem nnormalize_rest_spec :
    ∀ {rest : List Nat} {f : Nat} {t t2 : NSt} {out : List Nat},
      nnormalize_rest f rest t = some (t2, out) →
      t2.pool = t.pool ∧ t2.table = t.table ∧ nle t t2 ∧
      (∀ t'', nle t2 t'' → nnormalize_rest f rest t'' = some (t'', out)) := by
  intro rest
  induction rest with
  | nil =>
    intro f t t2 out h
    rw [nnormalize_rest_nil] at h
    obtain ⟨h1, h2⟩ := Prod.mk.inj (Option.some.inj h)
    subst h1
    subst h2
    exact ⟨rfl, rfl, nle_refl t,
      fun t'' _ => by rw [nnormalize_rest_nil]⟩
  | cons w rest ih =>
    intro f t t2 out h
    rw [nnormalize_rest_cons] at h
    split at h
    · rename_i hw
      rcases Option.bind_eq_some.mp h with ⟨p, hp, h2⟩
      rcases Option.bind_eq_some.mp h2 with ⟨q, hq, h3⟩
      obtain ⟨h5, h6⟩ := Prod.mk.inj (Option.some.inj h3)
      subst h5
      subst h6
      obtain ⟨hp1, hp2, _, hpnle, hpst⟩ :=
        napply_weight_spec (show _ = some (p.1, p.2) from hp)
      obtain ⟨hq1, hq2, hqle, hqst⟩ := ih (show _ = some (q.1, q.2) from hq)
      refine ⟨hq1.trans hp1, hq2.trans hp2, nle_trans hpnle hqle, ?_⟩
      intro t'' hle
      rw [nnormalize_rest_cons, if_pos hw,
        hpst t'' (nle_trans hqle hle), Option.some_bind,
        hqst t'' hle, Option.some_bind]
    · rename_i hw
      rcases Option.bind_eq_some.mp h with ⟨q, hq, h3⟩
      obtain ⟨h5, h6⟩ := Prod.mk.inj (Option.some.inj h3)
      subst h5
      subst h6
      obtain ⟨hq1, hq2, hqle, hqst⟩ := ih (show _ = some (q.1, q.2) from hq)
      refine ⟨hq1, hq2, hqle, ?_⟩
      intro t'' hle
      rw [nnormalize_rest_cons, if_neg hw, hqst t'' hle, Option.some_bind]

theorem nnormalize_weights_spec :
    ∀ {slots : List Nat} {t t2 : NSt} {f : Nat} {out : List Nat},
      nnormalize_weights slots t = some (t2, f, out) →
      t2.pool = t.pool ∧ t2.table = t.table ∧ nle t t2 ∧
      (∀ t'', nle t2 t'' → nnormalize_weights slots t'' = some (t'', f, out)) := by
  intro slots
  induction slots with
  | nil =>
    intro t t2 f out h
    rw [nnormalize_weights_nil] at h
    obtain ⟨h1, h2⟩ := Prod.mk.inj (Option.some.inj h)
    subst h1
    obtain ⟨h3, h4⟩ := Prod.mk.inj h2
    subst h3
    subst h4
    exact ⟨rfl, rfl, nle_refl t, fun t'' _ => by rw [nnormalize_weights_nil]⟩
  | cons w rest ih =>
    intro t t2 f out h
    rw [nnormalize_weights_cons] at h
    split at h
    · rename_i hw
      rcases Option.bind_eq_some.mp h with ⟨q, hq, h3⟩
      obtain ⟨h5, h6⟩ := Prod.mk.inj (Option.some.inj h3)
      subst h5
      obtain ⟨h7, h8⟩ := Prod.mk.inj h6
      subst h7
      subst h8
      obtain ⟨hq1, hq2, hqle, hqst⟩ :=
        ih (show _ = some (q.1, q.2.1, q.2.2) from hq)
      refine ⟨hq1, hq2, hqle, ?_⟩
      intro t'' hle
      rw [nnormalize_weights_cons, if_pos hw, hqst t'' hle, Option.some_bind]
    · rename_i hw
      rcases Option.bind_eq_some.mp h with ⟨q, hq, h3⟩
      obtain ⟨h5, h6⟩ := Prod.mk.inj (Option.some.inj h3)
      subst h5
      obtain ⟨h7, h8⟩ := Prod.mk.inj h6
      subst h7
      subst h8
      obtain ⟨hq1, hq2, hqle, hqst⟩ :=
        nnormalize_rest_spec (show _ = some (q.1, q.2) from hq)
      refine ⟨hq1, hq2, hqle, ?_⟩
      intro t'' hle
      rw [nnormalize_weights_cons, if_neg hw, hqst t'' hle, Option.some_bind]

theorem nadd_quad_mono
    {g g' : NSt → edge → edge → Nat → Option (NSt × edge)}
    (hm : ∀ t a b opc r, g t a b opc = some r → g' t a b opc = some r)
    (e0 e1 : edge) :
    ∀ (idx : List Nat) (t : NSt) (r : NSt × List edge),
      nadd_quad g e0 e1 idx t = some r → nadd_quad g' e0 e1 idx t = some r := by
  intro idx
  induction idx with
  | nil => intro t r h; exact h
  | cons i idx ih =>
    intro t r h
    rw [nadd_quad_cons] at h
    rcases Option.bind_eq_some.mp h with ⟨p, hp, h2⟩
    rw [nadd_quad_cons]
    simp only [hp, Option.some_bind]
    by_cases hv : nget_var t e0.v = nget_var t e1.v
    · rw [if_pos hv] at h2 ⊢
      rcases Option.bind_eq_some.mp h2 with ⟨q, hq, h3⟩
      simp only [hq, Option.some_bind]
      rcases Option.bind_eq_some.mp h3 with ⟨u, hu, h4⟩
      simp only [hm _ _ _ _ _ hu, Option.some_bind]
      rcases Option.bind_eq_some.mp h4 with ⟨v, hv2, h5⟩
      simp only [ih _ _ hv2, Option.some_bind]
      exact h5
    · rw [if_neg hv] at h2 ⊢
      rcases Option.bind_eq_some.mp h2 with ⟨u, hu, h4⟩
      simp only [hm _ _ _ _ _ hu, Option.some_bind]
      rcases Option.bind_eq_some.mp h4 with ⟨v, hv2, h5⟩
      simp only [ih _ _ hv2, Option.some_bind]
      exact h5

theorem nmul_sum_mono
    {g g' : NSt → edge → edge → Nat → Option (NSt × edge)}
    (hm : ∀ t a b opc r, g t a b opc = some r → g' t a b opc = some r)
    (e0 e1 : edge) (i j : Nat) :
    ∀ (ks : List Nat) (t : NSt) (acc : edge) (r : NSt × edge),
      nmul_sum g e0 e1 i j ks t acc = some r →
      nmul_sum g' e0 e1 i j ks t acc = some r := by
  intro ks
  induction ks with
  | nil => intro t acc r h; exact h
  | cons k ks ih =>
    intro t acc r h
    rw [nmul_sum_cons] at h
    rcases Option.bind_eq_some.mp h with ⟨p, hp, h2⟩
    rw [nmul_sum_cons]
    simp only [hp, Option.some_bind]
    by_cases hv : nget_var t e0.v = nget_var t e1.v
    · rw [if_pos hv] at h2 ⊢
      rcases Option.bind_eq_some.mp h2 with ⟨q, hq, h3⟩
      simp only [hq, Option.some_bind]
      rcases Option.bind_eq_some.mp h3 with ⟨u, hu, h4⟩
      simp only [hm _ _ _ _ _ hu, Option.some_bind]
      rcases Option.bind_eq_some.mp h4 with ⟨v, hv2, h5⟩
      simp only [hm _ _ _ _ _ hv2, Option.some_bind]
      exact ih _ _ _ h5
    · rw [if_neg hv] at h2 ⊢
      rcases Option.bind_eq_some.mp h2 with ⟨u, hu, h4⟩
      simp only [hm _ _ _ _ _ hu, Option.some_bind]
      rcases Option.bind_eq_some.mp h4 with ⟨v, hv2, h5⟩
      simp only [hm _ _ _ _ _ hv2, Option.some_bind]
      exact ih _ _ _ h5

theorem nmul_quad_mono
    {g g' : NSt → edge → edge → Nat → Option (NSt × edge)}
    (hm : ∀ t a b opc r, g t a b opc = some r → g' t a b opc = some r)
    (e0 e1 : edge) :
    ∀ (ijs : List (Nat × Nat)) (t : NSt) (r : NSt × List edge),
      nmul_quad g e0 e1 ijs t = some r → nmul_quad g' e0 e1 ijs t = some r := by
  intro ijs
  induction ijs with
  | nil => intro t r h; exact h
  | cons ij ijs ih =>
    intro t r h
    rw [nmul_quad_cons] at h
    rcases Option.bind_eq_some.mp h with ⟨p, hp, h2⟩
    rw [nmul_quad_cons]
    simp only [nmul_sum_mono hm e0 e1 ij.1 ij.2 _ _ _ _ hp, Option.some_bind]
    rcases Option.bind_eq_some.mp h2 with ⟨q, hq, h3⟩
    simp only [ih _ _ hq, Option.some_bind]
    exact h3

theorem nkro_quad_mono
    {g g' : NSt → edge → edge → Nat → Option (NSt × edge)}
    (hm : ∀ t a b opc r, g t a b opc = some r → g' t a b opc = some r)
    (e0 e1 : edge) :
    ∀ (idx : List Nat) (t : NSt) (r : NSt × List edge),
      nkro_quad g e0 e1 idx t = some r → nkro_quad g' e0 e1 idx t = some r := by
  intro idx
  induction idx with
  | nil => intro t r h; exact h
  | cons i idx ih =>
    intro t r h
    rw [nkro_quad_cons] at h
    rcases Option.bind_eq_some.mp h with ⟨p, hp, h2⟩
    rw [nkro_quad_cons]
    simp only [hm _ _ _ _ _ hp, Option.some_bind]
    rcases Option.bind_eq_some.mp h2 with ⟨q, hq, h3⟩
    simp only [ih _ _ hq, Option.some_bind]
    exact h3

theorem nrun_succ_mono :
    ∀ (fuel : Nat) (t : NSt) (c : call) (r : NSt × edge),
      nrun fuel t c = some r → nrun (fuel + 1) t c = some r := by
  intro fuel
  induction fuel with
  | zero =>
    intro t c r h
    rw [nrun_zero] at h
    cases h
  | succ fuel ih =>
    intro t c r h
    rw [nrun_succ] at h
    rw [nrun_succ]
    have hm : ∀ t (a b : edge) opc r, nrun fuel t (call.ap a b opc) = some r →
        nrun (fuel + 1) t (call.ap a b opc) = some r :=
      fun t a b opc r hr => ih t (call.ap a b opc) r hr
    cases c with
    | ap e0 e1 op =>
      match op, h with
      | 0, h => rw [nrun_step_ap_add] at h ⊢; exact ih _ _ _ h
      | 1, h => rw [nrun_step_ap_mul] at h ⊢; exact ih _ _ _ h
      | 2, h => rw [nrun_step_ap_kro] at h ⊢; exact ih _ _ _ h
      | (m + 3), h => rw [nrun_step_ap_bad] at h; cases h
    | addc e0 e1 =>
      rw [nrun_step_addc] at h
      rw [nrun_step_addc]
      by_cases hc1 : (term e0 && e0.w = 0) = true
      · rw [if_pos hc1] at h ⊢
        exact h
      · rw [if_neg hc1] at h ⊢
        by_cases hc2 : (term e0 && term e1) = true
        · rw [if_pos hc2] at h ⊢
          exact h
        · rw [if_neg hc2] at h ⊢
          by_cases hc3 : nget_var t e0.v > nget_var t e1.v
          · rw [if_pos hc3] at h ⊢
            exact ih _ _ _ h
          · rw [if_neg hc3] at h ⊢
            rcases Option.bind_eq_some.mp h with ⟨p, hp, h2⟩
            simp only [nadd_quad_mono hm e0 e1 _ _ _ hp, Option.some_bind]
            rcases Option.bind_eq_some.mp h2 with ⟨q, hq, h3⟩
            simp only [hq, Option.some_bind]
            exact h3
    | mulc e0 e1 =>
      rw [nrun_step_mulc] at h
      rw [nrun_step_mulc]
      by_cases hc1 : (term e0 && e0.w = 0) = true
      · rw [if_pos hc1] at h ⊢
        exact h
      · rw [if_neg hc1] at h ⊢
        by_cases hc2 : (term e0 && e0.w = 1) = true
        · rw [if_pos hc2] at h ⊢
          exact h
        · rw [if_neg hc2] at h ⊢
          by_cases hc3 : term e0 = true
          · rw [if_pos hc3] at h ⊢
            exact h
          · rw [if_neg hc3] at h ⊢
            by_cases hc4 : nget_var t e0.v > nget_var t e1.v
            · rw [if_pos hc4] at h ⊢
              exact ih _ _ _ h
            · rw [if_neg hc4] at h ⊢
              rcases Option.bind_eq_some.mp h with ⟨p, hp, h2⟩
              simp only [nmul_quad_mono hm e0 e1 _ _ _ hp, Option.some_bind]
              rcases Option.bind_eq_some.mp h2 with ⟨q, hq, h3⟩
              simp only [hq, Option.some_bind]
              exact h3
    | kroc e0 e1 =>
      rw [nrun_step_kroc] at h
      rw [nrun_step_kroc]
      by_cases hc1 : (term e0 && e0.w = 0) = true
      · rw [if_pos hc1] at h ⊢
        exact h
      · rw [if_neg hc1] at h ⊢
        by_cases hc2 : (term e0 && e0.w = 1) = true
        · rw [if_pos hc2] at h ⊢
          exact h
        · rw [if_neg hc2] at h ⊢
          by_cases hc3 : term e0 = true
          · rw [if_pos hc3] at h ⊢
            exact h
          · rw [if_neg hc3] at h ⊢
            by_cases hc4 : nget_var t e0.v < nget_var t e1.v
            · rw [if_pos hc4] at h ⊢
              rcases Option.bind_eq_some.mp h with ⟨p, hp, h2⟩
              simp only [nkro_quad_mono hm e0 e1 _ _ _ hp, Option.some_bind]
              rcases Option.bind_eq_some.mp h2 with ⟨q, hq, h3⟩
              simp only [hq, Option.some_bind]
              exact h3
            · rw [if_neg hc4] at h
              cases h

theorem nrun_mono {fuel fuel' : Nat} (hle : fuel ≤ fuel') {t : NSt} {c : call}
    {r : NSt × edge} (h : nrun fuel t c = some r) : nrun fuel' t c = some r := by
  induction fuel' with
  | zero =>
    have h0 : fuel = 0 := by omega
    subst h0
    exact h
  | succ fuel' ih =>
    rcases Nat.lt_or_ge fuel (fuel' + 1) with hlt | hge
    · exact nrun_succ_mono fuel' t c r (ih (by omega))
    · have h0 : fuel = fuel' + 1 := by omega
      subst h0
      exact h

theorem npool_node_at {t t' : NSt} (hp : t'.pool = t.pool) (h : Nat) :
    nnode_at t' h = nnode_at t h := by
  rw [nnode_at, nnode_at, hp]

theorem npool_get_var {t t' : NSt} (hp : t'.pool = t.pool) (h : Nat) :
    nget_var t' h = nget_var t h := by
  rw [nget_var, nget_var, npool_node_at hp]

theorem npool_get_child {t t' : NSt} (hp : t'.pool = t.pool) (h i : Nat) :
    nget_child t' h i = nget_child t h i := by
  rw [nget_child, nget_child, npool_node_at hp]

theorem npool_get_weight {t t' : NSt} (hp : t'.pool = t.pool) (h i : Nat) :
    nget_weight t' h i = nget_weight t h i := by
  rw [nget_weight, nget_weight, npool_node_at hp]

theorem nadd_quad_spec {g : NSt → edge → edge → Nat → Option (NSt × edge)}
    (hg : ∀ (t : NSt) (a b : edge) (opc : Nat) (t2 : NSt) (e2 : edge),
      nWFp t → a.v < t.pool.length → b.v < t.pool.length →
      g t a b opc = some (t2, e2) →
      (nWFp t2 ∧ nle t t2 ∧ e2.v < t2.pool.length) ∧
      (∀ t'', nle t2 t'' → g t'' a b opc = some (t'', e2)))
    (e0 e1 : edge) :
    ∀ (idx : List Nat) (t t1 : NSt) (zs : List edge),
      nWFp t → e0.v < t.pool.length → e1.v < t.pool.length →
      nadd_quad g e0 e1 idx t = some (t1, zs) →
      (nWFp t1 ∧ nle t t1 ∧ ∀ z ∈ zs, z.v < t1.pool.length) ∧
      (∀ t'', nle t1 t'' → nadd_quad g e0 e1 idx t'' = some (t'', zs)) := by
  intro idx
  induction idx with
  | nil =>
    intro t t1 zs hwf _ _ h
    rw [nadd_quad_nil] at h
    obtain ⟨h1, h2⟩ := Prod.mk.inj (Option.some.inj h)
    subst h1
    subst h2
    exact ⟨⟨hwf, nle_refl t, fun z hz => absurd hz (List.not_mem_nil z)⟩,
      fun t'' _ => by rw [nadd_quad_nil]⟩
  | cons i idx ih =>
    intro t t1 zs hwf he0l he1l h
    rw [nadd_quad_cons] at h
    rcases Option.bind_eq_some.mp h with ⟨p, hp, h2⟩
    obtain ⟨hp1, hp2, _, hpnle, hpst⟩ :=
      napply_weight_spec (show _ = some (p.1, p.2) from hp)
    have hwfp : nWFp p.1 := nWFp_congr hp1 hwf
    have hc0l : nget_child t e0.v i < t.pool.length := nchild_ok hwf he0l i
    by_cases hv : nget_var t e0.v = nget_var t e1.v
    · rw [if_pos hv] at h2
      rcases Option.bind_eq_some.mp h2 with ⟨q, hq, h3⟩
      obtain ⟨hq1, hq2, _, hqnle, hqst⟩ :=
        napply_weight_spec (show _ = some (q.1, q.2) from hq)
      have hqt : q.1.pool = t.pool := hq1.trans hp1
      have hwfq : nWFp q.1 := nWFp_congr hqt hwf
      have hc1l : nget_child t e1.v i < t.pool.length := nchild_ok hwf he1l i
      have hcp1 : nget_child p.1 e1.v i = nget_child t e1.v i :=
        npool_get_child hp1 _ _
      rcases Option.bind_eq_some.mp h3 with ⟨u, hu, h4⟩
      obtain ⟨⟨hwfu, hunle, hul⟩, hust⟩ :=
        hg q.1 ⟨p.2, nget_child t e0.v i⟩ ⟨q.2, nget_child p.1 e1.v i⟩ 0 u.1 u.2
          hwfq (by rw [hqt]; exact hc0l) (by rw [hqt, hcp1]; exact hc1l)
          (show _ = some (u.1, u.2) from hu)
      have htu : nle t u.1 := nle_trans (nle_trans hpnle hqnle) hunle
      rcases Option.bind_eq_some.mp h4 with ⟨v, hv2, h5⟩
      obtain ⟨⟨hwfv, hvnle, hvall⟩, hvst⟩ := ih u.1 v.1 v.2 hwfu
        (lt_of_lt_of_le he0l (nle_pool_len htu))
        (lt_of_lt_of_le he1l (nle_pool_len htu))
        (show _ = some (v.1, v.2) from hv2)
      obtain ⟨h6, h7⟩ := Prod.mk.inj (Option.some.inj h5)
      subst h6
      subst h7
      refine ⟨⟨hwfv, nle_trans htu hvnle, ?_⟩, ?_⟩
      · intro z hz
        rcases List.mem_cons.mp hz with rfl | hz2
        · exact lt_of_lt_of_le hul (nle_pool_len hvnle)
        · exact hvall z hz2
      · intro t'' hle
        have hut : nle u.1 t'' := nle_trans hvnle hle
        have hqt'' : nle q.1 t'' := nle_trans hunle hut
        have hpt'' : nle p.1 t'' := nle_trans hqnle hqt''
        have htt'' : nle t t'' := nle_trans hpnle hpt''
        rw [nadd_quad_cons, nle_get_weight htt'' he0l i]
        simp only [hpst t'' hpt'', Option.some_bind]
        rw [nle_get_var htt'' he0l, nle_get_var htt'' he1l, if_pos hv]
        rw [show nget_weight t'' e1.v i = nget_weight p.1 e1.v i from
          (nle_get_weight htt'' he1l i).trans (npool_get_weight hp1 _ _).symm]
        simp only [hqst t'' hqt'', Option.some_bind]
        rw [nle_get_child htt'' he0l i,
          show nget_child t'' e1.v i = nget_child p.1 e1.v i from
            (nle_get_child htt'' he1l i).trans hcp1.symm]
        simp only [hust t'' hut, Option.some_bind]
        simp only [hvst t'' hle, Option.some_bind]
    · rw [if_neg hv] at h2
      rcases Option.bind_eq_some.mp h2 with ⟨u, hu, h4⟩
      obtain ⟨⟨hwfu, hunle, hul⟩, hust⟩ :=
        hg p.1 ⟨p.2, nget_child t e0.v i⟩ e1 0 u.1 u.2 hwfp
          (by rw [hp1]; exact hc0l) (by rw [hp1]; exact he1l)
          (show _ = some (u.1, u.2) from hu)
      have htu : nle t u.1 := nle_trans hpnle hunle
      rcases Option.bind_eq_some.mp h4 with ⟨v, hv2, h5⟩
      obtain ⟨⟨hwfv, hvnle, hvall⟩, hvst⟩ := ih u.1 v.1 v.2 hwfu
        (lt_of_lt_of_le he0l (nle_pool_len htu))
        (lt_of_lt_of_le he1l (nle_pool_len htu))
        (show _ = some (v.1, v.2) from hv2)
      obtain ⟨h6, h7⟩ := Prod.mk.inj (Option.some.inj h5)
      subst h6
      subst h7
      refine ⟨⟨hwfv, nle_trans htu hvnle, ?_⟩, ?_⟩
      · intro z hz
        rcases List.mem_cons.mp hz with rfl | hz2
        · exact lt_of_lt_of_le hul (nle_pool_len hvnle)
        · exact hvall z hz2
      · intro t'' hle
        have hut : nle u.1 t'' := nle_trans hvnle hle
        have hpt'' : nle p.1 t'' := nle_trans hunle hut
        have htt'' : nle t t'' := nle_trans hpnle hpt''
        rw [nadd_quad_cons, nle_get_weight htt'' he0l i]
        simp only [hpst t'' hpt'', Option.some_bind]
        rw [nle_get_var htt'' he0l, nle_get_var htt'' he1l, if_neg hv]
        rw [nle_get_child htt'' he0l i]
        simp only [hust t'' hut, Option.some_bind]
        simp only [hvst t'' hle, Option.some_bind]

theorem nmul_sum_spec {g : NSt → edge → edge → Nat → Option (NSt × edge)}
    (hg : ∀ (t : NSt) (a b : edge) (opc : Nat) (t2 : NSt) (e2 : edge),
      nWFp t → a.v < t.pool.length → b.v < t.pool.length →
      g t a b opc = some (t2, e2) →
      (nWFp t2 ∧ nle t t2 ∧ e2.v < t2.pool.length) ∧
      (∀ t'', nle t2 t'' → g t'' a b opc = some (t'', e2)))
    (e0 e1 : edge) (i j : Nat) :
    ∀ (ks : List Nat) (t t1 : NSt) (acc z : edge),
      nWFp t → e0.v < t.pool.length → e1.v < t.pool.length →
      acc.v < t.pool.length →
      nmul_sum g e0 e1 i j ks t acc = some (t1, z) →
      (nWFp t1 ∧ nle t t1 ∧ z.v < t1.pool.length) ∧
      (∀ t'', nle t1 t'' → nmul_sum g e0 e1 i j ks t'' acc = some (t'', z)) := by
  intro ks
  induction ks with
  | nil =>
    intro t t1 acc z hwf _ _ hal h
    rw [nmul_sum_nil] at h
    obtain ⟨h1, h2⟩ := Prod.mk.inj (Option.some.inj h)
    subst h1
    subst h2
    exact ⟨⟨hwf, nle_refl t, hal⟩, fun t'' _ => by rw [nmul_sum_nil]⟩
  | cons k ks ih =>
    intro t t1 acc z hwf he0l he1l hal h
    rw [nmul_sum_cons] at h
    rcases Option.bind_eq_some.mp h with ⟨p, hp, h2⟩
    obtain ⟨hp1, hp2, _, hpnle, hpst⟩ :=
      napply_weight_spec (show _ = some (p.1, p.2) from hp)
    have hwfp : nWFp p.1 := nWFp_congr hp1 hwf
    have hc0l : nget_child t e0.v (i + k) < t.pool.length := nchild_ok hwf he0l _
    by_cases hv : nget_var t e0.v = nget_var t e1.v
    · rw [if_pos hv] at h2
      rcases Option.bind_eq_some.mp h2 with ⟨q, hq, h3⟩
      obtain ⟨hq1, hq2, _, hqnle, hqst⟩ :=
        napply_weight_spec (show _ = some (q.1, q.2) from hq)
      have hqt : q.1.pool = t.pool := hq1.trans hp1
      have hwfq : nWFp q.1 := nWFp_congr hqt hwf
      have hc1l : nget_child t e1.v (j + 2 * k) < t.pool.length :=
        nchild_ok hwf he1l _
      have hcp1 : nget_child p.1 e1.v (j + 2 * k) = nget_child t e1.v (j + 2 * k) :=
        npool_get_child hp1 _ _
      rcases Option.bind_eq_some.mp h3 with ⟨u, hu, h4⟩
      obtain ⟨⟨hwfu, hunle, hul⟩, hust⟩ :=
        hg q.1 ⟨p.2, nget_child t e0.v (i + k)⟩
          ⟨q.2, nget_child p.1 e1.v (j + 2 * k)⟩ 1 u.1 u.2
          hwfq (by rw [hqt]; exact hc0l) (by rw [hqt, hcp1]; exact hc1l)
          (show _ = some (u.1, u.2) from hu)
      have htu : nle t u.1 := nle_trans (nle_trans hpnle hqnle) hunle
      rcases Option.bind_eq_some.mp h4 with ⟨w, hw, h5⟩
      obtain ⟨⟨hwfw, hwnle, hwl⟩, hwst⟩ :=
        hg u.1 acc u.2 0 w.1 w.2 hwfu
          (lt_of_lt_of_le hal (nle_pool_len htu)) hul
          (show _ = some (w.1, w.2) from hw)
      have htw : nle t w.1 := nle_trans htu hwnle
      obtain ⟨⟨hwf1, h1nle, hzl⟩, h1st⟩ := ih w.1 t1 w.2 z hwfw
        (lt_of_lt_of_le he0l (nle_pool_len htw))
        (lt_of_lt_of_le he1l (nle_pool_len htw))
        hwl h5
      refine ⟨⟨hwf1, nle_trans htw h1nle, hzl⟩, ?_⟩
      intro t'' hle
      have hwt : nle w.1 t'' := nle_trans h1nle hle
      have hut : nle u.1 t'' := nle_trans hwnle hwt
      have hqt'' : nle q.1 t'' := nle_trans hunle hut
      have hpt'' : nle p.1 t'' := nle_trans hqnle hqt''
      have htt'' : nle t t'' := nle_trans hpnle hpt''
      rw [nmul_sum_cons, nle_get_weight htt'' he0l (i + k)]
      simp only [hpst t'' hpt'', Option.some_bind]
      rw [nle_get_var htt'' he0l, nle_get_var htt'' he1l, if_pos hv]
      rw [show nget_weight t'' e1.v (j + 2 * k) = nget_weight p.1 e1.v (j + 2 * k) from
        (nle_get_weight htt'' he1l _).trans (npool_get_weight hp1 _ _).symm]
      simp only [hqst t'' hqt'', Option.some_bind]
      rw [nle_get_child htt'' he0l (i + k),
        show nget_child t'' e1.v (j + 2 * k) = nget_child p.1 e1.v (j + 2 * k) from
          (nle_get_child htt'' he1l _).trans hcp1.symm]
      simp only [hust t'' hut, Option.some_bind]
      simp only [hwst t'' hwt, Option.some_bind]
      exact h1st t'' hle
    · rw [if_neg hv] at h2
      rcases Option.bind_eq_some.mp h2 with ⟨u, hu, h4⟩
      obtain ⟨⟨hwfu, hunle, hul⟩, hust⟩ :=
        hg p.1 ⟨p.2, nget_child t e0.v (i + k)⟩ e1 1 u.1 u.2 hwfp
          (by rw [hp1]; exact hc0l) (by rw [hp1]; exact he1l)
          (show _ = some (u.1, u.2) from hu)
      have htu : nle t u.1 := nle_trans hpnle hunle
      rcases Option.bind_eq_some.mp h4 with ⟨w, hw, h5⟩
      obtain ⟨⟨hwfw, hwnle, hwl⟩, hwst⟩ :=
        hg u.1 acc u.2 0 w.1 w.2 hwfu
          (lt_of_lt_of_le hal (nle_pool_len htu)) hul
          (show _ = some (w.1, w.2) from hw)
      have htw : nle t w.1 := nle_trans htu hwnle
      obtain ⟨⟨hwf1, h1nle, hzl⟩, h1st⟩ := ih w.1 t1 w.2 z hwfw
        (lt_of_lt_of_le he0l (nle_pool_len htw))
        (lt_of_lt_of_le he1l (nle_pool_len htw))
        hwl h5
      refine ⟨⟨hwf1, nle_trans htw h1nle, hzl⟩, ?_⟩
      intro t'' hle
      have hwt : nle w.1 t'' := nle_trans h1nle hle
      have hut : nle u.1 t'' := nle_trans hwnle hwt
      have hpt'' : nle p.1 t'' := nle_trans hunle hut
      have htt'' : nle t t'' := nle_trans hpnle hpt''
      rw [nmul_sum_cons, nle_get_weight htt'' he0l (i + k)]
      simp only [hpst t'' hpt'', Option.some_bind]
      rw [nle_get_var htt'' he0l, nle_get_var htt'' he1l, if_neg hv]
      rw [nle_get_child htt'' he0l (i + k)]
      simp only [hust t'' hut, Option.some_bind]
      simp only [hwst t'' hwt, Option.some_bind]
      exact h1st t'' hle

theorem nmul_quad_spec {g : NSt → edge → edge → Nat → Option (NSt × edge)}
    (hg : ∀ (t : NSt) (a b : edge) (opc : Nat) (t2 : NSt) (e2 : edge),
      nWFp t → a.v < t.pool.length → b.v < t.pool.length →
      g t a b opc = some (t2, e2) →
      (nWFp t2 ∧ nle t t2 ∧ e2.v < t2.pool.length) ∧
      (∀ t'', nle t2 t'' → g t'' a b opc = some (t'', e2)))
    (e0 e1 : edge) :
    ∀ (ijs : List (Nat × Nat)) (t t1 : NSt) (zs : List edge),
      nWFp t → e0.v < t.pool.length → e1.v < t.pool.length →
      nmul_quad g e0 e1 ijs t = some (t1, zs) →
      (nWFp t1 ∧ nle t t1 ∧ ∀ z ∈ zs, z.v < t1.pool.length) ∧
      (∀ t'', nle t1 t'' → nmul_quad g e0 e1 ijs t'' = some (t'', zs)) := by
  intro ijs
  induction ijs with
  | nil =>
    intro t t1 zs hwf _ _ h
    rw [nmul_quad_nil] at h
    obtain ⟨h1, h2⟩ := Prod.mk.inj (Option.some.inj h)
    subst h1
    subst h2
    exact ⟨⟨hwf, nle_refl t, fun z hz => absurd hz (List.not_mem_nil z)⟩,
      fun t'' _ => by rw [nmul_quad_nil]⟩
  | cons ij ijs ih =>
    intro t t1 zs hwf he0l he1l h
    rw [nmul_quad_cons] at h
    rcases Option.bind_eq_some.mp h with ⟨p, hp, h2⟩
    obtain ⟨⟨hwfp, hpnle, hpl⟩, hpst⟩ :=
      nmul_sum_spec hg e0 e1 ij.1 ij.2 [0, 1] t p.1 ⟨0, 0⟩ p.2 hwf he0l he1l
        hwf.1 (show _ = some (p.1, p.2) from hp)
    rcases Option.bind_eq_some.mp h2 with ⟨q, hq, h3⟩
    obtain ⟨⟨hwfq, hqnle, hqall⟩, hqst⟩ := ih p.1 q.1 q.2 hwfp
      (lt_of_lt_of_le he0l (nle_pool_len hpnle))
      (lt_of_lt_of_le he1l (nle_pool_len hpnle))
      (show _ = some (q.1, q.2) from hq)
    obtain ⟨h6, h7⟩ := Prod.mk.inj (Option.some.inj h3)
    subst h6
    subst h7
    refine ⟨⟨hwfq, nle_trans hpnle hqnle, ?_⟩, ?_⟩
    · intro z hz
      rcases List.mem_cons.mp hz with rfl | hz2
      · exact lt_of_lt_of_le hpl (nle_pool_len hqnle)
      · exact hqall z hz2
    · intro t'' hle
      have hpt'' : nle p.1 t'' := nle_trans hqnle hle
      rw [nmul_quad_cons]
      simp only [hpst t'' hpt'', Option.some_bind]
      simp only [hqst t'' hle, Option.some_bind]

theorem nkro_quad_spec {g : NSt → edge → edge → Nat → Option (NSt × edge)}
    (hg : ∀ (t : NSt) (a b : edge) (opc : Nat) (t2 : NSt) (e2 : edge),
      nWFp t → a.v < t.pool.length → b.v < t.pool.length →
      g t a b opc = some (t2, e2) →
      (nWFp t2 ∧ nle t t2 ∧ e2.v < t2.pool.length) ∧
      (∀ t'', nle t2 t'' → g t'' a b opc = some (t'', e2)))
    (e0 e1 : edge) :
    ∀ (idx : List Nat) (t t1 : NSt) (zs : List edge),
      nWFp t → e0.v < t.pool.length → e1.v < t.pool.length →
      nkro_quad g e0 e1 idx t = some (t1, zs) →
      (nWFp t1 ∧ nle t t1 ∧ ∀ z ∈ zs, z.v < t1.pool.length) ∧
      (∀ t'', nle t1 t'' → nkro_quad g e0 e1 idx t'' = some (t'', zs)) := by
  intro idx
  induction idx with
  | nil =>
    intro t t1 zs hwf _ _ h
    rw [nkro_quad_nil] at h
    obtain ⟨h1, h2⟩ := Prod.mk.inj (Option.some.inj h)
    subst h1
    subst h2
    exact ⟨⟨hwf, nle_refl t, fun z hz => absurd hz (List.not_mem_nil z)⟩,
      fun t'' _ => by rw [nkro_quad_nil]⟩
  | cons i idx ih =>
    intro t t1 zs hwf he0l he1l h
    rw [nkro_quad_cons] at h
    rcases Option.bind_eq_some.mp h with ⟨p, hp, h2⟩
    have hc0l : nget_child t e0.v i < t.pool.length := nchild_ok hwf he0l i
    obtain ⟨⟨hwfp, hpnle, hpl⟩, hpst⟩ :=
      hg t (nEi t e0 i) e1 2 p.1 p.2 hwf hc0l he1l
        (show _ = some (p.1, p.2) from hp)
    rcases Option.bind_eq_some.mp h2 with ⟨q, hq, h3⟩
    obtain ⟨⟨hwfq, hqnle, hqall⟩, hqst⟩ := ih p.1 q.1 q.2 hwfp
      (lt_of_lt_of_le he0l (nle_pool_len hpnle))
      (lt_of_lt_of_le he1l (nle_pool_len hpnle))
      (show _ = some (q.1, q.2) from hq)
    obtain ⟨h6, h7⟩ := Prod.mk.inj (Option.some.inj h3)
    subst h6
    subst h7
    refine ⟨⟨hwfq, nle_trans hpnle hqnle, ?_⟩, ?_⟩
    · intro z hz
      rcases List.mem_cons.mp hz with rfl | hz2
      · exact lt_of_lt_of_le hpl (nle_pool_len hqnle)
      · exact hqall z hz2
    · intro t'' hle
      have hpt'' : nle p.1 t'' := nle_trans hqnle hle
      have htt'' : nle t t'' := nle_trans hpnle hpt''
      rw [nkro_quad_cons]
      rw [show nEi t'' e0 i = nEi t e0 i from by
        rw [nEi, nEi, nle_get_weight htt'' he0l i, nle_get_child htt'' he0l i]]
      simp only [hpst t'' hpt'', Option.some_bind]
      simp only [hqst t'' hle, Option.some_bind]

theorem nrun_spec :
    ∀ (fuel : Nat) (t : NSt) (c : call) (t2 : NSt) (e : edge),
      nWFp t → (ce0 c).v < t.pool.length → (ce1 c).v < t.pool.length →
      nrun fuel t c = some (t2, e) →
      (nWFp t2 ∧ nle t t2 ∧ e.v < t2.pool.length) ∧
      (∀ t'', nle t2 t'' → nrun fuel t'' c = some (t'', e)) := by
  intro fuel
  induction fuel with
  | zero =>
    intro t c t2 e _ _ _ h
    rw [nrun_zero] at h
    cases h
  | succ fuel ih =>
    intro t c t2 e hwf h0l h1l h
    have hg : ∀ (t : NSt) (a b : edge) (opc : Nat) (t2 : NSt) (e2 : edge),
        nWFp t → a.v < t.pool.length → b.v < t.pool.length →
        nrun fuel t (call.ap a b opc) = some (t2, e2) →
        (nWFp t2 ∧ nle t t2 ∧ e2.v < t2.pool.length) ∧
        (∀ t'', nle t2 t'' → nrun fuel t'' (call.ap a b opc) = some (t'', e2)) :=
      fun t a b opc t2 e2 hwf ha hb hc => ih t (call.ap a b opc) t2 e2 hwf ha hb hc
    rw [nrun_succ] at h
    cases c with
    | ap e0 e1 op =>
      replace h0l : e0.v < t.pool.length := h0l
      replace h1l : e1.v < t.pool.length := h1l
      match op, h with
      | 0, h =>
        rw [nrun_step_ap_add] at h
        obtain ⟨hv, hst⟩ := ih t (call.addc e0 e1) t2 e hwf h0l h1l h
        exact ⟨hv, fun t'' hle => by
          rw [nrun_succ, nrun_step_ap_add]
          exact hst t'' hle⟩
      | 1, h =>
        rw [nrun_step_ap_mul] at h
        obtain ⟨hv, hst⟩ := ih t (call.mulc e0 e1) t2 e hwf h0l h1l h
        exact ⟨hv, fun t'' hle => by
          rw [nrun_succ, nrun_step_ap_mul]
          exact hst t'' hle⟩
      | 2, h =>
        rw [nrun_step_ap_kro] at h
        obtain ⟨hv, hst⟩ := ih t (call.kroc e0 e1) t2 e hwf h0l h1l h
        exact ⟨hv, fun t'' hle => by
          rw [nrun_succ, nrun_step_ap_kro]
          exact hst t'' hle⟩
      | (m + 3), h =>
        rw [nrun_step_ap_bad] at h
        cases h
    | addc e0 e1 =>
      replace h0l : e0.v < t.pool.length := h0l
      replace h1l : e1.v < t.pool.length := h1l
      rw [nrun_step_addc] at h
      by_cases hc1 : (term e0 && e0.w = 0) = true
      · rw [if_pos hc1] at h
        obtain ⟨h5, h6⟩ := Prod.mk.inj (Option.some.inj h)
        subst h5
        subst h6
        exact ⟨⟨hwf, nle_refl t, h1l⟩, fun t'' _ => by
          rw [nrun_succ, nrun_step_addc, if_pos hc1]⟩
      · rw [if_neg hc1] at h
        by_cases hc2 : (term e0 && term e1) = true
        · rw [if_pos hc2] at h
          rcases Option.bind_eq_some.mp h with ⟨p, hp, h2⟩
          obtain ⟨hp1, _, _, hpnle, hpst⟩ :=
            napply_weight_spec (show _ = some (p.1, p.2) from hp)
          obtain ⟨h5, h6⟩ := Prod.mk.inj (Option.some.inj h2)
          subst h5
          subst h6
          refine ⟨⟨nWFp_congr hp1 hwf, hpnle, ?_⟩, ?_⟩
          · show (0 : Nat) < p.1.pool.length
            rw [hp1]
            exact hwf.1
          · intro t'' hle
            rw [nrun_succ, nrun_step_addc, if_neg hc1, if_pos hc2]
            simp only [hpst t'' hle, Option.some_bind]
        · rw [if_neg hc2] at h
          by_cases hc3 : nget_var t e0.v > nget_var t e1.v
          · rw [if_pos hc3] at h
            obtain ⟨⟨hwf2, hnle, hel⟩, hst⟩ :=
              ih t (call.addc e1 e0) t2 e hwf h1l h0l h
            refine ⟨⟨hwf2, hnle, hel⟩, ?_⟩
            intro t'' hle
            have htt'' : nle t t'' := nle_trans hnle hle
            rw [nrun_succ, nrun_step_addc, if_neg hc1, if_neg hc2,
              nle_get_var htt'' h0l, nle_get_var htt'' h1l, if_pos hc3]
            exact hst t'' hle
          · rw [if_neg hc3] at h
            rcases Option.bind_eq_some.mp h with ⟨p, hp, h2⟩
            obtain ⟨⟨hwfp, hpnle, hpall⟩, hpst⟩ :=
              nadd_quad_spec hg e0 e1 [0, 1, 2, 3] t p.1 p.2 hwf h0l h1l
                (show _ = some (p.1, p.2) from hp)
            rcases Option.bind_eq_some.mp h2 with ⟨q, hq, h3⟩
            obtain ⟨hq1, _, hqnle, hqst⟩ :=
              nnormalize_weights_spec (show _ = some (q.1, q.2.1, q.2.2) from hq)
            rcases Option.bind_eq_some.mp h3 with ⟨m, hm, h4⟩
            have hch : ∀ c ∈ p.2.map edge.v, c < q.1.pool.length := by
              intro c hc
              rcases List.mem_map.mp hc with ⟨z, hz, rfl⟩
              rw [hq1]
              exact hpall z hz
            obtain ⟨hwfm, hmnle, hml⟩ :=
              nmake_node_wfp (nWFp_congr hq1 hwfp) hch
                (show _ = some (m.1, m.2) from hm)
            obtain ⟨h5, h6⟩ := Prod.mk.inj (Option.some.inj h4)
            subst h5
            subst h6
            refine ⟨⟨hwfm, nle_trans hpnle (nle_trans hqnle hmnle), hml⟩, ?_⟩
            intro t'' hle
            have hqt'' : nle q.1 t'' := nle_trans hmnle hle
            have hpt'' : nle p.1 t'' := nle_trans hqnle hqt''
            have htt'' : nle t t'' := nle_trans hpnle hpt''
            have h0p : e0.v < p.1.pool.length :=
              lt_of_lt_of_le h0l (nle_pool_len hpnle)
            rw [nrun_succ, nrun_step_addc, if_neg hc1, if_neg hc2,
              nle_get_var htt'' h0l, nle_get_var htt'' h1l, if_neg hc3]
            simp only [hpst t'' hpt'', Option.some_bind]
            simp only [hqst t'' hqt'', Option.some_bind]
            rw [nle_get_var hpt'' h0p]
            simp only [nmake_node_stable (show _ = some (m.1, m.2) from hm)
              t'' hle, Option.some_bind]
    | mulc e0 e1 =>
      replace h0l : e0.v < t.pool.length := h0l
      replace h1l : e1.v < t.pool.length := h1l
      rw [nrun_step_mulc] at h
      by_cases hc1 : (term e0 && e0.w = 0) = true
      · rw [if_pos hc1] at h
        obtain ⟨h5, h6⟩ := Prod.mk.inj (Option.some.inj h)
        subst h5
        subst h6
        exact ⟨⟨hwf, nle_refl t, h0l⟩, fun t'' _ => by
          rw [nrun_succ, nrun_step_mulc, if_pos hc1]⟩
      · rw [if_neg hc1] at h
        by_cases hc2 : (term e0 && e0.w = 1) = true
        · rw [if_pos hc2] at h
          obtain ⟨h5, h6⟩ := Prod.mk.inj (Option.some.inj h)
          subst h5
          subst h6
          exact ⟨⟨hwf, nle_refl t, h1l⟩, fun t'' _ => by
            rw [nrun_succ, nrun_step_mulc, if_neg hc1, if_pos hc2]⟩
        · rw [if_neg hc2] at h
          by_cases hc3 : term e0 = true
          · rw [if_pos hc3] at h
            rcases Option.bind_eq_some.mp h with ⟨p, hp, h2⟩
            obtain ⟨hp1, _, _, hpnle, hpst⟩ :=
              napply_weight_spec (show _ = some (p.1, p.2) from hp)
            obtain ⟨h5, h6⟩ := Prod.mk.inj (Option.some.inj h2)
            subst h5
            subst h6
            refine ⟨⟨nWFp_congr hp1 hwf, hpnle, ?_⟩, ?_⟩
            · show e1.v < p.1.pool.length
              rw [hp1]
              exact h1l
            · intro t'' hle
              rw [nrun_succ, nrun_step_mulc, if_neg hc1, if_neg hc2, if_pos hc3]
              simp only [hpst t'' hle, Option.some_bind]
          · rw [if_neg hc3] at h
            by_cases hc4 : nget_var t e0.v > nget_var t e1.v
            · rw [if_pos hc4] at h
              obtain ⟨⟨hwf2, hnle, hel⟩, hst⟩ :=
                ih t (call.addc e1 e0) t2 e hwf h1l h0l h
              refine ⟨⟨hwf2, hnle, hel⟩, ?_⟩
              intro t'' hle
              have htt'' : nle t t'' := nle_trans hnle hle
              rw [nrun_succ, nrun_step_mulc, if_neg hc1, if_neg hc2, if_neg hc3,
                nle_get_var htt'' h0l, nle_get_var htt'' h1l, if_pos hc4]
              exact hst t'' hle
            · rw [if_neg hc4] at h
              rcases Option.bind_eq_some.mp h with ⟨p, hp, h2⟩
              obtain ⟨⟨hwfp, hpnle, hpall⟩, hpst⟩ :=
                nmul_quad_spec hg e0 e1 [(0, 0), (0, 1), (2, 0), (2, 1)] t p.1 p.2
                  hwf h0l h1l (show _ = some (p.1, p.2) from hp)
              rcases Option.bind_eq_some.mp h2 with ⟨q, hq, h3⟩
              obtain ⟨hq1, _, hqnle, hqst⟩ :=
                nnormalize_weights_spec (show _ = some (q.1, q.2.1, q.2.2) from hq)
              rcases Option.bind_eq_some.mp h3 with ⟨m, hm, h4⟩
              have hch : ∀ c ∈ p.2.map edge.v, c < q.1.pool.length := by
                intro c hc
                rcases List.mem_map.mp hc with ⟨z, hz, rfl⟩
                rw [hq1]
                exact hpall z hz
              obtain ⟨hwfm, hmnle, hml⟩ :=
                nmake_node_wfp (nWFp_congr hq1 hwfp) hch
                  (show _ = some (m.1, m.2) from hm)
              obtain ⟨h5, h6⟩ := Prod.mk.inj (Option.some.inj h4)
              subst h5
              subst h6
              refine ⟨⟨hwfm, nle_trans hpnle (nle_trans hqnle hmnle), hml⟩, ?_⟩
              intro t'' hle
              have hqt'' : nle q.1 t'' := nle_trans hmnle hle
              have hpt'' : nle p.1 t'' := nle_trans hqnle hqt''
              have htt'' : nle t t'' := nle_trans hpnle hpt''
              have h0p : e0.v < p.1.pool.length :=
                lt_of_lt_of_le h0l (nle_pool_len hpnle)
              rw [nrun_succ, nrun_step_mulc, if_neg hc1, if_neg hc2, if_neg hc3,
                nle_get_var htt'' h0l, nle_get_var htt'' h1l, if_neg hc4]
              simp only [hpst t'' hpt'', Option.some_bind]
              simp only [hqst t'' hqt'', Option.some_bind]
              rw [nle_get_var hpt'' h0p]
              simp only [nmake_node_stable (show _ = some (m.1, m.2) from hm)
                t'' hle, Option.some_bind]
    | kroc e0 e1 =>
      replace h0l : e0.v < t.pool.length := h0l
      replace h1l : e1.v < t.pool.length := h1l
      rw [nrun_step_kroc] at h
      by_cases hc1 : (term e0 && e0.w = 0) = true
      · rw [if_pos hc1] at h
        obtain ⟨h5, h6⟩ := Prod.mk.inj (Option.some.inj h)
        subst h5
        subst h6
        exact ⟨⟨hwf, nle_refl t, h0l⟩, fun t'' _ => by
          rw [nrun_succ, nrun_step_kroc, if_pos hc1]⟩
      · rw [if_neg hc1] at h
        by_cases hc2 : (term e0 && e0.w = 1) = true
        · rw [if_pos hc2] at h
          obtain ⟨h5, h6⟩ := Prod.mk.inj (Option.some.inj h)
          subst h5
          subst h6
          exact ⟨⟨hwf, nle_refl t, h1l⟩, fun t'' _ => by
            rw [nrun_succ, nrun_step_kroc, if_neg hc1, if_pos hc2]⟩
        · rw [if_neg hc2] at h
          by_cases hc3 : term e0 = true
          · rw [if_pos hc3] at h
            rcases Option.bind_eq_some.mp h with ⟨p, hp, h2⟩
            obtain ⟨hp1, _, _, hpnle, hpst⟩ :=
              napply_weight_spec (show _ = some (p.1, p.2) from hp)
            obtain ⟨h5, h6⟩ := Prod.mk.inj (Option.some.inj h2)
            subst h5
            subst h6
            refine ⟨⟨nWFp_congr hp1 hwf, hpnle, ?_⟩, ?_⟩
            · show e1.v < p.1.pool.length
              rw [hp1]
              exact h1l
            · intro t'' hle
              rw [nrun_succ, nrun_step_kroc, if_neg hc1, if_neg hc2, if_pos hc3]
              simp only [hpst t'' hle, Option.some_bind]
          · rw [if_neg hc3] at h
            by_cases hc4 : nget_var t e0.v < nget_var t e1.v
            · rw [if_pos hc4] at h
              rcases Option.bind_eq_some.mp h with ⟨p, hp, h2⟩
              obtain ⟨⟨hwfp, hpnle, hpall⟩, hpst⟩ :=
                nkro_quad_spec hg e0 e1 [0, 1, 2, 3] t p.1 p.2 hwf h0l h1l
                  (show _ = some (p.1, p.2) from hp)
              rcases Option.bind_eq_some.mp h2 with ⟨q, hq, h3⟩
              obtain ⟨hq1, _, hqnle, hqst⟩ :=
                nnormalize_weights_spec (show _ = some (q.1, q.2.1, q.2.2) from hq)
              rcases Option.bind_eq_some.mp h3 with ⟨r, hr, h4⟩
              obtain ⟨hr1, _, _, hrnle, hrst⟩ :=
                napply_weight_spec (show _ = some (r.1, r.2) from hr)
              rcases Option.bind_eq_some.mp h4 with ⟨m, hm, h5⟩
              have hch : ∀ c ∈ p.2.map edge.v, c < r.1.pool.length := by
                intro c hc
                rcases List.mem_map.mp hc with ⟨z, hz, rfl⟩
                rw [hr1, hq1]
                exact hpall z hz
              obtain ⟨hwfm, hmnle, hml⟩ :=
                nmake_node_wfp (nWFp_congr (hr1.trans hq1) hwfp) hch
                  (show _ = some (m.1, m.2) from hm)
              obtain ⟨h6, h7⟩ := Prod.mk.inj (Option.some.inj h5)
              subst h6
              subst h7
              refine ⟨⟨hwfm,
                nle_trans hpnle (nle_trans hqnle (nle_trans hrnle hmnle)),
                hml⟩, ?_⟩
              intro t'' hle
              have hrt'' : nle r.1 t'' := nle_trans hmnle hle
              have hqt'' : nle q.1 t'' := nle_trans hrnle hrt''
              have hpt'' : nle p.1 t'' := nle_trans hqnle hqt''
              have htt'' : nle t t'' := nle_trans hpnle hpt''
              have h0p : e0.v < p.1.pool.length :=
                lt_of_lt_of_le h0l (nle_pool_len hpnle)
              rw [nrun_succ, nrun_step_kroc, if_neg hc1, if_neg hc2, if_neg hc3,
                nle_get_var htt'' h0l, nle_get_var htt'' h1l, if_pos hc4]
              simp only [hpst t'' hpt'', Option.some_bind]
              simp only [hqst t'' hqt'', Option.some_bind]
              simp only [hrst t'' hrt'', Option.some_bind]
              rw [nle_get_var hpt'' h0p]
              simp only [nmake_node_stable (show _ = some (m.1, m.2) from hm)
                t'' hle, Option.some_bind]
            · rw [if_neg hc4] at h
              cases h

theorem nget_var_nst (s : St) (h : Nat) : nget_var (nst s) h = get_var s h := rfl

theorem nget_child_nst (s : St) (h i : Nat) :
    nget_child (nst s) h i = get_child s h i := rfl

theorem nget_weight_nst (s : St) (h i : Nat) :
    nget_weight (nst s) h i = get_weight s h i := rfl

theorem wtabOK_mono {s s' : St} (hw : s'.wtab = s.wtab)
    (hle : nle (nst s) (nst s')) (hok : wtabOK s) : wtabOK s' := by
  intro kv hkv
  rw [hw] at hkv
  obtain ⟨_, _, _, _, hst⟩ := napply_weight_spec (hok kv hkv)
  exact hst (nst s') hle

theorem ctabOK_mono {s s' : St} (hc : s'.ctab = s.ctab)
    (hwf : nWFp (nst s)) (hle : nle (nst s) (nst s')) (hok : ctabOK s) :
    ctabOK s' := by
  intro kv hkv
  rw [hc] at hkv
  obtain ⟨h0, h1, fuel, hrun⟩ := hok kv hkv
  have hplen : s.pool.length ≤ s'.pool.length := nle_pool_len hle
  refine ⟨lt_of_lt_of_le h0 hplen, lt_of_lt_of_le h1 hplen, fuel, ?_⟩
  obtain ⟨_, hst⟩ := nrun_spec fuel (nst s) (call.ap kv.2.e0 kv.2.e1 kv.2.op)
    (nst s) kv.2.result hwf h0 h1 hrun
  exact hst (nst s') hle

theorem apply_weight_eq (s : St) (w0 w1 op : Nat) :
    apply_weight s w0 w1 op =
      if wt_find s.wtab w0 w1 op ≠ invalid_value then
        some (s, wt_find s.wtab w0 w1 op)
      else
        (s.wlist.get? w0).bind fun x =>
          (s.wlist.get? w1).bind fun y =>
            (weight_op_eval x y op).bind fun nw =>
              some ({ s with wlist := (uw_insert s.wlist nw).2, wtab := aset s.wtab (wkey w0 w1 op) ⟨w0, w1, op, (uw_insert s.wlist nw).1⟩ }, (uw_insert s.wlist nw).1) := rfl

theorem apply_weight_nc {s : St} {w0 w1 op : Nat} {s' : St} {h : Nat}
    (hok : wtabOK s) (hw : apply_weight s w0 w1 op = some (s', h)) :
    s'.pool = s.pool ∧ s'.table = s.table ∧ s'.ctab = s.ctab ∧
    wtabOK s' ∧ napply_weight (nst s) w0 w1 op = some (nst s', h) := by
  by_cases hf : wt_find s.wtab w0 w1 op = invalid_value
  · rw [apply_weight_eq, if_neg (not_not_intro hf)] at hw
    rcases Option.bind_eq_some.mp hw with ⟨x, hx, hw3⟩
    rcases Option.bind_eq_some.mp hw3 with ⟨y, hy, hw4⟩
    rcases Option.bind_eq_some.mp hw4 with ⟨nw, hnw, hw5⟩
    obtain ⟨h5, h6⟩ := Prod.mk.inj (Option.some.inj hw5)
    have hxn : (nst s).wlist.get? w0 = some x := hx
    have hyn : (nst s).wlist.get? w1 = some y := hy
    have heq : napply_weight (nst s) w0 w1 op =
        some ({ nst s with wlist := (uw_insert s.wlist nw).2 },
          (uw_insert s.wlist nw).1) := by
      simp only [napply_weight, Option.bind_eq_bind, hxn, Option.some_bind,
        hyn, hnw]
      rfl
    have hs' : nst s' = { nst s with wlist := (uw_insert s.wlist nw).2 } := by
      rw [← h5]
      rfl
    have hnap : napply_weight (nst s) w0 w1 op = some (nst s', h) := by
      rw [heq, hs', h6]
    obtain ⟨_, _, _, hnle, hnst⟩ := napply_weight_spec hnap
    have hwtab : s'.wtab = aset s.wtab (wkey w0 w1 op) ⟨w0, w1, op, h⟩ := by
      rw [← h5, ← h6]
    refine ⟨by rw [← h5], by rw [← h5], by rw [← h5], ?_, hnap⟩
    intro kv hkv
    rw [hwtab] at hkv
    rcases aset_mem hkv with rfl | hold
    · exact hnst (nst s') (nle_refl _)
    · obtain ⟨_, _, _, _, hst⟩ := napply_weight_spec (hok kv hold)
      exact hst (nst s') hnle
  · have happ : apply_weight s w0 w1 op = some (s, wt_find s.wtab w0 w1 op) := by
      simp only [apply_weight, ne_eq, hf, not_false_iff, if_true]
    rw [happ] at hw
    obtain ⟨h5, h6⟩ := Prod.mk.inj (Option.some.inj hw)
    subst h5
    obtain ⟨kv, hmem, he0, he1, he2, her⟩ := wt_find_ne_invalid hf
    have hk := hok kv hmem
    rw [he0, he1, he2, her, h6] at hk
    exact ⟨rfl, rfl, rfl, hok, hk⟩

theorem ut_probe_nc :
    ∀ (fuel : Nat) {n : node} {key : Nat} {s : St} {h : Nat} {s2 : St},
      ut_probe n fuel key s = some (h, s2) →
      s2.ctab = s.ctab ∧ s2.wtab = s.wtab ∧ s2.wlist = s.wlist ∧
      nut_probe n fuel key (nst s) = some (h, nst s2) := by
  intro fuel
  induction fuel with
  | zero =>
    intro n key s h s2 hp
    rw [ut_probe_zero] at hp
    cases hp
  | succ fuel ih =>
    intro n key s h s2 hp
    rw [ut_probe_succ] at hp
    rw [nut_probe_succ]
    cases hg : aget s.table key with
    | none =>
      simp only [hg] at hp
      have hgn : aget (nst s).table key = none := hg
      simp only [hgn]
      by_cases hcap : s.pool.length ≥ ddcapacity
      · rw [if_pos hcap] at hp
        cases hp
      · rw [if_neg hcap] at hp
        obtain ⟨h1, h2⟩ := Prod.mk.inj (Option.some.inj hp)
        subst h2
        subst h1
        have hcap' : ¬ (nst s).pool.length ≥ ddcapacity := hcap
        rw [if_neg hcap']
        exact ⟨rfl, rfl, rfl, rfl⟩
    | some h0 =>
      simp only [hg] at hp
      have hgn : aget (nst s).table key = some h0 := hg
      simp only [hgn]
      cases hm : s.pool.get? h0 with
      | none =>
        simp only [hm] at hp
        cases hp
      | some m =>
        simp only [hm] at hp
        have hmn : (nst s).pool.get? h0 = some m := hm
        simp only [hmn]
        by_cases hmn2 : m = n
        · rw [if_pos hmn2] at hp
          obtain ⟨h1, h2⟩ := Prod.mk.inj (Option.some.inj hp)
          subst h2
          subst h1
          rw [if_pos hmn2]
          exact ⟨rfl, rfl, rfl, rfl⟩
        · rw [if_neg hmn2] at hp
          obtain ⟨hc, hw, hl, hn⟩ := ih hp
          rw [if_neg hmn2]
          exact ⟨hc, hw, hl, hn⟩

theorem make_node_nc {s : St} {var : Nat} {ch ws : List Nat} {h : Nat} {s2 : St}
    (hmk : make_node s var ch ws = some (h, s2)) :
    s2.ctab = s.ctab ∧ s2.wtab = s.wtab ∧ s2.wlist = s.wlist ∧
    nmake_node (nst s) var ch ws = some (h, nst s2) := by
  unfold make_node at hmk
  unfold nmake_node
  split at hmk
  · rename_i hcol
    rw [if_pos hcol]
    split at hmk
    · rename_i c hc
      obtain ⟨h1, h2⟩ := Prod.mk.inj (Option.some.inj hmk)
      subst h2
      subst h1
      refine ⟨rfl, rfl, rfl, ?_⟩
      simp only [hc]
    · cases hmk
  · rename_i hcol
    rw [if_neg hcol]
    unfold ut_insert at hmk
    obtain ⟨hc, hw, hl, hn⟩ := ut_probe_nc _ hmk
    exact ⟨hc, hw, hl, hn⟩

theorem nmake_node_nle {t : NSt} {var : Nat} {ch ws : List Nat} {h : Nat}
    {t2 : NSt} (hmk : nmake_node t var ch ws = some (h, t2)) : nle t t2 := by
  rcases nmake_node_cases hmk with ⟨_, _, rfl⟩ | ⟨_, hins⟩
  · exact nle_refl _
  · unfold nut_insert at hins
    exact nut_probe_nle hins

theorem normalize_rest_nc :
    ∀ {rest : List Nat} {f : Nat} {s s2 : St} {out : List Nat},
      wtabOK s → normalize_rest f rest s = some (s2, out) →
      s2.pool = s.pool ∧ s2.table = s.table ∧ s2.ctab = s.ctab ∧ wtabOK s2 ∧
      nnormalize_rest f rest (nst s) = some (nst s2, out) := by
  intro rest
  induction rest with
  | nil =>
    intro f s s2 out hok h
    rw [normalize_rest_nil] at h
    obtain ⟨h1, h2⟩ := Prod.mk.inj (Option.some.inj h)
    subst h1
    subst h2
    exact ⟨rfl, rfl, rfl, hok, by rw [nnormalize_rest_nil]⟩
  | cons w rest ih =>
    intro f s s2 out hok h
    rw [normalize_rest_cons] at h
    rw [nnormalize_rest_cons]
    split at h
    · rename_i hwne
      rcases Option.bind_eq_some.mp h with ⟨p, hp, h2⟩
      rcases Option.bind_eq_some.mp h2 with ⟨q, hq, h3⟩
      obtain ⟨h5, h6⟩ := Prod.mk.inj (Option.some.inj h3)
      subst h5
      subst h6
      obtain ⟨hp1, hp2, hp3, hwtp, hnap⟩ :=
        apply_weight_nc hok (show _ = some (p.1, p.2) from hp)
      obtain ⟨hq1, hq2, hq3, hwtq, hnq⟩ :=
        ih hwtp (show _ = some (q.1, q.2) from hq)
      refine ⟨hq1.trans hp1, hq2.trans hp2, hq3.trans hp3, hwtq, ?_⟩
      rw [if_pos hwne]
      simp only [hnap, Option.some_bind, hnq]
    · rename_i hwne
      rcases Option.bind_eq_some.mp h with ⟨q, hq, h3⟩
      obtain ⟨h5, h6⟩ := Prod.mk.inj (Option.some.inj h3)
      subst h5
      subst h6
      obtain ⟨hq1, hq2, hq3, hwtq, hnq⟩ :=
        ih hok (show _ = some (q.1, q.2) from hq)
      refine ⟨hq1, hq2, hq3, hwtq, ?_⟩
      rw [if_neg hwne]
      simp only [hnq, Option.some_bind]

theorem normalize_weights_nc :
    ∀ {slots : List Nat} {s s2 : St} {f : Nat} {out : List Nat},
      wtabOK s → normalize_weights slots s = some (s2, f, out) →
      s2.pool = s.pool ∧ s2.table = s.table ∧ s2.ctab = s.ctab ∧ wtabOK s2 ∧
      nnormalize_weights slots (nst s) = some (nst s2, f, out) := by
  intro slots
  induction slots with
  | nil =>
    intro s s2 f out hok h
    rw [normalize_weights_nil] at h
    obtain ⟨h1, h2⟩ := Prod.mk.inj (Option.some.inj h)
    subst h1
    obtain ⟨h3, h4⟩ := Prod.mk.inj h2
    subst h3
    subst h4
    exact ⟨rfl, rfl, rfl, hok, by rw [nnormalize_weights_nil]⟩
  | cons w rest ih =>
    intro s s2 f out hok h
    rw [normalize_weights_cons] at h
    rw [nnormalize_weights_cons]
    split at h
    · rename_i hw0
      rcases Option.bind_eq_some.mp h with ⟨q, hq, h3⟩
      obtain ⟨h5, h6⟩ := Prod.mk.inj (Option.some.inj h3)
      subst h5
      obtain ⟨h7, h8⟩ := Prod.mk.inj h6
      subst h7
      subst h8
      obtain ⟨hq1, hq2, hq3, hwtq, hnq⟩ :=
        ih hok (show _ = some (q.1, q.2.1, q.2.2) from hq)
      refine ⟨hq1, hq2, hq3, hwtq, ?_⟩
      rw [if_pos hw0]
      simp only [hnq, Option.some_bind]
    · rename_i hw0
      rcases Option.bind_eq_some.mp h with ⟨q, hq, h3⟩
      obtain ⟨h5, h6⟩ := Prod.mk.inj (Option.some.inj h3)
      subst h5
      obtain ⟨h7, h8⟩ := Prod.mk.inj h6
      subst h7
      subst h8
      obtain ⟨hq1, hq2, hq3, hwtq, hnq⟩ :=
        normalize_rest_nc hok (show _ = some (q.1, q.2) from hq)
      refine ⟨hq1, hq2, hq3, hwtq, ?_⟩
      rw [if_neg hw0]
      simp only [hnq, Option.some_bind]

theorem nEi_nst (s : St) (e : edge) (i : Nat) : nEi (nst s) e i = Ei s e i := rfl

theorem add_quad_nc {g : St → edge → edge → Nat → Option (St × edge)}
    (hgc : ∀ (s : St) (a b : edge) (opc : Nat) (s2 : St) (e2 : edge),
      nWFp (nst s) → a.v < s.pool.length → b.v < s.pool.length →
      wtabOK s → ctabOK s →
      g s a b opc = some (s2, e2) →
      wtabOK s2 ∧ ctabOK s2 ∧
      ∃ fuel, nrun fuel (nst s) (call.ap a b opc) = some (nst s2, e2))
    (e0 e1 : edge) :
    ∀ (idx : List Nat) (s s2 : St) (zs : List edge),
      nWFp (nst s) → e0.v < s.pool.length → e1.v < s.pool.length →
      wtabOK s → ctabOK s →
      add_quad g e0 e1 idx s = some (s2, zs) →
      wtabOK s2 ∧ ctabOK s2 ∧
      ∃ fuel, nadd_quad (fun t a b op => nrun fuel t (call.ap a b op)) e0 e1
        idx (nst s) = some (nst s2, zs) := by
  intro idx
  induction idx with
  | nil =>
    intro s s2 zs _ _ _ hwt hct h
    rw [add_quad_nil] at h
    obtain ⟨h1, h2⟩ := Prod.mk.inj (Option.some.inj h)
    subst h1
    subst h2
    exact ⟨hwt, hct, 0, by rw [nadd_quad_nil]⟩
  | cons i idx ih =>
    intro s s2 zs hwf he0l he1l hwt hct h
    rw [add_quad_cons] at h
    rcases Option.bind_eq_some.mp h with ⟨p, hp, h2⟩
    obtain ⟨hp1, hp2, hp3, hwtp, hnap⟩ :=
      apply_weight_nc hwt (show _ = some (p.1, p.2) from hp)
    obtain ⟨_, _, _, hpnle, _⟩ := napply_weight_spec hnap
    have hwfp : nWFp (nst p.1) :=
      nWFp_congr (show (nst p.1).pool = (nst s).pool from hp1) hwf
    have hctp : ctabOK p.1 := ctabOK_mono hp3 hwf hpnle hct
    have hc0l : get_child s e0.v i < s.pool.length := nchild_ok hwf he0l i
    by_cases hv : get_var s e0.v = get_var s e1.v
    · rw [if_pos hv] at h2
      rcases Option.bind_eq_some.mp h2 with ⟨q, hq, h3⟩
      obtain ⟨hq1, hq2, hq3, hwtq, hnapq⟩ :=
        apply_weight_nc hwtp (show _ = some (q.1, q.2) from hq)
      obtain ⟨_, _, _, hqnle, _⟩ := napply_weight_spec hnapq
      have hqs : q.1.pool = s.pool := hq1.trans hp1
      have hwfq : nWFp (nst q.1) :=
        nWFp_congr (show (nst q.1).pool = (nst s).pool from hqs) hwf
      have hctq : ctabOK q.1 := ctabOK_mono hq3 hwfp hqnle hctp
      have hc1l : get_child s e1.v i < s.pool.length := nchild_ok hwf he1l i
      have hcp1 : get_child p.1 e1.v i = get_child s e1.v i :=
        npool_get_child (show (nst p.1).pool = (nst s).pool from hp1) e1.v i
      rcases Option.bind_eq_some.mp h3 with ⟨u, hu, h4⟩
      have ha' : (⟨p.2, get_child s e0.v i⟩ : edge).v < q.1.pool.length := by
        rw [hqs]
        exact hc0l
      have hb' : (⟨q.2, get_child p.1 e1.v i⟩ : edge).v < q.1.pool.length := by
        rw [hqs]
        show get_child p.1 e1.v i < s.pool.length
        rw [hcp1]
        exact hc1l
      obtain ⟨hwtu, hctu, F1, hru⟩ :=
        hgc q.1 ⟨p.2, get_child s e0.v i⟩ ⟨q.2, get_child p.1 e1.v i⟩ 0 u.1 u.2
          hwfq ha' hb' hwtq hctq (show _ = some (u.1, u.2) from hu)
      obtain ⟨⟨hwfu, hunle, _⟩, _⟩ :=
        nrun_spec F1 (nst q.1) (call.ap ⟨p.2, get_child s e0.v i⟩
            ⟨q.2, get_child p.1 e1.v i⟩ 0) (nst u.1) u.2 hwfq ha' hb' hru
      have hus : s.pool.length ≤ u.1.pool.length := by
        have h' : q.1.pool.length ≤ u.1.pool.length := nle_pool_len hunle
        rw [hqs] at h'
        exact h'
      rcases Option.bind_eq_some.mp h4 with ⟨v, hv2, h5⟩
      obtain ⟨hwt2, hct2, FR, hvr⟩ := ih u.1 v.1 v.2 hwfu
        (lt_of_lt_of_le he0l hus) (lt_of_lt_of_le he1l hus) hwtu hctu
        (show _ = some (v.1, v.2) from hv2)
      obtain ⟨h6, h7⟩ := Prod.mk.inj (Option.some.inj h5)
      subst h6
      subst h7
      refine ⟨hwt2, hct2, max F1 FR, ?_⟩
      rw [nadd_quad_cons, nget_weight_nst s e0.v i]
      simp only [hnap, Option.some_bind]
      rw [nget_var_nst s e0.v, nget_var_nst s e1.v, if_pos hv,
        nget_weight_nst p.1 e1.v i]
      simp only [hnapq, Option.some_bind]
      rw [nget_child_nst s e0.v i, nget_child_nst p.1 e1.v i]
      simp only [nrun_mono (le_max_left F1 FR) hru, Option.some_bind]
      simp only [nadd_quad_mono
        (fun t a b opc r hr => nrun_mono (le_max_right F1 FR) hr) e0 e1 idx
        (nst u.1) (nst v.1, v.2) hvr, Option.some_bind]
    · rw [if_neg hv] at h2
      rcases Option.bind_eq_some.mp h2 with ⟨u, hu, h4⟩
      have ha' : (⟨p.2, get_child s e0.v i⟩ : edge).v < p.1.pool.length := by
        rw [hp1]
        exact hc0l
      have hb' : e1.v < p.1.pool.length := by
        rw [hp1]
        exact he1l
      obtain ⟨hwtu, hctu, F1, hru⟩ :=
        hgc p.1 ⟨p.2, get_child s e0.v i⟩ e1 0 u.1 u.2
          hwfp ha' hb' hwtp hctp (show _ = some (u.1, u.2) from hu)
      obtain ⟨⟨hwfu, hunle, _⟩, _⟩ :=
        nrun_spec F1 (nst p.1) (call.ap ⟨p.2, get_child s e0.v i⟩ e1 0)
          (nst u.1) u.2 hwfp ha' hb' hru
      have hus : s.pool.length ≤ u.1.pool.length := by
        have h' : p.1.pool.length ≤ u.1.pool.length := nle_pool_len hunle
        rw [hp1] at h'
        exact h'
      rcases Option.bind_eq_some.mp h4 with ⟨v, hv2, h5⟩
      obtain ⟨hwt2, hct2, FR, hvr⟩ := ih u.1 v.1 v.2 hwfu
        (lt_of_lt_of_le he0l hus) (lt_of_lt_of_le he1l hus) hwtu hctu
        (show _ = some (v.1, v.2) from hv2)
      obtain ⟨h6, h7⟩ := Prod.mk.inj (Option.some.inj h5)
      subst h6
      subst h7
      refine ⟨hwt2, hct2, max F1 FR, ?_⟩
      rw [nadd_quad_cons, nget_weight_nst s e0.v i]
      simp only [hnap, Option.some_bind]
      rw [nget_var_nst s e0.v, nget_var_nst s e1.v, if_neg hv,
        nget_child_nst s e0.v i]
      simp only [nrun_mono (le_max_left F1 FR) hru, Option.some_bind]
      simp only [nadd_quad_mono
        (fun t a b opc r hr => nrun_mono (le_max_right F1 FR) hr) e0 e1 idx
        (nst u.1) (nst v.1, v.2) hvr, Option.some_bind]

theorem mul_sum_nc {g : St → edge → edge → Nat → Option (St × edge)}
    (hgc : ∀ (s : St) (a b : edge) (opc : Nat) (s2 : St) (e2 : edge),
      nWFp (nst s) → a.v < s.pool.length → b.v < s.pool.length →
      wtabOK s → ctabOK s →
      g s a b opc = some (s2, e2) →
      wtabOK s2 ∧ ctabOK s2 ∧
      ∃ fuel, nrun fuel (nst s) (call.ap a b opc) = some (nst s2, e2))
    (e0 e1 : edge) (i j : Nat) :
    ∀ (ks : List Nat) (s s2 : St) (acc z : edge),
      nWFp (nst s) → e0.v < s.pool.length → e1.v < s.pool.length →
      acc.v < s.pool.length →
      wtabOK s → ctabOK s →
      mul_sum g e0 e1 i j ks s acc = some (s2, z) →
      wtabOK s2 ∧ ctabOK s2 ∧
      ∃ fuel, nmul_sum (fun t a b op => nrun fuel t (call.ap a b op)) e0 e1
        i j ks (nst s) acc = some (nst s2, z) := by
  intro ks
  induction ks with
  | nil =>
    intro s s2 acc z _ _ _ _ hwt hct h
    rw [mul_sum_nil] at h
    obtain ⟨h1, h2⟩ := Prod.mk.inj (Option.some.inj h)
    subst h1
    subst h2
    exact ⟨hwt, hct, 0, by rw [nmul_sum_nil]⟩
  | cons k ks ih =>
    intro s s2 acc z hwf he0l he1l hal hwt hct h
    rw [mul_sum_cons] at h
    rcases Option.bind_eq_some.mp h with ⟨p, hp, h2⟩
    obtain ⟨hp1, hp2, hp3, hwtp, hnap⟩ :=
      apply_weight_nc hwt (show _ = some (p.1, p.2) from hp)
    obtain ⟨_, _, _, hpnle, _⟩ := napply_weight_spec hnap
    have hwfp : nWFp (nst p.1) :=
      nWFp_congr (show (nst p.1).pool = (nst s).pool from hp1) hwf
    have hctp : ctabOK p.1 := ctabOK_mono hp3 hwf hpnle hct
    have hc0l : get_child s e0.v (i + k) < s.pool.length := nchild_ok hwf he0l _
    by_cases hv : get_var s e0.v = get_var s e1.v
    · rw [if_pos hv] at h2
      rcases Option.bind_eq_some.mp h2 with ⟨q, hq, h3⟩
      obtain ⟨hq1, hq2, hq3, hwtq, hnapq⟩ :=
        apply_weight_nc hwtp (show _ = some (q.1, q.2) from hq)
      obtain ⟨_, _, _, hqnle, _⟩ := napply_weight_spec hnapq
      have hqs : q.1.pool = s.pool := hq1.trans hp1
      have hwfq : nWFp (nst q.1) :=
        nWFp_congr (show (nst q.1).pool = (nst s).pool from hqs) hwf
      have hctq : ctabOK q.1 := ctabOK_mono hq3 hwfp hqnle hctp
      have hc1l : get_child s e1.v (j + 2 * k) < s.pool.length :=
        nchild_ok hwf he1l _
      have hcp1 : get_child p.1 e1.v (j + 2 * k) = get_child s e1.v (j + 2 * k) :=
        npool_get_child (show (nst p.1).pool = (nst s).pool from hp1) e1.v _
      rcases Option.bind_eq_some.mp h3 with ⟨u, hu, h4⟩
      have ha' : (⟨p.2, get_child s e0.v (i + k)⟩ : edge).v < q.1.pool.length := by
        rw [hqs]
        exact hc0l
      have hb' : (⟨q.2, get_child p.1 e1.v (j + 2 * k)⟩ : edge).v <
          q.1.pool.length := by
        rw [hqs]
        show get_child p.1 e1.v (j + 2 * k) < s.pool.length
        rw [hcp1]
        exact hc1l
      obtain ⟨hwtu, hctu, F1, hru⟩ :=
        hgc q.1 ⟨p.2, get_child s e0.v (i + k)⟩
          ⟨q.2, get_child p.1 e1.v (j + 2 * k)⟩ 1 u.1 u.2
          hwfq ha' hb' hwtq hctq (show _ = some (u.1, u.2) from hu)
      obtain ⟨⟨hwfu, hunle, hul⟩, _⟩ :=
        nrun_spec F1 (nst q.1) (call.ap ⟨p.2, get_child s e0.v (i + k)⟩
            ⟨q.2, get_child p.1 e1.v (j + 2 * k)⟩ 1) (nst u.1) u.2 hwfq
          ha' hb' hru
      have hus : s.pool.length ≤ u.1.pool.length := by
        have h' : q.1.pool.length ≤ u.1.pool.length := nle_pool_len hunle
        rw [hqs] at h'
        exact h'
      rcases Option.bind_eq_some.mp h4 with ⟨w, hw, h5⟩
      obtain ⟨hwtw, hctw, F2, hrw⟩ :=
        hgc u.1 acc u.2 0 w.1 w.2 hwfu
          (lt_of_lt_of_le hal hus) hul hwtu hctu
          (show _ = some (w.1, w.2) from hw)
      obtain ⟨⟨hwfw, hwnle, hwl⟩, _⟩ :=
        nrun_spec F2 (nst u.1) (call.ap acc u.2 0) (nst w.1) w.2 hwfu
          (lt_of_lt_of_le hal hus) hul hrw
      have hws : s.pool.length ≤ w.1.pool.length :=
        le_trans hus (nle_pool_len hwnle)
      obtain ⟨hwt2, hct2, FR, hvr⟩ := ih w.1 s2 w.2 z hwfw
        (lt_of_lt_of_le he0l hws) (lt_of_lt_of_le he1l hws) hwl hwtw hctw h5
      refine ⟨hwt2, hct2, max F1 (max F2 FR), ?_⟩
      rw [nmul_sum_cons, nget_weight_nst s e0.v (i + k)]
      simp only [hnap, Option.some_bind]
      rw [nget_var_nst s e0.v, nget_var_nst s e1.v, if_pos hv,
        nget_weight_nst p.1 e1.v (j + 2 * k)]
      simp only [hnapq, Option.some_bind]
      rw [nget_child_nst s e0.v (i + k), nget_child_nst p.1 e1.v (j + 2 * k)]
      simp only [nrun_mono (le_max_left F1 (max F2 FR)) hru, Option.some_bind]
      simp only [nrun_mono (le_trans (le_max_left F2 FR)
        (le_max_right F1 (max F2 FR))) hrw, Option.some_bind]
      exact nmul_sum_mono
        (fun t a b opc r hr => nrun_mono (le_trans (le_max_right F2 FR)
          (le_max_right F1 (max F2 FR))) hr) e0 e1 i j ks (nst w.1) w.2
        (nst s2, z) hvr
    · rw [if_neg hv] at h2
      rcases Option.bind_eq_some.mp h2 with ⟨u, hu, h4⟩
      have ha' : (⟨p.2, get_child s e0.v (i + k)⟩ : edge).v <
          p.1.pool.length := by
        rw [hp1]
        exact hc0l
      have hb' : e1.v < p.1.pool.length := by
        rw [hp1]
        exact he1l
      obtain ⟨hwtu, hctu, F1, hru⟩ :=
        hgc p.1 ⟨p.2, get_child s e0.v (i + k)⟩ e1 1 u.1 u.2
          hwfp ha' hb' hwtp hctp (show _ = some (u.1, u.2) from hu)
      obtain ⟨⟨hwfu, hunle, hul⟩, _⟩ :=
        nrun_spec F1 (nst p.1) (call.ap ⟨p.2, get_child s e0.v (i + k)⟩ e1 1)
          (nst u.1) u.2 hwfp ha' hb' hru
      have hus : s.pool.length ≤ u.1.pool.length := by
        have h' : p.1.pool.length ≤ u.1.pool.length := nle_pool_len hunle
        rw [hp1] at h'
        exact h'
      rcases Option.bind_eq_some.mp h4 with ⟨w, hw, h5⟩
      obtain ⟨hwtw, hctw, F2, hrw⟩ :=
        hgc u.1 acc u.2 0 w.1 w.2 hwfu
          (lt_of_lt_of_le hal hus) hul hwtu hctu
          (show _ = some (w.1, w.2) from hw)
      obtain ⟨⟨hwfw, hwnle, hwl⟩, _⟩ :=
        nrun_spec F2 (nst u.1) (call.ap acc u.2 0) (nst w.1) w.2 hwfu
          (lt_of_lt_of_le hal hus) hul hrw
      have hws : s.pool.length ≤ w.1.pool.length :=
        le_trans hus (nle_pool_len hwnle)
      obtain ⟨hwt2, hct2, FR, hvr⟩ := ih w.1 s2 w.2 z hwfw
        (lt_of_lt_of_le he0l hws) (lt_of_lt_of_le he1l hws) hwl hwtw hctw h5
      refine ⟨hwt2, hct2, max F1 (max F2 FR), ?_⟩
      rw [nmul_sum_cons, nget_weight_nst s e0.v (i + k)]
      simp only [hnap, Option.some_bind]
      rw [nget_var_nst s e0.v, nget_var_nst s e1.v, if_neg hv,
        nget_child_nst s e0.v (i + k)]
      simp only [nrun_mono (le_max_left F1 (max F2 FR)) hru, Option.some_bind]
      simp only [nrun_mono (le_trans (le_max_left F2 FR)
        (le_max_right F1 (max F2 FR))) hrw, Option.some_bind]
      exact nmul_sum_mono
        (fun t a b opc r hr => nrun_mono (le_trans (le_max_right F2 FR)
          (le_max_right F1 (max F2 FR))) hr) e0 e1 i j ks (nst w.1) w.2
        (nst s2, z) hvr

theorem mul_quad_nc {g : St → edge → edge → Nat → Option (St × edge)}
    (hgc : ∀ (s : St) (a b : edge) (opc : Nat) (s2 : St) (e2 : edge),
      nWFp (nst s) → a.v < s.pool.length → b.v < s.pool.length →
      wtabOK s → ctabOK s →
      g s a b opc = some (s2, e2) →
      wtabOK s2 ∧ ctabOK s2 ∧
      ∃ fuel, nrun fuel (nst s) (call.ap a b opc) = some (nst s2, e2))
    (e0 e1 : edge) :
    ∀ (ijs : List (Nat × Nat)) (s s2 : St) (zs : List edge),
      nWFp (nst s) → e0.v < s.pool.length → e1.v < s.pool.length →
      wtabOK s → ctabOK s →
      mul_quad g e0 e1 ijs s = some (s2, zs) →
      wtabOK s2 ∧ ctabOK s2 ∧
      ∃ fuel, nmul_quad (fun t a b op => nrun fuel t (call.ap a b op)) e0 e1
        ijs (nst s) = some (nst s2, zs) := by
  intro ijs
  induction ijs with
  | nil =>
    intro s s2 zs _ _ _ hwt hct h
    rw [mul_quad_nil] at h
    obtain ⟨h1, h2⟩ := Prod.mk.inj (Option.some.inj h)
    subst h1
    subst h2
    exact ⟨hwt, hct, 0, by rw [nmul_quad_nil]⟩
  | cons ij ijs ih =>
    intro s s2 zs hwf he0l he1l hwt hct h
    rw [mul_quad_cons] at h
    rcases Option.bind_eq_some.mp h with ⟨p, hp, h2⟩
    obtain ⟨hwtp, hctp, F1, hnp⟩ :=
      mul_sum_nc hgc e0 e1 ij.1 ij.2 [0, 1] s p.1 ⟨0, 0⟩ p.2 hwf he0l he1l
        hwf.1 hwt hct (show _ = some (p.1, p.2) from hp)
    obtain ⟨⟨hwfp, hpnle, _⟩, _⟩ :=
      nmul_sum_spec
        (fun t a b opc t2 e2 hwf2 ha hb hc =>
          nrun_spec F1 t (call.ap a b opc) t2 e2 hwf2 ha hb hc)
        e0 e1 ij.1 ij.2 [0, 1] (nst s) (nst p.1) ⟨0, 0⟩ p.2 hwf he0l he1l
        hwf.1 hnp
    have hps : s.pool.length ≤ p.1.pool.length := nle_pool_len hpnle
    rcases Option.bind_eq_some.mp h2 with ⟨q, hq, h3⟩
    obtain ⟨hwt2, hct2, FR, hvr⟩ := ih p.1 q.1 q.2 hwfp
      (lt_of_lt_of_le he0l hps) (lt_of_lt_of_le he1l hps) hwtp hctp
      (show _ = some (q.1, q.2) from hq)
    obtain ⟨h6, h7⟩ := Prod.mk.inj (Option.some.inj h3)
    subst h6
    subst h7
    refine ⟨hwt2, hct2, max F1 FR, ?_⟩
    rw [nmul_quad_cons]
    simp only [nmul_sum_mono
      (fun t a b opc r hr => nrun_mono (le_max_left F1 FR) hr) e0 e1 ij.1 ij.2
      [0, 1] (nst s) ⟨0, 0⟩ (nst p.1, p.2) hnp, Option.some_bind]
    simp only [nmul_quad_mono
      (fun t a b opc r hr => nrun_mono (le_max_right F1 FR) hr) e0 e1 ijs
      (nst p.1) (nst q.1, q.2) hvr, Option.some_bind]

theorem kro_quad_nc {g : St → edge → edge → Nat → Option (St × edge)}
    (hgc : ∀ (s : St) (a b : edge) (opc : Nat) (s2 : St) (e2 : edge),
      nWFp (nst s) → a.v < s.pool.length → b.v < s.pool.length →
      wtabOK s → ctabOK s →
      g s a b opc = some (s2, e2) →
      wtabOK s2 ∧ ctabOK s2 ∧
      ∃ fuel, nrun fuel (nst s) (call.ap a b opc) = some (nst s2, e2))
    (e0 e1 : edge) :
    ∀ (idx : List Nat) (s s2 : St) (zs : List edge),
      nWFp (nst s) → e0.v < s.pool.length → e1.v < s.pool.length →
      wtabOK s → ctabOK s →
      kro_quad g e0 e1 idx s = some (s2, zs) →
      wtabOK s2 ∧ ctabOK s2 ∧
      ∃ fuel, nkro_quad (fun t a b op => nrun fuel t (call.ap a b op)) e0 e1
        idx (nst s) = some (nst s2, zs) := by
  intro idx
  induction idx with
  | nil =>
    intro s s2 zs _ _ _ hwt hct h
    rw [kro_quad_nil] at h
    obtain ⟨h1, h2⟩ := Prod.mk.inj (Option.some.inj h)
    subst h1
    subst h2
    exact ⟨hwt, hct, 0, by rw [nkro_quad_nil]⟩
  | cons i idx ih =>
    intro s s2 zs hwf he0l he1l hwt hct h
    rw [kro_quad_cons] at h
    rcases Option.bind_eq_some.mp h with ⟨p, hp, h2⟩
    have hc0l : (Ei s e0 i).v < s.pool.length := nchild_ok hwf he0l i
    obtain ⟨hwtp, hctp, F1, hnp⟩ :=
      hgc s (Ei s e0 i) e1 2 p.1 p.2 hwf hc0l he1l hwt hct
        (show _ = some (p.1, p.2) from hp)
    obtain ⟨⟨hwfp, hpnle, _⟩, _⟩ :=
      nrun_spec F1 (nst s) (call.ap (Ei s e0 i) e1 2) (nst p.1) p.2 hwf
        hc0l he1l hnp
    have hps : s.pool.length ≤ p.1.pool.length := nle_pool_len hpnle
    rcases Option.bind_eq_some.mp h2 with ⟨q, hq, h3⟩
    obtain ⟨hwt2, hct2, FR, hvr⟩ := ih p.1 q.1 q.2 hwfp
      (lt_of_lt_of_le he0l hps) (lt_of_lt_of_le he1l hps) hwtp hctp
      (show _ = some (q.1, q.2) from hq)
    obtain ⟨h6, h7⟩ := Prod.mk.inj (Option.some.inj h3)
    subst h6
    subst h7
    refine ⟨hwt2, hct2, max F1 FR, ?_⟩
    rw [nkro_quad_cons, nEi_nst s e0 i]
    simp only [nrun_mono (le_max_left F1 FR) hnp, Option.some_bind]
    simp only [nkro_quad_mono
      (fun t a b opc r hr => nrun_mono (le_max_right F1 FR) hr) e0 e1 idx
      (nst p.1) (nst q.1, q.2) hvr, Option.some_bind]

theorem run_nc :
    ∀ (fuel : Nat) (s : St) (c : call) (s2 : St) (e : edge),
      nWFp (nst s) → (ce0 c).v < s.pool.length → (ce1 c).v < s.pool.length →
      wtabOK s → ctabOK s →
      run fuel s c = some (s2, e) →
      wtabOK s2 ∧ ctabOK s2 ∧
      ∃ fuel', nrun fuel' (nst s) c = some (nst s2, e) := by
  intro fuel
  induction fuel with
  | zero =>
    intro s c s2 e _ _ _ _ _ h
    rw [run_zero] at h
    cases h
  | succ fuel ih =>
    intro s c s2 e hwf h0l h1l hwt hct h
    have hgc : ∀ (s : St) (a b : edge) (opc : Nat) (s2 : St) (e2 : edge),
        nWFp (nst s) → a.v < s.pool.length → b.v < s.pool.length →
        wtabOK s → ctabOK s →
        run fuel s (call.ap a b opc) = some (s2, e2) →
        wtabOK s2 ∧ ctabOK s2 ∧
        ∃ fuel', nrun fuel' (nst s) (call.ap a b opc) = some (nst s2, e2) :=
      fun s a b opc s2 e2 hwf2 ha hb hw2 hc2 hcall =>
        ih s (call.ap a b opc) s2 e2 hwf2 ha hb hw2 hc2 hcall
    rw [run_succ] at h
    cases c with
    | ap e0 e1 op =>
      replace h0l : e0.v < s.pool.length := h0l
      replace h1l : e1.v < s.pool.length := h1l
      match op, h with
      | 0, h =>
        rw [run_step_ap_add] at h
        by_cases hf : (ct_find s.ctab e0 e1 0).v ≠ invalid_value
        · rw [if_pos hf] at h
          obtain ⟨h5, h6⟩ := Prod.mk.inj (Option.some.inj h)
          subst h5
          subst h6
          obtain ⟨kv, hmem, he0, he1, hop, her⟩ := ct_find_ne_invalid hf
          obtain ⟨_, _, F, hrun⟩ := hct kv hmem
          rw [he0, he1, hop, her] at hrun
          exact ⟨hwt, hct, F, hrun⟩
        · rw [if_neg hf] at h
          rcases Option.bind_eq_some.mp h with ⟨p, hp, h2⟩
          obtain ⟨h5, h6⟩ := Prod.mk.inj (Option.some.inj h2)
          subst h6
          obtain ⟨hwtp, hctp, F, hF⟩ :=
            ih s (call.addc e0 e1) p.1 p.2 hwf h0l h1l hwt hct
              (show _ = some (p.1, p.2) from hp)
          obtain ⟨⟨hwfp, hpnle, hpl⟩, hpst⟩ :=
            nrun_spec F (nst s) (call.addc e0 e1) (nst p.1) p.2 hwf h0l h1l hF
          subst h5
          refine ⟨fun kv hkv => hwtp kv hkv, ?_, F + 1, ?_⟩
          · intro kv hkv
            rcases aset_mem hkv with rfl | hold
            · refine ⟨lt_of_lt_of_le h0l (nle_pool_len hpnle),
                lt_of_lt_of_le h1l (nle_pool_len hpnle), F + 1, ?_⟩
              rw [nrun_succ, nrun_step_ap_add]
              exact hpst _ (nle_refl _)
            · exact hctp kv hold
          · rw [nrun_succ, nrun_step_ap_add]
            exact hF
      | 1, h =>
        rw [run_step_ap_mul] at h
        by_cases hf : (ct_find s.ctab e0 e1 1).v ≠ invalid_value
        · rw [if_pos hf] at h
          obtain ⟨h5, h6⟩ := Prod.mk.inj (Option.some.inj h)
          subst h5
          subst h6
          obtain ⟨kv, hmem, he0, he1, hop, her⟩ := ct_find_ne_invalid hf
          obtain ⟨_, _, F, hrun⟩ := hct kv hmem
          rw [he0, he1, hop, her] at hrun
          exact ⟨hwt, hct, F, hrun⟩
        · rw [if_neg hf] at h
          rcases Option.bind_eq_some.mp h with ⟨p, hp, h2⟩
          obtain ⟨h5, h6⟩ := Prod.mk.inj (Option.some.inj h2)
          subst h6
          obtain ⟨hwtp, hctp, F, hF⟩ :=
            ih s (call.mulc e0 e1) p.1 p.2 hwf h0l h1l hwt hct
              (show _ = some (p.1, p.2) from hp)
          obtain ⟨⟨hwfp, hpnle, hpl⟩, hpst⟩ :=
            nrun_spec F (nst s) (call.mulc e0 e1) (nst p.1) p.2 hwf h0l h1l hF
          subst h5
          refine ⟨fun kv hkv => hwtp kv hkv, ?_, F + 1, ?_⟩
          · intro kv hkv
            rcases aset_mem hkv with rfl | hold
            · refine ⟨lt_of_lt_of_le h0l (nle_pool_len hpnle),
                lt_of_lt_of_le h1l (nle_pool_len hpnle), F + 1, ?_⟩
              rw [nrun_succ, nrun_step_ap_mul]
              exact hpst _ (nle_refl _)
            · exact hctp kv hold
          · rw [nrun_succ, nrun_step_ap_mul]
            exact hF
      | 2, h =>
        rw [run_step_ap_kro] at h
        by_cases hf : (ct_find s.ctab e0 e1 2).v ≠ invalid_value
        · rw [if_pos hf] at h
          obtain ⟨h5, h6⟩ := Prod.mk.inj (Option.some.inj h)
          subst h5
          subst h6
          obtain ⟨kv, hmem, he0, he1, hop, her⟩ := ct_find_ne_invalid hf
          obtain ⟨_, _, F, hrun⟩ := hct kv hmem
          rw [he0, he1, hop, her] at hrun
          exact ⟨hwt, hct, F, hrun⟩
        · rw [if_neg hf] at h
          rcases Option.bind_eq_some.mp h with ⟨p, hp, h2⟩
          obtain ⟨h5, h6⟩ := Prod.mk.inj (Option.some.inj h2)
          subst h6
          obtain ⟨hwtp, hctp, F, hF⟩ :=
            ih s (call.kroc e0 e1) p.1 p.2 hwf h0l h1l hwt hct
              (show _ = some (p.1, p.2) from hp)
          obtain ⟨⟨hwfp, hpnle, hpl⟩, hpst⟩ :=
            nrun_spec F (nst s) (call.kroc e0 e1) (nst p.1) p.2 hwf h0l h1l hF
          subst h5
          refine ⟨fun kv hkv => hwtp kv hkv, ?_, F + 1, ?_⟩
          · intro kv hkv
            rcases aset_mem hkv with rfl | hold
            · refine ⟨lt_of_lt_of_le h0l (nle_pool_len hpnle),
                lt_of_lt_of_le h1l (nle_pool_len hpnle), F + 1, ?_⟩
              rw [nrun_succ, nrun_step_ap_kro]
              exact hpst _ (nle_refl _)
            · exact hctp kv hold
          · rw [nrun_succ, nrun_step_ap_kro]
            exact hF
      | (m + 3), h =>
        rw [run_step_ap_bad] at h
        by_cases hf : (ct_find s.ctab e0 e1 (m + 3)).v ≠ invalid_value
        · rw [if_pos hf] at h
          obtain ⟨h5, h6⟩ := Prod.mk.inj (Option.some.inj h)
          subst h5
          subst h6
          obtain ⟨kv, hmem, he0, he1, hop, her⟩ := ct_find_ne_invalid hf
          obtain ⟨_, _, F, hrun⟩ := hct kv hmem
          rw [he0, he1, hop, her] at hrun
          exact ⟨hwt, hct, F, hrun⟩
        · rw [if_neg hf] at h
          cases h
    | addc e0 e1 =>
      replace h0l : e0.v < s.pool.length := h0l
      replace h1l : e1.v < s.pool.length := h1l
      rw [run_step_addc] at h
      by_cases hc1 : (term e0 && e0.w = 0) = true
      · rw [if_pos hc1] at h
        obtain ⟨h5, h6⟩ := Prod.mk.inj (Option.some.inj h)
        subst h5
        subst h6
        exact ⟨hwt, hct, 1, by rw [nrun_succ, nrun_step_addc, if_pos hc1]⟩
      · rw [if_neg hc1] at h
        by_cases hc2 : (term e0 && term e1) = true
        · rw [if_pos hc2] at h
          rcases Option.bind_eq_some.mp h with ⟨p, hp, h2⟩
          obtain ⟨h5, h6⟩ := Prod.mk.inj (Option.some.inj h2)
          subst h5
          subst h6
          obtain ⟨hp1, hp2, hp3, hwtp, hnap⟩ :=
            apply_weight_nc hwt (show _ = some (p.1, p.2) from hp)
          obtain ⟨_, _, _, hpnle, _⟩ := napply_weight_spec hnap
          refine ⟨hwtp, ctabOK_mono hp3 hwf hpnle hct, 1, ?_⟩
          rw [nrun_succ, nrun_step_addc, if_neg hc1, if_pos hc2]
          simp only [hnap, Option.some_bind]
        · rw [if_neg hc2] at h
          by_cases hc3 : get_var s e0.v > get_var s e1.v
          · rw [if_pos hc3] at h
            obtain ⟨hwt2, hct2, F, hF⟩ :=
              ih s (call.addc e1 e0) s2 e hwf h1l h0l hwt hct h
            refine ⟨hwt2, hct2, F + 1, ?_⟩
            rw [nrun_succ, nrun_step_addc, if_neg hc1, if_neg hc2,
              nget_var_nst s e0.v, nget_var_nst s e1.v, if_pos hc3]
            exact hF
          · rw [if_neg hc3] at h
            rcases Option.bind_eq_some.mp h with ⟨p, hp, h2⟩
            obtain ⟨hwtp, hctp, F1, hnq⟩ :=
              add_quad_nc hgc e0 e1 [0, 1, 2, 3] s p.1 p.2 hwf h0l h1l hwt hct
                (show _ = some (p.1, p.2) from hp)
            obtain ⟨⟨hwfp, hpnle, hpall⟩, _⟩ :=
              nadd_quad_spec
                (fun t a b opc t2 e2 hw ha hb hc =>
                  nrun_spec F1 t (call.ap a b opc) t2 e2 hw ha hb hc)
                e0 e1 [0, 1, 2, 3] (nst s) (nst p.1) p.2 hwf h0l h1l hnq
            rcases Option.bind_eq_some.mp h2 with ⟨q, hq, h3⟩
            obtain ⟨hq1, hq2, hq3, hwtq, hnq2⟩ :=
              normalize_weights_nc hwtp (show _ = some (q.1, q.2.1, q.2.2) from hq)
            obtain ⟨_, _, hqnle, _⟩ := nnormalize_weights_spec hnq2
            have hwfq : nWFp (nst q.1) :=
              nWFp_congr (show (nst q.1).pool = (nst p.1).pool from hq1) hwfp
            have hctq : ctabOK q.1 := ctabOK_mono hq3 hwfp hqnle hctp
            rcases Option.bind_eq_some.mp h3 with ⟨m, hm, h4⟩
            obtain ⟨hm1, hm2, hm3, hnmk⟩ :=
              make_node_nc (show _ = some (m.1, m.2) from hm)
            have hmnle : nle (nst q.1) (nst m.2) := nmake_node_nle hnmk
            obtain ⟨h5, h6⟩ := Prod.mk.inj (Option.some.inj h4)
            subst h5
            subst h6
            refine ⟨wtabOK_mono hm2 hmnle hwtq,
              ctabOK_mono hm1 hwfq hmnle hctq, F1 + 1, ?_⟩
            rw [nrun_succ, nrun_step_addc, if_neg hc1, if_neg hc2,
              nget_var_nst s e0.v, nget_var_nst s e1.v, if_neg hc3]
            simp only [hnq, Option.some_bind]
            simp only [hnq2, Option.some_bind]
            rw [nget_var_nst p.1 e0.v]
            simp only [hnmk, Option.some_bind]
    | mulc e0 e1 =>
      replace h0l : e0.v < s.pool.length := h0l
      replace h1l : e1.v < s.pool.length := h1l
      rw [run_step_mulc] at h
      by_cases hc1 : (term e0 && e0.w = 0) = true
      · rw [if_pos hc1] at h
        obtain ⟨h5, h6⟩ := Prod.mk.inj (Option.some.inj h)
        subst h5
        subst h6
        exact ⟨hwt, hct, 1, by rw [nrun_succ, nrun_step_mulc, if_pos hc1]⟩
      · rw [if_neg hc1] at h
        by_cases hc2 : (term e0 && e0.w = 1) = true
        · rw [if_pos hc2] at h
          obtain ⟨h5, h6⟩ := Prod.mk.inj (Option.some.inj h)
          subst h5
          subst h6
          exact ⟨hwt, hct, 1, by
            rw [nrun_succ, nrun_step_mulc, if_neg hc1, if_pos hc2]⟩
        · rw [if_neg hc2] at h
          by_cases hc3 : term e0 = true
          · rw [if_pos hc3] at h
            rcases Option.bind_eq_some.mp h with ⟨p, hp, h2⟩
            obtain ⟨h5, h6⟩ := Prod.mk.inj (Option.some.inj h2)
            subst h5
            subst h6
            obtain ⟨hp1, hp2, hp3, hwtp, hnap⟩ :=
              apply_weight_nc hwt (show _ = some (p.1, p.2) from hp)
            obtain ⟨_, _, _, hpnle, _⟩ := napply_weight_spec hnap
            refine ⟨hwtp, ctabOK_mono hp3 hwf hpnle hct, 1, ?_⟩
            rw [nrun_succ, nrun_step_mulc, if_neg hc1, if_neg hc2, if_pos hc3]
            simp only [hnap, Option.some_bind]
          · rw [if_neg hc3] at h
            by_cases hc4 : get_var s e0.v > get_var s e1.v
            · rw [if_pos hc4] at h
              obtain ⟨hwt2, hct2, F, hF⟩ :=
                ih s (call.addc e1 e0) s2 e hwf h1l h0l hwt hct h
              refine ⟨hwt2, hct2, F + 1, ?_⟩
              rw [nrun_succ, nrun_step_mulc, if_neg hc1, if_neg hc2, if_neg hc3,
                nget_var_nst s e0.v, nget_var_nst s e1.v, if_pos hc4]
              exact hF
            · rw [if_neg hc4] at h
              rcases Option.bind_eq_some.mp h with ⟨p, hp, h2⟩
              obtain ⟨hwtp, hctp, F1, hnq⟩ :=
                mul_quad_nc hgc e0 e1 [(0, 0), (0, 1), (2, 0), (2, 1)] s p.1 p.2
                  hwf h0l h1l hwt hct (show _ = some (p.1, p.2) from hp)
              obtain ⟨⟨hwfp, hpnle, hpall⟩, _⟩ :=
                nmul_quad_spec
                  (fun t a b opc t2 e2 hw ha hb hc =>
                    nrun_spec F1 t (call.ap a b opc) t2 e2 hw ha hb hc)
                  e0 e1 [(0, 0), (0, 1), (2, 0), (2, 1)] (nst s) (nst p.1) p.2
                  hwf h0l h1l hnq
              rcases Option.bind_eq_some.mp h2 with ⟨q, hq, h3⟩
              obtain ⟨hq1, hq2, hq3, hwtq, hnq2⟩ :=
                normalize_weights_nc hwtp
                  (show _ = some (q.1, q.2.1, q.2.2) from hq)
              obtain ⟨_, _, hqnle, _⟩ := nnormalize_weights_spec hnq2
              have hwfq : nWFp (nst q.1) :=
                nWFp_congr (show (nst q.1).pool = (nst p.1).pool from hq1) hwfp
              have hctq : ctabOK q.1 := ctabOK_mono hq3 hwfp hqnle hctp
              rcases Option.bind_eq_some.mp h3 with ⟨m, hm, h4⟩
              obtain ⟨hm1, hm2, hm3, hnmk⟩ :=
                make_node_nc (show _ = some (m.1, m.2) from hm)
              have hmnle : nle (nst q.1) (nst m.2) := nmake_node_nle hnmk
              obtain ⟨h5, h6⟩ := Prod.mk.inj (Option.some.inj h4)
              subst h5
              subst h6
              refine ⟨wtabOK_mono hm2 hmnle hwtq,
                ctabOK_mono hm1 hwfq hmnle hctq, F1 + 1, ?_⟩
              rw [nrun_succ, nrun_step_mulc, if_neg hc1, if_neg hc2, if_neg hc3,
                nget_var_nst s e0.v, nget_var_nst s e1.v, if_neg hc4]
              simp only [hnq, Option.some_bind]
              simp only [hnq2, Option.some_bind]
              rw [nget_var_nst p.1 e0.v]
              simp only [hnmk, Option.some_bind]
    | kroc e0 e1 =>
      replace h0l : e0.v < s.pool.length := h0l
      replace h1l : e1.v < s.pool.length := h1l
      rw [run_step_kroc] at h
      by_cases hc1 : (term e0 && e0.w = 0) = true
      · rw [if_pos hc1] at h
        obtain ⟨h5, h6⟩ := Prod.mk.inj (Option.some.inj h)
        subst h5
        subst h6
        exact ⟨hwt, hct, 1, by rw [nrun_succ, nrun_step_kroc, if_pos hc1]⟩
      · rw [if_neg hc1] at h
        by_cases hc2 : (term e0 && e0.w = 1) = true
        · rw [if_pos hc2] at h
          obtain ⟨h5, h6⟩ := Prod.mk.inj (Option.some.inj h)
          subst h5
          subst h6
          exact ⟨hwt, hct, 1, by
            rw [nrun_succ, nrun_step_kroc, if_neg hc1, if_pos hc2]⟩
        · rw [if_neg hc2] at h
          by_cases hc3 : term e0 = true
          · rw [if_pos hc3] at h
            rcases Option.bind_eq_some.mp h with ⟨p, hp, h2⟩
            obtain ⟨h5, h6⟩ := Prod.mk.inj (Option.some.inj h2)
            subst h5
            subst h6
            obtain ⟨hp1, hp2, hp3, hwtp, hnap⟩ :=
              apply_weight_nc hwt (show _ = some (p.1, p.2) from hp)
            obtain ⟨_, _, _, hpnle, _⟩ := napply_weight_spec hnap
            refine ⟨hwtp, ctabOK_mono hp3 hwf hpnle hct, 1, ?_⟩
            rw [nrun_succ, nrun_step_kroc, if_neg hc1, if_neg hc2, if_pos hc3]
            simp only [hnap, Option.some_bind]
          · rw [if_neg hc3] at h
            by_cases hc4 : get_var s e0.v < get_var s e1.v
            · rw [if_pos hc4] at h
              rcases Option.bind_eq_some.mp h with ⟨p, hp, h2⟩
              obtain ⟨hwtp, hctp, F1, hnq⟩ :=
                kro_quad_nc hgc e0 e1 [0, 1, 2, 3] s p.1 p.2 hwf h0l h1l hwt hct
                  (show _ = some (p.1, p.2) from hp)
              obtain ⟨⟨hwfp, hpnle, hpall⟩, _⟩ :=
                nkro_quad_spec
                  (fun t a b opc t2 e2 hw ha hb hc =>
                    nrun_spec F1 t (call.ap a b opc) t2 e2 hw ha hb hc)
                  e0 e1 [0, 1, 2, 3] (nst s) (nst p.1) p.2 hwf h0l h1l hnq
              rcases Option.bind_eq_some.mp h2 with ⟨q, hq, h3⟩
              obtain ⟨hq1, hq2, hq3, hwtq, hnq2⟩ :=
                normalize_weights_nc hwtp
                  (show _ = some (q.1, q.2.1, q.2.2) from hq)
              obtain ⟨_, _, hqnle, _⟩ := nnormalize_weights_spec hnq2
              have hwfq : nWFp (nst q.1) :=
                nWFp_congr (show (nst q.1).pool = (nst p.1).pool from hq1) hwfp
              have hctq : ctabOK q.1 := ctabOK_mono hq3 hwfp hqnle hctp
              rcases Option.bind_eq_some.mp h3 with ⟨r, hr, h4⟩
              obtain ⟨hr1, hr2, hr3, hwtr, hnr⟩ :=
                apply_weight_nc hwtq (show _ = some (r.1, r.2) from hr)
              obtain ⟨_, _, _, hrnle, _⟩ := napply_weight_spec hnr
              have hwfr : nWFp (nst r.1) :=
                nWFp_congr (show (nst r.1).pool = (nst q.1).pool from hr1) hwfq
              have hctr : ctabOK r.1 := ctabOK_mono hr3 hwfq hrnle hctq
              rcases Option.bind_eq_some.mp h4 with ⟨m, hm, h5⟩
              obtain ⟨hm1, hm2, hm3, hnmk⟩ :=
                make_node_nc (show _ = some (m.1, m.2) from hm)
              have hmnle : nle (nst r.1) (nst m.2) := nmake_node_nle hnmk
              obtain ⟨h6, h7⟩ := Prod.mk.inj (Option.some.inj h5)
              subst h6
              subst h7
              refine ⟨wtabOK_mono hm2 hmnle hwtr,
                ctabOK_mono hm1 hwfr hmnle hctr, F1 + 1, ?_⟩
              rw [nrun_succ, nrun_step_kroc, if_neg hc1, if_neg hc2, if_neg hc3,
                nget_var_nst s e0.v, nget_var_nst s e1.v, if_pos hc4]
              simp only [hnq, Option.some_bind]
              simp only [hnq2, Option.some_bind]
              simp only [hnr, Option.some_bind]
              rw [nget_var_nst p.1 e0.v]
              simp only [hnmk, Option.some_bind]
            · rw [if_neg hc4] at h
              cases h

theorem c7s1_nwfp : nWFp (nst c7s1) := by
  refine ⟨by decide, ?_⟩
  intro h nd hg c hc
  match h, hg with
  | 0, hg =>
    obtain rfl := (Option.some.inj hg).symm
    have hc' : c ∈ [0, 0, 0, 0] := hc
    have hc0 : c = 0 := by simpa using hc'
    subst hc0
    decide
  | (n + 1), hg =>
    rw [show (nst c7s1).pool.get? (n + 1) = none from rfl] at hg
    cases hg

theorem c7s1_wtabOK : wtabOK c7s1 :=
  fun kv hkv => absurd hkv (List.not_mem_nil kv)

theorem c7s1_ctabOK : ctabOK c7s1 :=
  fun kv hkv => absurd hkv (List.not_mem_nil kv)

theorem c7s2_wtabOK : wtabOK c7s2 := by
  intro kv hkv
  obtain rfl := List.mem_singleton.mp hkv
  show napply_weight (nst c7s2) 1 1 0 = some (nst c7s2, 2)
  decide

theorem c7s2_ctabOK : ctabOK c7s2 := by
  intro kv hkv
  obtain rfl := List.mem_singleton.mp hkv
  refine ⟨by decide, by decide, 2, ?_⟩
  show nrun 2 (nst c7s2) (call.ap ⟨1, 0⟩ ⟨1, 0⟩ 0) = some (nst c7s2, ⟨2, 0⟩)
  decide

theorem c7_happ1 :
    apply_edge 2 c7s1 ⟨1, 0⟩ ⟨1, 0⟩ 0 = some (c7s2, ⟨2, 0⟩) := by
  decide

theorem c7_happ2 :
    apply_edge 1 c7s2 ⟨1, 0⟩ ⟨1, 0⟩ 0 = some (c7s2, ⟨2, 0⟩) := by
  decide

/-- C7: the computed (apply) table is observationally invisible.  Two engine
states with the same core (node pool, unique-table slots, weight vector) but
arbitrary coherent caches — present, absent, cleared or evicted entries —
give `apply` results with the same returned edge and the same resulting core,
and coherence of both caches is preserved.  Coherence (`wtabOK`/`ctabOK`)
says each cache entry reproduces what the cache-free evaluator computes on
the current core without changing it; empty caches satisfy it trivially, and
the theorem itself shows every state the engine reaches from a coherent one
stays coherent. -/
theorem c7_cache_invisible {s1 s2 : St} {fuel1 fuel2 : Nat} {e0 e1 : edge}
    {op : Nat} {t1 t2 : St} {r1 r2 : edge}
    (hn : nst s1 = nst s2)
    (hwf : nWFp (nst s1))
    (h0 : e0.v < s1.pool.length) (h1 : e1.v < s1.pool.length)
    (hw1 : wtabOK s1) (hc1 : ctabOK s1) (hw2 : wtabOK s2) (hc2 : ctabOK s2)
    (happ1 : apply_edge fuel1 s1 e0 e1 op = some (t1, r1))
    (happ2 : apply_edge fuel2 s2 e0 e1 op = some (t2, r2)) :
    (r1 = r2 ∧ nst t1 = nst t2) ∧
    wtabOK t1 ∧ ctabOK t1 ∧ wtabOK t2 ∧ ctabOK t2 := by
  obtain ⟨hwt1, hct1, F1, hr1⟩ :=
    run_nc fuel1 s1 (call.ap e0 e1 op) t1 r1 hwf h0 h1 hw1 hc1 happ1
  have hp12 : s1.pool = s2.pool := congrArg NSt.pool hn
  have hwf2 : nWFp (nst s2) := hn ▸ hwf
  have h0' : e0.v < s2.pool.length := by
    rw [← hp12]
    exact h0
  have h1' : e1.v < s2.pool.length := by
    rw [← hp12]
    exact h1
  obtain ⟨hwt2, hct2, F2, hr2⟩ :=
    run_nc fuel2 s2 (call.ap e0 e1 op) t2 r2 hwf2 h0' h1' hw2 hc2 happ2
  rw [← hn] at hr2
  have ha := nrun_mono (le_max_left F1 F2) hr1
  have hb := nrun_mono (le_max_right F1 F2) hr2
  rw [ha] at hb
  obtain ⟨h5, h6⟩ := Prod.mk.inj (Option.some.inj hb)
  exact ⟨⟨h6, h5⟩, hwt1, hct1, hwt2, hct2⟩

theorem c7_witness :
    nst c7s1 = nst c7s2 ∧ nWFp (nst c7s1) ∧
    (⟨1, 0⟩ : edge).v < c7s1.pool.length ∧
    wtabOK c7s1 ∧ ctabOK c7s1 ∧ wtabOK c7s2 ∧ ctabOK c7s2 ∧
    apply_edge 2 c7s1 ⟨1, 0⟩ ⟨1, 0⟩ 0 = some (c7s2, ⟨2, 0⟩) ∧
    apply_edge 1 c7s2 ⟨1, 0⟩ ⟨1, 0⟩ 0 = some (c7s2, ⟨2, 0⟩) ∧
    (((⟨2, 0⟩ : edge) = ⟨2, 0⟩ ∧ nst c7s2 = nst c7s2) ∧
      wtabOK c7s2 ∧ ctabOK c7s2 ∧ wtabOK c7s2 ∧ ctabOK c7s2) :=
  ⟨rfl, c7s1_nwfp, by decide, c7s1_wtabOK, c7s1_ctabOK, c7s2_wtabOK,
    c7s2_ctabOK, c7_happ1, c7_happ2,
    @c7_cache_invisible c7s1 c7s2 2 1 ⟨1, 0⟩ ⟨1, 0⟩ 0 c7s2 c7s2 ⟨2, 0⟩ ⟨2, 0⟩
      rfl c7s1_nwfp (by decide) (by decide)
      c7s1_wtabOK c7s1_ctabOK c7s2_wtabOK c7s2_ctabOK c7_happ1 c7_happ2⟩
